import Mathlib

/-!
Verification development for the MediTrack prescription OCR pipeline
(src/ocr_service.py): a shallow embedding of the text normalizer
(_clean_text), the prescription field extractor (parse_prescription_text)
and the extraction orchestrator (extract_prescription_data), together with
theorems settling the specification claims.

Python regular expressions are embedded through a small backtracking
engine (`RE`, `reM`) with Python `re` semantics: leftmost search,
greedy/lazy quantifiers with backtracking, ordered alternation, capture
groups (last capture wins), word boundaries and anchors.  Each pattern of
the source is hand-compiled to an `RE` value next to its definition.
-/

set_option maxRecDepth 20000

namespace MediTrack

/-! ## Characters and Python string helpers (ASCII fragment) -/

/-- Python regex whitespace class for the ASCII fragment handled here. -/
def isWs (c : Char) : Bool :=
  c = ' ' || c = '\t' || c = '\n' || c = '\r' || c = Char.ofNat 11 || c = Char.ofNat 12

def isDigitC (c : Char) : Bool := '0' ≤ c && c ≤ '9'

def isUpperC (c : Char) : Bool := 'A' ≤ c && c ≤ 'Z'

def isLowerC (c : Char) : Bool := 'a' ≤ c && c ≤ 'z'

def isAlphaC (c : Char) : Bool := isUpperC c || isLowerC c

/-- Python regex word character class. -/
def isWordC (c : Char) : Bool := isAlphaC c || isDigitC c || c = '_'

def lowC (c : Char) : Char := if isUpperC c then Char.ofNat (c.toNat + 32) else c

def upC (c : Char) : Char := if isLowerC c then Char.ofNat (c.toNat - 32) else c

def lowS (l : List Char) : List Char := l.map lowC

/-- Python str.strip() on a character list. -/
def pyStrip (l : List Char) : List Char :=
  ((l.dropWhile isWs).reverse.dropWhile isWs).reverse

/-- Python str.strip(chars) with an explicit character set. -/
def stripSet (p : Char → Bool) (l : List Char) : List Char :=
  ((l.dropWhile p).reverse.dropWhile p).reverse

theorem dwLen {α : Type} (p : α → Bool) : ∀ l : List α,
    (l.dropWhile p).length ≤ l.length
  | [] => Nat.le_refl _
  | a :: l => by
    simp only [List.dropWhile_cons]
    split
    · exact Nat.le_trans (dwLen p l) (Nat.le_succ _)
    · exact Nat.le_refl _

/-- Python str.split() (whitespace split, no empty fields). -/
def pySplitWsGo (cur : List Char) : List Char → List (List Char)
  | [] => if cur.isEmpty then [] else [cur.reverse]
  | c :: cs =>
    if isWs c then
      if cur.isEmpty then pySplitWsGo [] cs else cur.reverse :: pySplitWsGo [] cs
    else pySplitWsGo (c :: cur) cs

def pySplitWs (l : List Char) : List (List Char) := pySplitWsGo [] l

/-- Python str.splitlines() for the line-break characters modelled here
(`\r\n` counts as one break). -/
def pySplitlinesGo (cur : List Char) : List Char → List (List Char)
  | [] => if cur.isEmpty then [] else [cur.reverse]
  | '\r' :: '\n' :: cs => cur.reverse :: pySplitlinesGo [] cs
  | '\r' :: cs => cur.reverse :: pySplitlinesGo [] cs
  | c :: cs =>
    if c = '\n' || c = Char.ofNat 11 || c = Char.ofNat 12 then
      cur.reverse :: pySplitlinesGo [] cs
    else
      pySplitlinesGo (c :: cur) cs

def pySplitlines (l : List Char) : List (List Char) := pySplitlinesGo [] l

/-- Substring containment (Python `needle in haystack`). -/
def containsSub (needle : List Char) : List Char → Bool
  | [] => decide (needle = [])
  | c :: cs => needle.isPrefixOf (c :: cs) || containsSub needle cs

/-- Numeric value of a digit string (Python int() on a digits-only group). -/
def natOfDigits (l : List Char) : Nat :=
  l.foldl (fun a c => a * 10 + (c.toNat - 48)) 0

/-! ## The regex engine -/

/-- Regular expression abstract syntax, hand-compiled from the Python
patterns.  `cls` is a single-character class, `rep` a bounded or unbounded
greedy/lazy repetition, `grp` a numbered capture group, `bol`/`eol` the
`^`/`$` anchors (no MULTILINE in the source), `wordB` the `\b` assertion. -/
inductive RE where
  | eps
  | cls (p : Char → Bool)
  | seq (a b : RE)
  | alt (a b : RE)
  | rep (a : RE) (lo : Nat) (hi : Option Nat) (greedy : Bool)
  | grp (i : Nat) (a : RE)
  | bol
  | eol
  | wordB

/-- Captured groups: group index paired with captured text; the most
recently closed capture for an index is first (Python keeps last). -/
abbrev Groups := List (Nat × List Char)

def getG (g : Groups) (i : Nat) : Option (List Char) :=
  (g.find? (fun p => p.1 == i)).map (·.2)

/-- Python truthiness of a group value: participated and non-empty. -/
def truthyG : Option (List Char) → Bool
  | some (_ :: _) => true
  | _ => false

/-- The backtracking matcher in continuation-passing style.  `prev` is the
character immediately before the current position (for `\b` and `^`),
`s` the remaining input and `g` the captures along the current path.
`fuel` bounds recursion depth; all uses supply ample fuel. -/
def reM : Nat → RE → Option Char → List Char → Groups →
    (Option Char → List Char → Groups → Option (Groups × List Char)) →
    Option (Groups × List Char)
  | 0, _, _, _, _, _ => none
  | fuel + 1, r, prev, s, g, k =>
    match r with
    | .eps => k prev s g
    | .cls p =>
      match s with
      | [] => none
      | c :: cs => if p c then k (some c) cs g else none
    | .seq a b => reM fuel a prev s g (fun p2 s2 g2 => reM fuel b p2 s2 g2 k)
    | .alt a b =>
      match reM fuel a prev s g k with
      | some res => some res
      | none => reM fuel b prev s g k
    | .grp i a =>
      reM fuel a prev s g (fun p2 s2 g2 =>
        k p2 s2 ((i, s.take (s.length - s2.length)) :: g2))
    | .bol => if prev.isNone then k prev s g else none
    | .eol => match s with | [] => k prev s g | _ :: _ => none
    | .wordB =>
      let pw := match prev with | some c => isWordC c | none => false
      let nw := match s with | c :: _ => isWordC c | [] => false
      if pw != nw then k prev s g else none
    | .rep a lo hi greedy =>
      match lo with
      | n + 1 =>
        reM fuel a prev s g (fun p2 s2 g2 =>
          reM fuel (.rep a n (hi.map (· - 1)) greedy) p2 s2 g2 k)
      | 0 =>
        match hi with
        | some 0 => k prev s g
        | _ =>
          if greedy then
            match reM fuel a prev s g (fun p2 s2 g2 =>
                reM fuel (.rep a 0 (hi.map (· - 1)) greedy) p2 s2 g2 k) with
            | some res => some res
            | none => k prev s g
          else
            match k prev s g with
            | some res => some res
            | none =>
              reM fuel a prev s g (fun p2 s2 g2 =>
                reM fuel (.rep a 0 (hi.map (· - 1)) greedy) p2 s2 g2 k)

/-- Depth budget for one anchored match attempt. -/
def fuelFor (s : List Char) : Nat := 4000 + 128 * s.length

/-- One anchored attempt at the current position. -/
def reTry (r : RE) (prev : Option Char) (s : List Char) :
    Option (Groups × List Char) :=
  reM (fuelFor s) r prev s [] (fun _ s2 g2 => some (g2, s2))

/-- Python re.search: leftmost match; returns (matched text, groups). -/
def reSearchGo (r : RE) (prev : Option Char) (s : List Char) :
    Option (List Char × Groups) :=
  match reTry r prev s with
  | some (g, s2) => some (s.take (s.length - s2.length), g)
  | none =>
    match s with
    | [] => none
    | c :: cs => reSearchGo r (some c) cs

def reSearch (r : RE) (s : List Char) : Option (List Char × Groups) :=
  reSearchGo r none s

/-- Python re.match: anchored attempt at position 0. -/
def reMatchA (r : RE) (s : List Char) : Option (List Char × Groups) :=
  match reTry r none s with
  | some (g, s2) => some (s.take (s.length - s2.length), g)
  | none => none

/-- Python re.sub with a constant replacement: replace every match,
scanning left to right, tracking the previous original character. -/
def reSubGo (r : RE) (repl : List Char) : Nat → Option Char → List Char → List Char
  | 0, _, s => s
  | fuel + 1, prev, s =>
    match reTry r prev s with
    | some (_, s2) =>
      let consumed := s.length - s2.length
      if consumed = 0 then
        match s with
        | [] => repl
        | c :: cs => repl ++ c :: reSubGo r repl fuel (some c) cs
      else
        repl ++ reSubGo r repl fuel ((s.take consumed).getLast?) s2
    | none =>
      match s with
      | [] => []
      | c :: cs => c :: reSubGo r repl fuel (some c) cs

def reSub (r : RE) (repl : List Char) (s : List Char) : List Char :=
  reSubGo r repl (s.length + 1) none s

/-! ## Pattern-building helpers -/

def chC (ch : Char) : RE := .cls (fun c => c == ch)

def chCI (ch : Char) : RE := .cls (fun c => lowC c == lowC ch)

def reSeqL : List RE → RE
  | [] => .eps
  | [r] => r
  | r :: rs => .seq r (reSeqL rs)

def reAltL : List RE → RE
  | [] => .eps
  | [r] => r
  | r :: rs => .alt r (reAltL rs)

def litCI (s : String) : RE := reSeqL (s.data.map chCI)

def litEx (s : String) : RE := reSeqL (s.data.map chC)

def altLitCI (ws : List String) : RE := reAltL (ws.map litCI)

def reOpt (a : RE) : RE := .rep a 0 (some 1) true

def reStar (a : RE) : RE := .rep a 0 none true

def rePlus (a : RE) : RE := .rep a 1 none true

def reStarLazy (a : RE) : RE := .rep a 0 none false

def clsDot : RE := .cls (fun c => c != '\n')

def clsD : RE := .cls isDigitC

def clsWs : RE := .cls isWs

def clsAlpha : RE := .cls isAlphaC

/-! ## The text normalizer `_clean_text`

Each `re.sub` of the source is hand-compiled to a dedicated left-to-right
scanner with Python `re.sub` semantics (leftmost match, replace, continue
after the match).
-/

/-- Characters of the class `[,.:;!?]` (punctuation spacing rule). -/
def isPunct (c : Char) : Bool :=
  c = ',' || c = '.' || c = ':' || c = ';' || c = '!' || c = '?'

/-- `re.sub(r'\s+', ' ', line)`: collapse every whitespace run to one
space.  `skipping` records that the current run's space was already
emitted. -/
def collapseGo (skipping : Bool) : List Char → List Char
  | [] => []
  | c :: cs =>
    if isWs c then
      if skipping then collapseGo true cs else ' ' :: collapseGo true cs
    else c :: collapseGo false cs

def collapseWs (l : List Char) : List Char := collapseGo false l

/-- `re.sub(r'\s*([,.:;!?])\s*', r'\1 ', line)`: a whitespace run
(possibly empty) followed by punctuation, and the trailing whitespace,
become the punctuation character followed by one space.  `pend` buffers
whitespace not yet known to precede punctuation (reversed); `skip` drops
the whitespace run after a replacement (the consumed trailing `\s*`). -/
def punctGo (pend : List Char) (skip : Bool) : List Char → List Char
  | [] => pend.reverse
  | c :: cs =>
    if skip then
      if isWs c then punctGo [] true cs
      else if isPunct c then c :: ' ' :: punctGo [] true cs
      else c :: punctGo [] false cs
    else
      if isPunct c then c :: ' ' :: punctGo [] true cs
      else if isWs c then punctGo (c :: pend) false cs
      else pend.reverse ++ c :: punctGo [] false cs

def punctSp (l : List Char) : List Char := punctGo [] false l

/-- True when the first character of `l` is not a word character (or `l`
is empty): the `\b` after a matched literal. -/
def hdNonWord : List Char → Bool
  | [] => true
  | c :: _ => !isWordC c

/-- Case-insensitive literal prefix test. -/
def startsCI : List Char → List Char → Bool
  | [], _ => true
  | _ :: _, [] => false
  | a :: as, b :: bs => (lowC a == lowC b) && startsCI as bs

/-- `re.sub(r'\bW\b', repl, line)` (case-sensitive) for a two-character
word `W = w0 w1`; the scan state is the wordness of the previous
character of the original text. -/
def wordRepl2Go (w0 w1 : Char) (r : List Char) : Bool → List Char → List Char
  | _, [] => []
  | prevW, c :: cs =>
    match hm : cs with
    | c2 :: cs2 =>
      if !prevW && c == w0 && c2 == w1 && hdNonWord cs2 then
        r ++ wordRepl2Go w0 w1 r (isWordC c2) cs2
      else c :: wordRepl2Go w0 w1 r (isWordC c) cs
    | [] => [c]
termination_by _ l => l.length
decreasing_by all_goals simp_all +arith

/-- `re.sub(r'\bW\b', repl, line)` (case-sensitive) for a three-character
word `W = w0 w1 w2`. -/
def wordRepl3Go (w0 w1 w2 : Char) (r : List Char) : Bool → List Char → List Char
  | _, [] => []
  | prevW, c :: cs =>
    match hm : cs with
    | c2 :: c3 :: cs3 =>
      if !prevW && c == w0 && c2 == w1 && c3 == w2 && hdNonWord cs3 then
        r ++ wordRepl3Go w0 w1 w2 r (isWordC c3) cs3
      else c :: wordRepl3Go w0 w1 w2 r (isWordC c) cs
    | _ => c :: wordRepl3Go w0 w1 w2 r (isWordC c) cs
termination_by _ l => l.length
decreasing_by all_goals simp_all +arith

/-- Scanner state for the unit-normalization rules: plain scanning with
the previous character's wordness, inside a digit run (reversed buffer),
or past the digit run inside trailing whitespace. -/
inductive USt where
  | norm (prevW : Bool)
  | digs (dsRev : List Char)
  | wsm (dsRev wsRev : List Char)

/-- `re.sub(r'\b(\d+)\s*U\b', r'\1 u', line, IGNORECASE)` for a
two-letter unit `U = u1 u2` with lowercase replacement `ru`: a digit run
with no word character before it, optional whitespace and the unit become
the digits, one space and `ru`.  A failed attempt emits the buffered run;
no new match can begin inside it. -/
def unit2Go (u1 u2 : Char) (ru : List Char) : USt → List Char → List Char
  | st, [] =>
    match st with
    | .norm _ => []
    | .digs ds => ds.reverse
    | .wsm ds ws => ds.reverse ++ ws.reverse
  | .norm prevW, c :: cs =>
    if !prevW && isDigitC c then unit2Go u1 u2 ru (.digs [c]) cs
    else c :: unit2Go u1 u2 ru (.norm (isWordC c)) cs
  | .digs ds, c :: cs =>
    if isDigitC c then unit2Go u1 u2 ru (.digs (c :: ds)) cs
    else if isWs c then unit2Go u1 u2 ru (.wsm ds [c]) cs
    else
      match hm : cs with
      | c2 :: cs2 =>
        if lowC c == lowC u1 && lowC c2 == lowC u2 && hdNonWord cs2 then
          ds.reverse ++ ' ' :: ru ++ unit2Go u1 u2 ru (.norm (isWordC c2)) cs2
        else ds.reverse ++ c :: unit2Go u1 u2 ru (.norm (isWordC c)) cs
      | [] => ds.reverse ++ [c]
  | .wsm ds ws, c :: cs =>
    if isWs c then unit2Go u1 u2 ru (.wsm ds (c :: ws)) cs
    else if isDigitC c then ds.reverse ++ ws.reverse ++ unit2Go u1 u2 ru (.digs [c]) cs
    else
      match hm : cs with
      | c2 :: cs2 =>
        if lowC c == lowC u1 && lowC c2 == lowC u2 && hdNonWord cs2 then
          ds.reverse ++ ' ' :: ru ++ unit2Go u1 u2 ru (.norm (isWordC c2)) cs2
        else ds.reverse ++ ws.reverse ++ c :: unit2Go u1 u2 ru (.norm (isWordC c)) cs
      | [] => ds.reverse ++ ws.reverse ++ [c]
termination_by _ l => l.length
decreasing_by all_goals simp_all +arith

/-- The three-letter-unit variant of `unit2Go` (for `MCG`). -/
def unit3Go (u1 u2 u3 : Char) (ru : List Char) : USt → List Char → List Char
  | st, [] =>
    match st with
    | .norm _ => []
    | .digs ds => ds.reverse
    | .wsm ds ws => ds.reverse ++ ws.reverse
  | .norm prevW, c :: cs =>
    if !prevW && isDigitC c then unit3Go u1 u2 u3 ru (.digs [c]) cs
    else c :: unit3Go u1 u2 u3 ru (.norm (isWordC c)) cs
  | .digs ds, c :: cs =>
    if isDigitC c then unit3Go u1 u2 u3 ru (.digs (c :: ds)) cs
    else if isWs c then unit3Go u1 u2 u3 ru (.wsm ds [c]) cs
    else
      match hm : cs with
      | c2 :: c3 :: cs3 =>
        if lowC c == lowC u1 && lowC c2 == lowC u2 && lowC c3 == lowC u3 &&
            hdNonWord cs3 then
          ds.reverse ++ ' ' :: ru ++ unit3Go u1 u2 u3 ru (.norm (isWordC c3)) cs3
        else ds.reverse ++ c :: unit3Go u1 u2 u3 ru (.norm (isWordC c)) cs
      | [] => ds.reverse ++ [c]
      | [c2] => ds.reverse ++ c :: unit3Go u1 u2 u3 ru (.norm (isWordC c)) [c2]
  | .wsm ds ws, c :: cs =>
    if isWs c then unit3Go u1 u2 u3 ru (.wsm ds (c :: ws)) cs
    else if isDigitC c then ds.reverse ++ ws.reverse ++ unit3Go u1 u2 u3 ru (.digs [c]) cs
    else
      match hm : cs with
      | c2 :: c3 :: cs3 =>
        if lowC c == lowC u1 && lowC c2 == lowC u2 && lowC c3 == lowC u3 &&
            hdNonWord cs3 then
          ds.reverse ++ ' ' :: ru ++ unit3Go u1 u2 u3 ru (.norm (isWordC c3)) cs3
        else ds.reverse ++ ws.reverse ++ c :: unit3Go u1 u2 u3 ru (.norm (isWordC c)) cs
      | [] => ds.reverse ++ ws.reverse ++ [c]
      | [c2] => ds.reverse ++ ws.reverse ++ c ::
          unit3Go u1 u2 u3 ru (.norm (isWordC c)) [c2]
termination_by _ l => l.length
decreasing_by all_goals simp_all +arith

/-- One line of `_clean_text`: the nine `re.sub` rules in source order
(`0D`→`OD`, the identity rewrites of `BD`/`TDS`/`QID`, and the
`MG`/`ML`/`MCG` unit normalizations). -/
def cleanLine (l : List Char) : List Char :=
  unit3Go 'M' 'C' 'G' "mcg".data (.norm false)
    (unit2Go 'M' 'L' "ml".data (.norm false)
      (unit2Go 'M' 'G' "mg".data (.norm false)
        (wordRepl3Go 'Q' 'I' 'D' "QID".data false
          (wordRepl3Go 'T' 'D' 'S' "TDS".data false
            (wordRepl2Go 'B' 'D' "BD".data false
              (wordRepl2Go '0' 'D' "OD".data false
                (punctSp (collapseWs l))))))))

/-- Python `text.split('\n')` (keeps empty fields). -/
def splitNlGo (cur : List Char) : List Char → List (List Char)
  | [] => [cur.reverse]
  | c :: cs =>
    if c = '\n' then cur.reverse :: splitNlGo [] cs
    else splitNlGo (c :: cur) cs

def splitNl (l : List Char) : List (List Char) := splitNlGo [] l

/-- The cleaned line list of `_clean_text`: split on newline, strip each
line, drop empty lines, apply the substitution rules. -/
def cleanLines (t : List Char) : List (List Char) :=
  (((splitNl t).map pyStrip).filter (fun l => !l.isEmpty)).map cleanLine

/-- `_clean_text` on character lists. -/
def cleanTextL (t : List Char) : List Char :=
  if t.isEmpty then t else List.intercalate ['\n'] (cleanLines t)

/-- `_clean_text`: normalize OCR output (src/ocr_service.py lines 53-76). -/
def clean_text (t : String) : String := String.mk (cleanTextL t.data)

/-! ## The prescription field extractor `parse_prescription_text`

Every regular expression of src/ocr_service.py lines 121-416 is
hand-compiled to an `RE` value; group numbers follow the Python pattern
paren order.  IGNORECASE patterns use case-insensitive literals and the
letter class for `[A-Z]`/`[a-z]`.
-/

/-- The class `[A-Za-z0-9\-\s]` of the medicine-name patterns. -/
def clsNameC : RE := .cls (fun c => isAlphaC c || isDigitC c || c == '-' || isWs c)

/-- The class `[\s:]`. -/
def clsWsCol : RE := .cls (fun c => isWs c || c == ':')

/-- `\d+(?:\.\d+)?` -/
def numRE : RE := .seq (rePlus clsD) (reOpt (.seq (chC '.') (rePlus clsD)))

/-- `[:\.]?` -/
def optColDot : RE := reOpt (.cls (fun c => c == ':' || c == '.'))

/-- `[:\-]?` -/
def optColDash : RE := reOpt (.cls (fun c => c == ':' || c == '-'))

def medP0 : RE := reSeqL [.bol, reStar clsWs, litCI "rx", reStar clsWs, reStar clsD,
  reStar clsWs, optColDot, reStar clsWs,
  .grp 1 (.seq clsAlpha (.rep clsNameC 2 none true)), rePlus clsWs, .grp 2 numRE,
  reStar clsWs, .grp 3 (altLitCI ["mg", "mcg", "g", "ml", "iu"]), reStar clsWs,
  reOpt (.grp 4 (altLitCI ["tablet", "tab", "capsule", "cap", "syrup", "drops"]))]

def medP1 : RE := reSeqL [.bol, reStar clsWs, litCI "rx", reStar clsWs, optColDot,
  reStar clsWs, .grp 1 (.seq clsAlpha (.rep clsNameC 2 none true)), rePlus clsWs,
  .grp 2 numRE, reStar clsWs, .grp 3 (altLitCI ["mg", "mcg", "g", "ml", "iu"])]

def medP2 : RE := reSeqL [.bol, reStar clsWs, rePlus clsD, reOpt (chC '.'), rePlus clsWs,
  .grp 1 (.seq clsAlpha (.rep clsNameC 2 none true)), rePlus clsWs, .grp 2 numRE,
  reStar clsWs, .grp 3 (altLitCI ["mg", "mcg", "g", "ml", "iu"])]

def medP3 : RE := reSeqL [.bol, .grp 1 (.seq clsAlpha (.rep clsNameC 2 none true)),
  rePlus clsWs, .grp 2 numRE, reStar clsWs, .grp 3 (altLitCI ["mg", "mcg", "g", "ml", "iu"]),
  reStar clsWs, reOpt (.grp 4 (altLitCI ["tablet", "tab", "capsule", "cap", "syrup",
    "drops", "cream", "ointment"]))]

def medP4 : RE := reSeqL [.bol, .grp 1 (reSeqL [clsAlpha, rePlus clsAlpha, rePlus clsWs,
  clsAlpha, rePlus clsAlpha]), rePlus clsWs, .grp 2 numRE, reStar clsWs,
  .grp 3 (altLitCI ["mg", "mcg", "g", "ml"])]

def medP5 : RE := reSeqL [.bol, reStar clsWs, .grp 1 (.seq clsAlpha (.rep clsNameC 3 none true)),
  reStar clsWs, reOpt (.cls (fun c => c == ',' || c == ':')), reStar clsWs, .grp 2 numRE,
  reStar clsWs, .grp 3 (altLitCI ["mg", "mcg", "g", "ml"]), .wordB]

def medP6 : RE := reSeqL [.bol, .grp 1 (.seq clsAlpha (.rep clsNameC 2 none true)),
  reStar clsWs, .cls (fun c => c == '(' || c == '['), reStarLazy clsDot, .grp 2 numRE,
  reStar clsWs, .grp 3 (altLitCI ["mg", "mcg", "g", "ml"])]

def medP7 : RE := reSeqL [.bol, .grp 1 (.seq clsAlpha (.rep clsNameC 2 none true)),
  rePlus clsWs, .grp 2 numRE, reStar clsWs, .grp 3 (altLitCI ["mg", "mcg", "g", "ml"])]

/-- `med_patterns` with each pattern's group count (`len(m.groups())`). -/
def medPatterns : List (RE × Nat) :=
  [(medP0, 4), (medP1, 3), (medP2, 3), (medP3, 4), (medP4, 3), (medP5, 3), (medP6, 3), (medP7, 3)]

def nameP0 : RE := reSeqL [.bol, .grp 1 (reSeqL [clsAlpha, rePlus clsAlpha,
  reStar (reSeqL [rePlus clsWs, clsAlpha, rePlus clsAlpha])]), reStar clsWs,
  reOpt (reSeqL [rePlus clsD, reStar clsWs, altLitCI ["mg", "mcg", "g", "ml"]])]

def nameP1 : RE := reSeqL [.bol, .grp 1 (.seq clsAlpha (.rep clsAlpha 3 none true)), .wordB]

def namePatterns : List RE := [nameP0, nameP1]

def headerRx : RE := .seq (.grp 1 (reAltL [
  .seq (litCI "dr") (reOpt (chC '.')), litCI "doctor", litCI "physician", litCI "specialist",
  litCI "patient", litCI "dob", litCI "age", litCI "sex", litCI "gender", litCI "date",
  litCI "address", litCI "phone", litCI "license", litCI "allergies", litCI "weight",
  litCI "height", litCI "diagnosis", litCI "prescription",
  reSeqL [litCI "rx", reStar clsWs, litCI "no"], reSeqL [litCI "reg", reStar clsWs, litCI "no"],
  reSeqL [litCI "internal", reStar clsWs, litCI "medicine"], litCI "md", litCI "npi",
  reSeqL [litCI "health", reStar clsWs, litCI "ave"],
  reSeqL [litCI "business", reStar clsWs, litCI "city"]])) .wordB

/-- Line 215: the fallback-pass skip pattern. -/
def fbSkipRx : RE := reSeqL [.wordB, .grp 1 (reAltL [
  litCI "phone", litCI "address", litCI "license", litCI "npi",
  reSeqL [litCI "health", rePlus clsWs, litCI "ave"],
  reSeqL [litCI "business", rePlus clsWs, litCI "city"],
  litCI "specialist", reSeqL [litCI "internal", rePlus clsWs, litCI "medicine"]]), .wordB]

/-- Line 192: the medicine-name cleanup substitution pattern. -/
def nameCleanMed : RE := reSeqL [.wordB, .grp 1 (altLitCI ["sig", "take", "tablet",
  "capsule", "tab", "cap", "syrup", "drops", "cream", "ointment"]), .wordB]

/-- Line 222: the fallback name cleanup substitution pattern. -/
def nameCleanFb : RE := reSeqL [.wordB, .grp 1 (reAltL [litCI "sig", litCI "take",
  litCI "tablet", litCI "capsule", litCI "tab", litCI "cap", litCI "syrup", litCI "drops",
  litCI "cream", litCI "ointment", .seq (litCI "instruction") (reOpt (chCI 's'))]), .wordB]

/-- `dosage_rx` (lines 126-134); `\b` anchors only the first alternative;
19 capture groups in Python paren order. -/
def dosageRx : RE := reAltL [
  .seq .wordB (.grp 1 (reSeqL [.grp 2 numRE, reStar clsWs,
    .grp 3 (altLitCI ["mg", "mcg", "g", "ml", "iu", "units"])])),
  .grp 4 (reSeqL [.grp 5 numRE, reStar clsWs,
    .grp 6 (altLitCI ["tablet", "tab", "capsule", "cap", "pill", "pills"])]),
  .grp 7 (reSeqL [.grp 8 numRE, reStar clsWs,
    .grp 9 (reAltL [litCI "teaspoon", litCI "tsp", litCI "tablespoon", litCI "tbsp",
      reSeqL [litCI "tb", rePlus clsWs, litCI "spoon"], litCI "drop", litCI "drops", litCI "ml"])]),
  .grp 10 (reSeqL [.grp 11 numRE, reStar clsWs, chC '/', reStar clsWs, .grp 12 numRE,
    reStar clsWs, .grp 13 (altLitCI ["mg", "ml"])]),
  .grp 14 (reSeqL [.grp 15 numRE, reStar clsWs, chC '%', reStar clsWs,
    .grp 16 (reAltL [litCI "w/w", litCI "w/v", litCI "cream", litCI "ointment"])]),
  .grp 17 (reSeqL [.grp 18 numRE, reStar clsWs, .grp 19 (altLitCI ["caps", "capsules"])])]

def doseGroupIdxs : List Nat :=
  [1, 2, 3, 4, 5, 6, 7, 8, 9, 10, 11, 12, 13, 14, 15, 16, 17, 18, 19]

/-- Line 237: the instruction-line detector. -/
def instrRx : RE := reSeqL [.wordB, .grp 1 (reAltL [litCI "take", litCI "sig",
  .seq (litCI "instruction") (reOpt (chCI 's')), reSeqL [litCI "by", rePlus clsWs, litCI "mouth"],
  reSeqL [litCI "one", rePlus clsWs, litCI "tablet"], litCI "twice", litCI "thrice"]), .wordB]

/-- Line 242: `^\d+\s*(tablet|tab|cap|capsule)$` (via re.match). -/
def tabnumRx : RE := reSeqL [rePlus clsD, reStar clsWs,
  .grp 1 (altLitCI ["tablet", "tab", "cap", "capsule"]), .eol]

/-- Line 250: `^(tablet|tab|cap|capsule)$` (via re.match). -/
def tabwordRx : RE := reSeqL [.grp 1 (altLitCI ["tablet", "tab", "cap", "capsule"]), .eol]

/-- `freq_map` (lines 136-149), in source insertion order. -/
def freqMap : List (String × List String) :=
  [("once daily", ["od", "once daily", "qd", "daily", "q.d.", "q24h", "q 24h", "once a day",
      "1x daily", "by mouth daily", "by mouth-daily", "mouth daily", "mouth-daily", "orally daily"]),
   ("twice daily", ["bd", "twice daily", "bid", "b.i.d", "b.i.d.", "q12h", "q 12h", "2x daily",
      "twice a day", "by mouth twice", "mouth twice"]),
   ("three times daily", ["tid", "t.d.s", "tds", "t.i.d", "t.i.d.", "three times", "3x daily",
      "thrice daily", "by mouth three times", "mouth three times"]),
   ("four times daily", ["qid", "q.i.d", "q.i.d.", "q6h", "q 6h", "4x daily", "four times"]),
   ("every 8 hours", ["q8h", "q 8h", "every 8 hours", "every 8 hrs", "every eight hours"]),
   ("every 12 hours", ["q12h", "q 12h", "every 12 hours", "every 12 hrs", "every twelve hours"]),
   ("at bedtime", ["hs", "qhs", "at bedtime", "bedtime", "night", "nightly"]),
   ("as needed", ["sos", "prn", "p.r.n", "as needed", "when required", "as directed"]),
   ("every 6 hours", ["q6h", "q 6h", "every 6 hours", "every 6 hrs"])]

def take1Rx : RE := reSeqL [.wordB, litEx "take", .wordB, reStar clsWs,
  .alt (litEx "1") (litEx "one"), .wordB]

def take2Rx : RE := reSeqL [.wordB, litEx "take", .wordB, reStar clsWs,
  .alt (litEx "2") (litEx "two"), .wordB]

def take3Rx : RE := reSeqL [.wordB, litEx "take", .wordB, reStar clsWs,
  reAltL [litEx "3", litEx "three", litEx "thrice"], .wordB]

/-- Line 271: `(\d{1,2})\s*:\s*(\d{2})\s*(am|pm)` IGNORECASE. -/
def time1Rx : RE := reSeqL [.grp 1 (.rep clsD 1 (some 2) true), reStar clsWs, chC ':',
  reStar clsWs, .grp 2 (.rep clsD 2 (some 2) true), reStar clsWs,
  .grp 3 (.alt (litCI "am") (litCI "pm"))]

/-- Line 276: `(\d{1,2})\s*:\s*(\d{2})`. -/
def time2Rx : RE := reSeqL [.grp 1 (.rep clsD 1 (some 2) true), reStar clsWs, chC ':',
  reStar clsWs, .grp 2 (.rep clsD 2 (some 2) true)]

/-- Line 287: `\b(age|yrs?|years?)\b[\s:]*([0-9]{1,3})` IGNORECASE. -/
def ageRx : RE := reSeqL [.wordB, .grp 1 (reAltL [litCI "age",
  .seq (litCI "yr") (reOpt (chCI 's')), .seq (litCI "year") (reOpt (chCI 's'))]), .wordB,
  reStar clsWsCol, .grp 2 (.rep clsD 1 (some 3) true)]

/-- Line 295: the date-of-birth pattern. -/
def dobRx : RE := reSeqL [.wordB, reAltL [litCI "dob",
  reSeqL [litCI "date", rePlus clsWs, litCI "of", rePlus clsWs, litCI "birth"],
  reSeqL [litCI "birth", rePlus clsWs, litCI "date"]], .wordB, reStar clsWsCol,
  .grp 1 (.rep clsD 1 (some 2) true), reStar clsWs,
  .grp 2 (reAltL [litCI "jan", litCI "feb", litCI "mar", litCI "apr", litCI "may", litCI "jun",
    litCI "jul", litCI "aug", litCI "sep", litCI "oct", litCI "nov", litCI "dec",
    litCI "january", litCI "february", litCI "march", litCI "april", litCI "june",
    litCI "july", litCI "august", litCI "september", litCI "october", litCI "november",
    litCI "december"]), reStar clsWs, .grp 3 (.rep clsD 4 (some 4) true)]

def weight1Rx : RE := reSeqL [.wordB, .grp 1 (.alt (litCI "weight") (litCI "wt")), .wordB,
  reStar clsWsCol, .grp 2 (.seq (.rep clsD 1 (some 3) true) (reOpt (.seq (chC '.') (rePlus clsD)))),
  reOpt (chC '.'), reStar clsWs,
  reOpt (.grp 3 (reAltL [litCI "kg", litCI "kgs", .seq (litCI "kilogram") (reOpt (chCI 's'))])),
  .wordB]

def weight2Rx : RE := reSeqL [.wordB,
  .grp 1 (.seq (.rep clsD 1 (some 3) true) (reOpt (.seq (chC '.') (rePlus clsD)))),
  reOpt (chC '.'), reStar clsWs,
  .grp 2 (reAltL [litCI "kg", litCI "kgs", .seq (litCI "kilogram") (reOpt (chCI 's'))]), .wordB]

def height1Rx : RE := reSeqL [.wordB, .grp 1 (.alt (litCI "height") (litCI "ht")), .wordB,
  reStar clsWsCol, reOpt (chCI 'j'), reStar clsWs,
  .grp 2 (.seq (.rep clsD 2 (some 3) true) (reOpt (.seq (chC '.') (rePlus clsD))))]

def height2Rx : RE := reSeqL [.wordB,
  .grp 1 (.seq (.rep clsD 2 (some 3) true) (reOpt (.seq (chC '.') (rePlus clsD)))), reStar clsWs,
  reAltL [litCI "cm", litCI "cms", .seq (litCI "centimeter") (reOpt (chCI 's'))], .wordB]

/-- Line 334: feet-and-inches height, `5 ft 6 in` / `5'6"` styles. -/
def ftinRx : RE := reSeqL [.wordB, .grp 1 clsD, reStar clsWs,
  reAltL [litCI "feet", litCI "foot", litCI "ft",
    .cls (fun c => c == Char.ofNat 39 || c == Char.ofNat 8217)], reStar clsWs,
  .grp 2 (.rep clsD 1 (some 2) true), reStar clsWs,
  reOpt (reAltL [litCI "inches", litCI "inch", litCI "in",
    .cls (fun c => c == Char.ofNat 34 || c == Char.ofNat 8221)]), .wordB]

def ftdecRx : RE := reSeqL [.wordB, .grp 1 numRE, reStar clsWs, litCI "ft", .wordB]

def metersRx : RE := reSeqL [.wordB, .grp 1 (reSeqL [clsD, chC '.', .rep clsD 1 (some 2) true]),
  reStar clsWs, litCI "m", .wordB]

def purposeRx : RE := reSeqL [.wordB, .grp 1 (reAltL [litCI "purpose", litCI "indication",
  litCI "reason", .seq (litCI "dx") (reOpt (chC '.')), litCI "diagnosis"]), .wordB,
  reStar clsWs, optColDash, reStar clsWs, .grp 2 (rePlus clsDot), .eol]

def forRx : RE := reSeqL [.wordB, litCI "for", .wordB, reStar clsWs, optColDash,
  reStar clsWs, .grp 1 (rePlus clsDot), .eol]

def allergiesRx : RE := reSeqL [.wordB, litCI "allerg", .alt (litCI "y") (litCI "ies"), .wordB,
  reStar clsWs, .cls (fun c => c == ':' || c == '-'), reStar clsWs, .grp 1 (rePlus clsDot), .eol]

def genderLabRx : RE := reSeqL [.wordB, .grp 1 (.alt (litCI "gender") (litCI "sex")), .wordB,
  reStar clsWs, optColDash, reStar clsWs,
  .grp 2 (reAltL [litCI "male", litCI "female", litCI "other", litCI "m", litCI "f", litCI "o"]),
  .wordB]

def genderStaRx : RE := reSeqL [.wordB, .grp 1 (.alt (litCI "male") (litCI "female")), .wordB]

/-- Line 398: the last-resort skip pattern. -/
def lrSkipRx : RE := reSeqL [.wordB, .grp 1 (reAltL [
  litCI "phone", litCI "address", litCI "license", litCI "npi",
  reSeqL [litCI "health", rePlus clsWs, litCI "ave"],
  reSeqL [litCI "business", rePlus clsWs, litCI "city"],
  litCI "specialist", reSeqL [litCI "internal", rePlus clsWs, litCI "medicine"],
  reSeqL [litCI "patient", rePlus clsWs, litCI "name"], litCI "date:", litCI "dob:"]), .wordB]

/-- Line 401: `^[A-Z][a-z]{2,}` (case-sensitive). -/
def lrCapRx : RE := reSeqL [.bol, .cls isUpperC, .rep (.cls isLowerC) 2 none true]

/-- Line 401: `^(dr\.?|patient|date|dob|weight|height|allergies|sig|take|instructions)`. -/
def lrHeadRx : RE := .seq .bol (.grp 1 (reAltL [.seq (litCI "dr") (reOpt (chC '.')),
  litCI "patient", litCI "date", litCI "dob", litCI "weight", litCI "height",
  litCI "allergies", litCI "sig", litCI "take", litCI "instructions"]))

/-- Line 402: `^[\-\d\.\)\s]+`. -/
def lrSub1Rx : RE := .seq .bol
  (rePlus (.cls (fun c => c == '-' || isDigitC c || c == '.' || c == ')' || isWs c)))

/-- Line 403: `^r\s*x\s*\d*\s*[:\.]?\s*`. -/
def lrSub2Rx : RE := reSeqL [.bol, chCI 'r', reStar clsWs, chCI 'x', reStar clsWs,
  reStar clsD, reStar clsWs, optColDot, reStar clsWs]

/-- Line 404: the last-resort word-strip substitution pattern. -/
def lrSub3Rx : RE := reSeqL [.wordB, .grp 1 (reAltL [litCI "tab", litCI "tablet",
  litCI "caps", litCI "capsule", litCI "cap", litCI "syrup", litCI "drop", litCI "drops",
  litCI "inj", litCI "injection", litCI "ointment", litCI "cream", litCI "sig", litCI "take",
  .seq (litCI "instruction") (reOpt (chCI 's'))]), .wordB, reOpt (chC '.'), reOpt (chC ','),
  reStar clsWs]

/-! ## The parse result and the extraction phases -/

/-- The field dictionary built by `parse_prescription_text` (line 179). -/
structure ParseData where
  med_name : Option String
  dosage : Option String
  frequency : Option String
  time : Option String
  purpose : Option String
  age : Option String
  age_group : Option String
  weight : Option String
  height : Option String
  allergies : Option String
  gender : Option String
deriving DecidableEq, Repr

def emptyData : ParseData := ⟨none, none, none, none, none, none, none, none, none, none, none⟩

/-- `' -,:'` — the strip set used on captured medicine names. -/
def isNameStrip (c : Char) : Bool := c = ' ' || c = '-' || c = ',' || c = ':'

def invalidMed : List (List Char) :=
  ["dr".data, "doctor".data, "patient".data, "date".data, "weight".data, "height".data,
   "internal".data, "medicine".data, "specialist".data]

def invalidFb : List (List Char) :=
  ["dr".data, "doctor".data, "patient".data, "date".data, "weight".data, "height".data,
   "internal".data, "medicine".data, "specialist".data, "name".data, "dob".data,
   "phone".data, "address".data]

def invalidLr : List (List Char) :=
  ["internal".data, "medicine".data, "specialist".data, "patient".data, "doctor".data,
   "dr".data, "name".data, "date".data, "weight".data, "height".data, "dob".data]

/-- `any(w.lower() in invalid for w in words[:2])`. -/
def invalidIn (lst : List (List Char)) (name : List Char) : Bool :=
  ((pySplitWs name).take 2).any (fun w => lst.contains (lowS w))

/-- The medicine+dosage pattern loop (lines 188-208): try the patterns in
order; on a match with a truthy dose value and unit, record name and dose
and stop; otherwise continue with the next pattern. -/
def medScan (d : ParseData) (ln : List Char) : List (RE × Nat) → ParseData
  | [] => d
  | (p, ng) :: rest =>
    match reSearch p ln with
    | none => medScan d ln rest
    | some (_, g) =>
      let name := pyStrip (reSub nameCleanMed [] (stripSet isNameStrip ((getG g 1).getD [])))
      let dvdu : Option (List Char × List Char) :=
        if decide (ng ≥ 3) && truthyG (getG g 2) && truthyG (getG g 3) then
          some ((getG g 2).getD [], (getG g 3).getD [])
        else if decide (ng ≥ 5) && truthyG (getG g 4) && truthyG (getG g 5) then
          some ((getG g 4).getD [], (getG g 5).getD [])
        else none
      match dvdu with
      | some (dv, du) =>
        let dose := pyStrip (dv ++ ' ' :: du)
        let d1 :=
          if d.med_name.isNone && decide (name.length ≥ 3) && !invalidIn invalidMed name then
            { d with med_name := some (String.mk name) }
          else d
        if d1.dosage.isNone then { d1 with dosage := some (String.mk dose) } else d1
      | none => medScan d ln rest

/-- One line of the fallback name pass (lines 218-229). -/
def fbScanPats (ln : List Char) : List RE → Option String
  | [] => none
  | p :: rest =>
    match reSearch p ln with
    | none => fbScanPats ln rest
    | some (_, g) =>
      let name := pyStrip (reSub nameCleanFb [] (stripSet isNameStrip ((getG g 1).getD [])))
      if decide (name.length ≥ 3) && !invalidIn invalidFb name then
        match pySplitWs name with
        | [] => fbScanPats ln rest
        | [w] => some (String.mk w)
        | w1 :: w2 :: _ => some (String.mk (w1 ++ ' ' :: w2))
      else fbScanPats ln rest

/-- The fallback name pass (lines 211-231). -/
def fbScan : List (List Char) → Option String
  | [] => none
  | ln :: rest =>
    if (reSearch headerRx ln).isSome then fbScan rest
    else if (reSearch fbSkipRx ln).isSome then fbScan rest
    else
      match fbScanPats ln namePatterns with
      | some nm => some nm
      | none => fbScan rest

/-- The group scan of the dosage branch (lines 240-244): first group, in
numeric order, that participated, strips non-empty, and is not a pure
`N tablet` form token. -/
def doseFromGroups (g : Groups) : List Nat → Option (List Char)
  | [] => none
  | i :: rest =>
    match getG g i with
    | some gv =>
      if !(pyStrip gv).isEmpty && (reMatchA tabnumRx (pyStrip gv)).isNone then
        some (pyStrip gv)
      else doseFromGroups g rest
    | none => doseFromGroups g rest

/-- Dosage update (lines 236-251). -/
def dosageUpd (d : ParseData) (ln : List Char) : ParseData :=
  if d.dosage.isSome then d
  else
    match reSearch dosageRx ln with
    | none => d
    | some (mt, g) =>
      match doseFromGroups g doseGroupIdxs with
      | some dose => { d with dosage := some (String.mk dose) }
      | none =>
        if !mt.isEmpty then
          if (reSearch instrRx ln).isSome && (reMatchA tabwordRx (pyStrip mt)).isSome then d
          else { d with dosage := some (String.mk (pyStrip mt)) }
        else d

/-- First canonical label of `freq_map` one of whose keywords occurs in
the lowercased line (lines 256-259). -/
def freqFind (low : List Char) : List (String × List String) → Option String
  | [] => none
  | (f, keys) :: rest =>
    if keys.any (fun k => containsSub k.data low) then some f else freqFind low rest

/-- Frequency update (lines 254-267): keyword table first, then the
`take N` heuristics. -/
def freqUpd (d : ParseData) (ln : List Char) : ParseData :=
  if d.frequency.isSome then d
  else
    match freqFind (lowS ln) freqMap with
    | some f => { d with frequency := some f }
    | none =>
      if (reSearch take1Rx (lowS ln)).isSome then { d with frequency := some "once daily" }
      else if (reSearch take2Rx (lowS ln)).isSome then { d with frequency := some "twice daily" }
      else if (reSearch take3Rx (lowS ln)).isSome then
        { d with frequency := some "three times daily" }
      else d

/-- 12-hour display of an `H:MM` token without meridiem (lines 280-283). -/
def timeNoMeridiem (hr : Nat) (mn : List Char) : String :=
  let period := if hr < 12 then " AM" else " PM"
  let dh0 := if hr ≤ 12 then hr else hr - 12
  let dh := if dh0 = 0 then 12 else dh0
  String.mk ((Nat.repr dh).data ++ ':' :: mn ++ period.data)

/-- Time update (lines 270-283). -/
def timeUpd (d : ParseData) (ln : List Char) : ParseData :=
  if d.time.isSome then d
  else
    match reSearch time1Rx ln with
    | some (_, g) =>
      { d with time := some (String.mk ((getG g 1).getD [] ++ ':' :: (getG g 2).getD [] ++
          ' ' :: ((getG g 3).getD []).map upC)) }
    | none =>
      match reSearch time2Rx ln with
      | some (_, g) =>
        let hr := natOfDigits ((getG g 1).getD [])
        if hr ≤ 23 then { d with time := some (timeNoMeridiem hr ((getG g 2).getD [])) }
        else d
      | none => d

/-- Age bucketing (lines 292 and 305). -/
def bucket (n : Nat) : String :=
  if n < 18 then "pediatric" else if n ≥ 65 then "elderly" else "adult"

/-- Days from civil date (proleptic Gregorian), used to model Python
datetime subtraction: `(now - dob).days` equals the difference of these
counts when `dob` is at midnight. -/
def daysFromCivil (y m d : Nat) : Int :=
  let yy : Int := (y : Int) - (if m ≤ 2 then 1 else 0)
  let era : Int := Int.fdiv yy 400
  let yoe : Int := yy - era * 400
  let mp : Int := (m : Int) + (if m > 2 then -3 else 9)
  let doy : Int := Int.fdiv (153 * mp + 2) 5 + (d : Int) - 1
  let doe : Int := yoe * 365 + Int.fdiv yoe 4 - Int.fdiv yoe 100 + doy
  era * 146097 + doe - 719468

/-- `months.get(month_str[:3], 1)` (line 300-301). -/
def monthsGet (l : List Char) : Nat :=
  if l = "jan".data then 1 else if l = "feb".data then 2 else if l = "mar".data then 3
  else if l = "apr".data then 4 else if l = "may".data then 5 else if l = "jun".data then 6
  else if l = "jul".data then 7 else if l = "aug".data then 8 else if l = "sep".data then 9
  else if l = "oct".data then 10 else if l = "nov".data then 11 else if l = "dec".data then 12
  else 1

/-- The body of the date-of-birth `try` block (lines 297-305): year guard,
month lookup, day clamp to 28, datetime construction (which raises on day
0 — the `.error` case), day difference and floor division by 365, and the
0-120 plausibility guard. -/
def dobCompute (nowDays : Int) (day : Nat) (ms : List Char) (year : Nat) :
    Except String (Option Nat) :=
  if 1900 ≤ year ∧ year ≤ 2100 then
    let month := monthsGet (ms.take 3)
    let d2 := min day 28
    if 1 ≤ d2 then
      let ay : Int := Int.fdiv (nowDays - daysFromCivil year month d2) 365
      if 0 ≤ ay ∧ ay ≤ 120 then .ok (some ay.toNat) else .ok none
    else .error "day is out of range for month"
  else .ok none

/-- Age update (lines 286-307): labeled age with 1-120 guard, then
date-of-birth derivation with the `try/except` catch. -/
def ageUpd (nowDays : Int) (d : ParseData) (ln : List Char) : ParseData :=
  if d.age.isSome then d
  else
    let d1 :=
      match reSearch ageRx ln with
      | some (_, g) =>
        let v := natOfDigits ((getG g 2).getD [])
        if 1 ≤ v ∧ v ≤ 120 then
          { d with age := some (Nat.repr v), age_group := some (bucket v) }
        else d
      | none => d
    if d1.age.isSome then d1
    else
      match reSearch dobRx ln with
      | some (_, g) =>
        match dobCompute nowDays (natOfDigits ((getG g 1).getD []))
            (lowS ((getG g 2).getD [])) (natOfDigits ((getG g 3).getD [])) with
        | .ok (some n) =>
          { d1 with age := some (Nat.repr n), age_group := some (bucket n) }
        | .ok none => d1
        | .error _ => d1
      | none => d1

/-- Weight update (lines 310-317). -/
def weightUpd (d : ParseData) (ln : List Char) : ParseData :=
  if d.weight.isSome then d
  else
    match reSearch weight1Rx ln with
    | some (_, g) => { d with weight := some (String.mk ((getG g 2).getD [])) }
    | none =>
      match reSearch weight2Rx ln with
      | some (_, g) =>
        if !containsSub "tablet".data (lowS ln) && !containsSub "capsule".data (lowS ln) then
          { d with weight := some (String.mk ((getG g 1).getD [])) }
        else d
      | none => d

/-- Decimal value of a `digits[.digits]` capture as a rational (models the
Python float for the plausibility comparisons). -/
def decQ (l : List Char) : ℚ :=
  (natOfDigits (l.takeWhile (fun c => c != '.')) : ℚ) +
    (natOfDigits ((l.dropWhile (fun c => c != '.')).drop 1) : ℚ) /
      (10 : ℚ) ^ ((l.dropWhile (fun c => c != '.')).drop 1).length

/-- Python round(): nearest integer, half to even. -/
def pyRound (q : ℚ) : Int :=
  if q - ⌊q⌋ > 1 / 2 then ⌊q⌋ + 1
  else if q - ⌊q⌋ < 1 / 2 then ⌊q⌋
  else if ⌊q⌋ % 2 = 0 then ⌊q⌋ else ⌊q⌋ + 1

def intStr (i : Int) : String :=
  if i < 0 then String.mk ('-' :: (Nat.repr (-i).toNat).data) else Nat.repr i.toNat

/-- Height update (lines 320-365): labeled, centimeters, feet-and-inches,
decimal feet, meters — each with its plausibility guard. -/
def heightUpd (d : ParseData) (ln : List Char) : ParseData :=
  if d.height.isSome then d
  else
    match reSearch height1Rx ln with
    | some (_, g) =>
      let hs := (getG g 2).getD []
      if 50 ≤ decQ hs ∧ decQ hs ≤ 250 then { d with height := some (String.mk hs) } else d
    | none =>
      match reSearch height2Rx ln with
      | some (_, g) =>
        let hs := (getG g 1).getD []
        if 50 ≤ decQ hs ∧ decQ hs ≤ 250 then { d with height := some (String.mk hs) } else d
      | none =>
        match reSearch ftinRx ln with
        | some (_, g) =>
          let cm := pyRound ((natOfDigits ((getG g 1).getD []) : ℚ) * (3048 / 100) +
            (natOfDigits ((getG g 2).getD []) : ℚ) * (254 / 100))
          if 100 ≤ cm ∧ cm ≤ 250 then { d with height := some (intStr cm) } else d
        | none =>
          match reSearch ftdecRx ln with
          | some (_, g) =>
            let cm := pyRound (decQ ((getG g 1).getD []) * (3048 / 100))
            if 100 ≤ cm ∧ cm ≤ 250 then { d with height := some (intStr cm) } else d
          | none =>
            match reSearch metersRx ln with
            | some (_, g) =>
              let cm := pyRound (decQ ((getG g 1).getD []) * 100)
              if 100 ≤ cm ∧ cm ≤ 250 then { d with height := some (intStr cm) } else d
            | none => d

/-- Purpose update (lines 368-375). -/
def purposeUpd (d : ParseData) (ln : List Char) : ParseData :=
  if d.purpose.isSome then d
  else
    match reSearch purposeRx ln with
    | some (_, g) => { d with purpose := some (String.mk (pyStrip ((getG g 2).getD []))) }
    | none =>
      match reSearch forRx ln with
      | some (_, g) => { d with purpose := some (String.mk (pyStrip ((getG g 1).getD []))) }
      | none => d

/-- Allergies update (lines 378-381). -/
def allergiesUpd (d : ParseData) (ln : List Char) : ParseData :=
  if d.allergies.isSome then d
  else
    match reSearch allergiesRx ln with
    | some (_, g) => { d with allergies := some (String.mk (pyStrip ((getG g 1).getD []))) }
    | none => d

/-- Gender update (lines 384-393). -/
def genderUpd (d : ParseData) (ln : List Char) : ParseData :=
  if d.gender.isSome then d
  else
    match reSearch genderLabRx ln with
    | some (_, g) =>
      let gv := lowS ((getG g 2).getD [])
      if gv = "m".data ∨ gv = "male".data then { d with gender := some "male" }
      else if gv = "f".data ∨ gv = "female".data then { d with gender := some "female" }
      else { d with gender := some "other" }
    | none =>
      match reSearch genderStaRx ln with
      | some (_, g) =>
        if lowS ((getG g 1).getD []) = "male".data then { d with gender := some "male" }
        else { d with gender := some "female" }
      | none => d

/-- One line of the main field loop (lines 234-393), in source order. -/
def fieldStep (nowDays : Int) (d : ParseData) (ln : List Char) : ParseData :=
  genderUpd (allergiesUpd (purposeUpd (heightUpd (weightUpd (ageUpd nowDays
    (timeUpd (freqUpd (dosageUpd d ln) ln) ln) ln) ln) ln) ln) ln) ln

/-- The last-resort medicine-name pass (lines 396-414). -/
def lrScan : List (List Char) → Option String
  | [] => none
  | ln :: rest =>
    if (reSearch headerRx ln).isSome || (reSearch lrSkipRx ln).isSome then lrScan rest
    else
      if (reSearch lrCapRx ln).isSome && (reSearch lrHeadRx ln).isNone then
        let cand := reSub lrSub3Rx [] (reSub lrSub2Rx [] (reSub lrSub1Rx [] ln))
        match pySplitWs cand with
        | [] => lrScan rest
        | w :: ws =>
          match ((w :: ws).take 3).filter (fun v => !invalidLr.contains (lowS v)) with
          | [] => lrScan rest
          | [v] => some (String.mk v)
          | v1 :: v2 :: _ =>
            if isUpperC (v2.headD ' ') then some (String.mk (v1 ++ ' ' :: v2))
            else some (String.mk v1)
      else lrScan rest

/-- Stripped, non-empty lines of the input (line 123). -/
def parseLinesL (t : List Char) : List (List Char) :=
  ((pySplitlines t).map pyStrip).filter (fun l => !l.isEmpty)

def parseLines (t : String) : List (List Char) := parseLinesL t.data

/-- The medicine+dosage loop (lines 186-208). -/
def medPass (lines : List (List Char)) : ParseData :=
  lines.foldl
    (fun d ln => if d.med_name.isNone || d.dosage.isNone then medScan d ln medPatterns else d)
    emptyData

/-- The fallback name pass applied to the state (lines 211-231). -/
def fbPass (lines : List (List Char)) (d : ParseData) : ParseData :=
  if d.med_name.isNone then { d with med_name := fbScan lines } else d

/-- The main field loop (lines 234-393). -/
def fieldPass (nowDays : Int) (lines : List (List Char)) (d : ParseData) : ParseData :=
  lines.foldl (fieldStep nowDays) d

/-- The last-resort pass applied to the state (lines 396-414). -/
def lrPass (lines : List (List Char)) (d : ParseData) : ParseData :=
  if d.med_name.isNone then { d with med_name := lrScan lines } else d

/-- The four sequential passes of `parse_prescription_text` over a given
line sequence. -/
def parseCore (nowDays : Int) (lines : List (List Char)) : ParseData :=
  lrPass lines (fieldPass nowDays lines (fbPass lines (medPass lines)))

/-- `parse_prescription_text` (src/ocr_service.py lines 121-416).
`nowDays` is the day count of `datetime.now()`, a parameter of the model. -/
def parse_prescription_text (nowDays : Int) (text : String) : ParseData :=
  parseCore nowDays (parseLines text)

/-! ## Exception-transparent variant of the parser

`parse_prescription_text` evaluated in the exception monad: the only
Python operation inside the parser that can raise is the `datetime`
construction in the date-of-birth branch (modelled by the `.error` case
of `dobCompute`), and the source wraps exactly that region in
`try/except`.  `ageUpdE` places the handler where the source places it;
everything else is lifted.  That this always returns `.ok` of the plain
parser's value is the never-raises claim. -/
def ageUpdE (nowDays : Int) (d : ParseData) (ln : List Char) : Except String ParseData :=
  if d.age.isSome then .ok d
  else
    let d1 :=
      match reSearch ageRx ln with
      | some (_, g) =>
        let v := natOfDigits ((getG g 2).getD [])
        if 1 ≤ v ∧ v ≤ 120 then
          { d with age := some (Nat.repr v), age_group := some (bucket v) }
        else d
      | none => d
    if d1.age.isSome then .ok d1
    else
      match reSearch dobRx ln with
      | some (_, g) =>
        -- the `try` region: an `.error` from `dobCompute` is caught here
        -- (`except Exception: pass`), never propagated
        match dobCompute nowDays (natOfDigits ((getG g 1).getD []))
            (lowS ((getG g 2).getD [])) (natOfDigits ((getG g 3).getD [])) with
        | .ok (some n) =>
          .ok { d1 with age := some (Nat.repr n), age_group := some (bucket n) }
        | .ok none => .ok d1
        | .error _ => .ok d1
      | none => .ok d1

def fieldStepE (nowDays : Int) (d : ParseData) (ln : List Char) :
    Except String ParseData :=
  match ageUpdE nowDays (timeUpd (freqUpd (dosageUpd d ln) ln) ln) ln with
  | .error e => .error e
  | .ok d2 => .ok (genderUpd (allergiesUpd (purposeUpd (heightUpd (weightUpd d2 ln) ln) ln) ln) ln)

def parseTextE (nowDays : Int) (text : String) : Except String ParseData :=
  let lines := parseLines text
  match lines.foldlM (fieldStepE nowDays) (fbPass lines (medPass lines)) with
  | .error e => .error e
  | .ok d3 => .ok (lrPass lines d3)

/-! ## The extraction pipeline (orchestrator) -/

/-- One recognition result of the EasyOCR reader: a text span with its
confidence score. -/
structure OcrSpan where
  text : String
  conf : ℚ
deriving DecidableEq

/-- Outcome of invoking the recognition engine, the effectful boundary of
`extract_text_from_image`: the engine may be unavailable (the
`RuntimeError` at line 84), the reader may fail, or it yields spans. -/
inductive OcrOutcome where
  | unavailable
  | readFail (msg : String)
  | spans (results : List OcrSpan)

/-- The confidence filter of line 111: spans with `conf >= 0.5`. -/
def filteredTexts (results : List OcrSpan) : List String :=
  (results.filter (fun r => r.conf ≥ 1 / 2)).map (·.text)

/-- `extract_text_from_image` after a successful read (lines 111-112):
join the filtered spans and return `_clean_text(text) or text`. -/
def extract_text_from_image (results : List OcrSpan) : String :=
  let text := String.intercalate "\n" (filteredTexts results)
  if clean_text text ≠ "" then clean_text text else text

/-- The text-recognition stage as a fallible computation (lines 79-118). -/
def extractTextE : OcrOutcome → Except String String
  | .unavailable => .error "EasyOCR not available"
  | .readFail m => .error m
  | .spans rs => .ok (extract_text_from_image rs)

/-- `ExtractionResult`: the dictionary returned by
`extract_prescription_data` (lines 425-438). -/
structure ExtractionResult where
  success : Bool
  data : Option ParseData
  raw_text : Option String
  error : Option String
  engine : String
deriving DecidableEq

/-- `extract_prescription_data` (lines 419-438): run the pipeline inside
`try`, catching any stage exception into the failure shape. -/
def extract_prescription_data (nowDays : Int) (o : OcrOutcome) : ExtractionResult :=
  match extractTextE o with
  | .ok text =>
    { success := true, data := some (parse_prescription_text nowDays text),
      raw_text := some text, error := none, engine := "easyocr" }
  | .error e =>
    { success := false, data := none, raw_text := none, error := some e, engine := "easyocr" }

/-! ## The line-repair pass of the specification -/

/-- Modelled from the spec: a marker-only line is "a line consisting
solely of a prescription numbering/prefix token (e.g. Rx, 1.)  with no
medicine content", "optionally with trailing punctuation": here an `rx`
token (any case) or a numbering token, with optional `:` or `.`. -/
def isMarkerOnly (l : List Char) : Bool :=
  let core := stripSet (fun c => c = ':' || c = '.') (lowS l)
  core = "rx".data || (!core.isEmpty && core.all isDigitC)

/-- Modelled from the spec: the single forward line-repair pass that
"merges a marker-only line with the immediately following line before any
field extraction runs", yielding at most as many lines as given. -/
def lineRepair : List (List Char) → List (List Char)
  | [] => []
  | l1 :: rest =>
    if isMarkerOnly l1 then
      match rest with
      | [] => [l1]
      | l2 :: rest2 => (l1 ++ ' ' :: l2) :: lineRepair rest2
    else l1 :: lineRepair rest

/-- Modelled from the spec: the parser as the specification describes it,
with the line-repair pass applied before field extraction. -/
def parseWithRepair (nowDays : Int) (text : String) : ParseData :=
  parseCore nowDays (lineRepair (parseLines text))

/-! ## Theorems -/

/-- Reference value of `datetime.now()` for concrete evaluations:
12 October 2026. -/
def nowRef : Int := daysFromCivil 2026 10 12

/-- The medicine entries of a parse result: the extractor records at most
one medicine, in `med_name`. -/
def medicines (d : ParseData) : List String := d.med_name.toList

theorem parse_empty (now : Int) : parse_prescription_text now "" = emptyData := by rfl

theorem emptyTextStage (rs : List OcrSpan) (h : filteredTexts rs = []) :
    extract_text_from_image rs = "" := by
  unfold extract_text_from_image
  rw [h]
  rfl

theorem pipelineEmptyFilter (now : Int) (rs : List OcrSpan)
    (h : filteredTexts rs = []) :
    extract_prescription_data now (.spans rs) =
      { success := true, data := some emptyData, raw_text := some "",
        error := none, engine := "easyocr" } := by
  have h1 : extract_prescription_data now (.spans rs) =
      { success := true,
        data := some (parse_prescription_text now (extract_text_from_image rs)),
        raw_text := some (extract_text_from_image rs), error := none,
        engine := "easyocr" } := by rfl
  rw [h1, emptyTextStage rs h, parse_empty]

theorem lowConfFiltered : filteredTexts [⟨"abc", 2 / 5⟩] = [] := by
  have hn : ¬ ((2 : ℚ) / 5 ≥ 1 / 2) := by norm_num
  simp only [filteredTexts, List.filter, decide_eq_false hn]
  rfl

/-- Claim C1, counterexample: with recognition results whose every span
has confidence below 0.5 the filtered set is empty, yet the stage raises
nothing and the pipeline returns success true with no error — not
success false with a no-text-detected error as claimed. -/
theorem c1_counterexample :
    filteredTexts [⟨"abc", 2 / 5⟩] = [] ∧
    (extract_prescription_data nowRef (.spans [⟨"abc", 2 / 5⟩])).success = true ∧
    (extract_prescription_data nowRef (.spans [⟨"abc", 2 / 5⟩])).error = none := by
  refine ⟨lowConfFiltered, ?_, ?_⟩ <;>
    rw [pipelineEmptyFilter nowRef _ lowConfFiltered]

/-- Claim C1 (amended): when every recognized span is filtered out by the
0.5 confidence cutoff, `extract_text_from_image` returns the empty string
(it raises no error), and the pipeline returns success true with empty
raw text and an all-null field dictionary. -/
theorem c1_empty_filter_returns_success (now : Int) (rs : List OcrSpan)
    (h : filteredTexts rs = []) :
    extract_prescription_data now (.spans rs) =
      { success := true, data := some emptyData, raw_text := some "",
        error := none, engine := "easyocr" } :=
  pipelineEmptyFilter now rs h

theorem c1_empty_filter_returns_success_witness :
    filteredTexts [⟨"abc", 2 / 5⟩] = [] ∧
    extract_prescription_data nowRef (.spans [⟨"abc", 2 / 5⟩]) =
      { success := true, data := some emptyData, raw_text := some "",
        error := none, engine := "easyocr" } :=
  ⟨lowConfFiltered,
    c1_empty_filter_returns_success nowRef [⟨"abc", 2 / 5⟩] lowConfFiltered⟩

/-- Claim C2: the orchestrator converts every stage failure to the
failure value rather than propagating it, and the result is never
partially populated: success implies data and raw text present; failure
implies data null and error present. -/
theorem c2_result_never_partial (now : Int) (o : OcrOutcome) :
    ((extract_prescription_data now o).success = true →
      (extract_prescription_data now o).data.isSome = true ∧
      (extract_prescription_data now o).raw_text.isSome = true) ∧
    ((extract_prescription_data now o).success = false →
      (extract_prescription_data now o).data = none ∧
      (extract_prescription_data now o).error.isSome = true) := by
  cases o <;> simp [extract_prescription_data, extractTextE]

theorem c2_result_never_partial_witness :
    ((extract_prescription_data nowRef (.readFail "boom")).success = true →
      (extract_prescription_data nowRef (.readFail "boom")).data.isSome = true ∧
      (extract_prescription_data nowRef (.readFail "boom")).raw_text.isSome = true) ∧
    ((extract_prescription_data nowRef (.readFail "boom")).success = false →
      (extract_prescription_data nowRef (.readFail "boom")).data = none ∧
      (extract_prescription_data nowRef (.readFail "boom")).error.isSome = true) :=
  c2_result_never_partial nowRef (.readFail "boom")

/-- Claim C3: the medicine list of a parse result never holds two entries
with case-insensitively equal names — the extractor records at most one
medicine — and for the two lines `Aspirin 100mg` / `aspirin 100 MG` the
result is exactly one entry named Aspirin. -/
theorem c3_no_case_insensitive_duplicates :
    (∀ now t, (medicines (parse_prescription_text now t)).Pairwise
      (fun a b => lowS a.data ≠ lowS b.data)) ∧
    medicines (parse_prescription_text nowRef "Aspirin 100mg\naspirin 100 MG") =
      ["Aspirin"] := by
  constructor
  · intro now t
    cases h : (parse_prescription_text now t).med_name <;>
      simp [medicines, h]
  · rfl

/-- Claim C4: the cleaned line `Amoxicillin 500 mg TID` parses to name
Amoxicillin, dosage `500 mg`, frequency `three times daily`. -/
theorem c4_amoxicillin_line :
    (parse_prescription_text nowRef "Amoxicillin 500 mg TID").med_name =
        some "Amoxicillin" ∧
    (parse_prescription_text nowRef "Amoxicillin 500 mg TID").dosage = some "500 mg" ∧
    (parse_prescription_text nowRef "Amoxicillin 500 mg TID").frequency =
        some "three times daily" := ⟨rfl, rfl, rfl⟩

/-- Claim C5, counterexample: the parser does not apply the
specification's line-repair pass before extraction: on the lines
`Rx` / `Metformin` the code yields name Metformin, while repair-then-
extract yields `Rx Metformin` — the two disagree. -/
theorem c5_counterexample :
    (parse_prescription_text nowRef "Rx\nMetformin").med_name = some "Metformin" ∧
    (parseWithRepair nowRef "Rx\nMetformin").med_name = some "Rx Metformin" ∧
    parse_prescription_text nowRef "Rx\nMetformin" ≠
      parseWithRepair nowRef "Rx\nMetformin" := by
  refine ⟨rfl, rfl, ?_⟩
  decide

/-- Claim C5 (amended): the parser applies no line-repair pass — the line
sequence is only stripped and blank-filtered, so `["Rx", "1. Metformin
500mg"]` stays two lines — yet extraction still yields Metformin with
dosage `500 mg`, because the numbered-line pattern matches the second
line directly; extraction does not fail merely because the marker is on
its own line. -/
theorem c5_no_repair_but_extraction_succeeds :
    parseLines "Rx\n1. Metformin 500mg" = ["Rx".data, "1. Metformin 500mg".data] ∧
    (parse_prescription_text nowRef "Rx\n1. Metformin 500mg").med_name =
        some "Metformin" ∧
    (parse_prescription_text nowRef "Rx\n1. Metformin 500mg").dosage =
        some "500 mg" := ⟨rfl, rfl, rfl⟩

/-- Claim C7: an `H:MM` token without meridiem and hour 0-23 is shown in
12-hour form with the meridiem inferred from the 24-hour value and
correct midnight/noon handling; `14:30` gives `2:30 PM` and `00:15`
gives `12:15 AM`. -/
theorem c7_time_conversion :
    (∀ hr mn, hr ≤ 23 → timeNoMeridiem hr mn =
      String.mk ((Nat.repr (if hr = 0 then 12 else if hr ≤ 12 then hr else hr - 12)).data ++
        ':' :: mn ++ (if hr < 12 then " AM" else " PM").data)) ∧
    (parse_prescription_text nowRef "14:30").time = some "2:30 PM" ∧
    (parse_prescription_text nowRef "00:15").time = some "12:15 AM" := by
  refine ⟨?_, rfl, rfl⟩
  intro hr mn h
  interval_cases hr <;> rfl

theorem c7_time_conversion_witness :
    (14 ≤ 23 ∧ timeNoMeridiem 14 "30".data =
      String.mk ((Nat.repr (if 14 = 0 then 12 else if 14 ≤ 12 then 14 else 14 - 12)).data ++
        ':' :: "30".data ++ (if 14 < 12 then " AM" else " PM").data)) :=
  ⟨by decide, c7_time_conversion.1 14 "30".data (by decide)⟩

/-- Claim C10: the frequency table is scanned in fixed order with
substring matching and the once-daily entry, tried first, contains the
bare keyword `daily`; hence any lowercased line containing `daily` maps
to `once daily` — in particular `twice daily` and `thrice daily` lines
yield frequency `once daily`. -/
theorem c10_daily_maps_to_once_daily :
    (∀ low, containsSub "daily".data low = true →
      freqFind low freqMap = some "once daily") ∧
    (parse_prescription_text nowRef "twice daily").frequency = some "once daily" ∧
    (parse_prescription_text nowRef "thrice daily").frequency = some "once daily" := by
  refine ⟨?_, rfl, rfl⟩
  intro low h
  have hmem : ("daily" : String) ∈
      ["od", "once daily", "qd", "daily", "q.d.", "q24h", "q 24h", "once a day",
       "1x daily", "by mouth daily", "by mouth-daily", "mouth daily", "mouth-daily",
       "orally daily"] := by simp
  have hany : (["od", "once daily", "qd", "daily", "q.d.", "q24h", "q 24h", "once a day",
       "1x daily", "by mouth daily", "by mouth-daily", "mouth daily", "mouth-daily",
       "orally daily"] : List String).any (fun k => containsSub k.data low) = true :=
    List.any_eq_true.mpr ⟨"daily", hmem, h⟩
  simp only [freqMap, freqFind, hany, if_true]

theorem c10_daily_maps_to_once_daily_witness :
    containsSub "daily".data "twice daily".data = true ∧
    freqFind "twice daily".data freqMap = some "once daily" :=
  ⟨by decide, c10_daily_maps_to_once_daily.1 "twice daily".data (by decide)⟩

/-! ### C6: the parser is total and never raises -/

theorem ageUpdE_ok (now : Int) (d : ParseData) (ln : List Char) :
    ageUpdE now d ln = .ok (ageUpd now d ln) := by
  unfold ageUpdE ageUpd
  repeat' split
  all_goals try rfl
  all_goals (dsimp only []; split <;> rfl)

theorem fieldStepE_ok (now : Int) (d : ParseData) (ln : List Char) :
    fieldStepE now d ln = .ok (fieldStep now d ln) := by
  unfold fieldStepE fieldStep
  rw [ageUpdE_ok]

theorem foldlM_ok_of (g : ParseData → List Char → Except String ParseData)
    (f : ParseData → List Char → ParseData)
    (hg : ∀ d ln, g d ln = .ok (f d ln)) :
    ∀ (l : List (List Char)) (b : ParseData), l.foldlM g b = .ok (l.foldl f b)
  | [], _ => rfl
  | x :: xs, b => by
    simp only [List.foldlM, List.foldl, hg b x]
    exact foldlM_ok_of g f hg xs (f b x)

/-- Claim C6: for every input the parser terminates with a value and
raises nothing — evaluated in the exception monad, with the only
raise-capable operation (the datetime construction of the
date-of-birth branch) modelled explicitly, it returns `.ok` of the plain
parser's result for every input; an input that does drive that operation
into its error case (`DOB: 0 ...`, an invalid day) yields a null age, not
a failure; and a text resolving nothing yields the all-null dictionary. -/
theorem c6_never_raises :
    (∀ now t, parseTextE now t = .ok (parse_prescription_text now t)) ∧
    (∀ now, parse_prescription_text now "" = emptyData) ∧
    (∃ e, dobCompute nowRef 0 "jan".data 2000 = .error e) ∧
    (parse_prescription_text nowRef "DOB: 0 Jan 2000").age = none := by
  refine ⟨?_, parse_empty, ⟨"day is out of range for month", by rfl⟩, by rfl⟩
  intro now t
  unfold parseTextE parse_prescription_text parseCore fieldPass
  dsimp only []
  rw [foldlM_ok_of (fieldStepE now) (fieldStep now) (fieldStepE_ok now)]

/-! ### C8: age plausibility bound and bucketing -/

/-- Claim C8, counterexample: a date of birth within the last year drives
the date-of-birth branch to age 0 — the recorded age's numeric value is
0, outside the claimed 1-120 plausibility bound. -/
theorem c8_counterexample :
    (parse_prescription_text (daysFromCivil 2026 10 12) "DOB: 1 Jan 2026").age =
        some (Nat.repr 0) ∧
    (parse_prescription_text (daysFromCivil 2026 10 12) "DOB: 1 Jan 2026").age_group =
        some "pediatric" ∧
    ¬ (1 ≤ 0 ∧ 0 ≤ 120) := ⟨by rfl, by rfl, by decide⟩

/-- The age invariant: a recorded age is the decimal representation of a
number at most 120 and the age group is its bucket. -/
def AgeOK (d : ParseData) : Prop :=
  ∀ s, d.age = some s →
    ∃ n, n ≤ 120 ∧ s = Nat.repr n ∧ d.age_group = some (bucket n)

theorem ageOK_of_eq {d d' : ParseData} (h1 : d'.age = d.age)
    (h2 : d'.age_group = d.age_group) (h : AgeOK d) : AgeOK d' := by
  intro s hs
  rw [h1] at hs
  obtain ⟨n, hn, rfl, hg⟩ := h s hs
  exact ⟨n, hn, rfl, by rw [h2, hg]⟩

theorem medScan_age (d : ParseData) (ln : List Char) :
    ∀ ps, (medScan d ln ps).age = d.age ∧ (medScan d ln ps).age_group = d.age_group
  | [] => ⟨rfl, rfl⟩
  | (p, ng) :: rest => by
    unfold medScan
    repeat' split
    all_goals (try (dsimp only []; repeat' split))
    all_goals first
      | exact medScan_age d ln rest
      | exact ⟨rfl, rfl⟩

theorem dosageUpd_age (d : ParseData) (ln : List Char) :
    (dosageUpd d ln).age = d.age ∧ (dosageUpd d ln).age_group = d.age_group := by
  unfold dosageUpd
  repeat' split
  all_goals (try (dsimp only []; repeat' split))
  all_goals exact ⟨rfl, rfl⟩

theorem freqUpd_age (d : ParseData) (ln : List Char) :
    (freqUpd d ln).age = d.age ∧ (freqUpd d ln).age_group = d.age_group := by
  unfold freqUpd
  repeat' split
  all_goals (try (dsimp only []; repeat' split))
  all_goals exact ⟨rfl, rfl⟩

theorem timeUpd_age (d : ParseData) (ln : List Char) :
    (timeUpd d ln).age = d.age ∧ (timeUpd d ln).age_group = d.age_group := by
  unfold timeUpd
  repeat' split
  all_goals (try (dsimp only []; repeat' split))
  all_goals exact ⟨rfl, rfl⟩

theorem weightUpd_age (d : ParseData) (ln : List Char) :
    (weightUpd d ln).age = d.age ∧ (weightUpd d ln).age_group = d.age_group := by
  unfold weightUpd
  repeat' split
  all_goals (try (dsimp only []; repeat' split))
  all_goals exact ⟨rfl, rfl⟩

theorem heightUpd_age (d : ParseData) (ln : List Char) :
    (heightUpd d ln).age = d.age ∧ (heightUpd d ln).age_group = d.age_group := by
  unfold heightUpd
  repeat' split
  all_goals (try (dsimp only []; repeat' split))
  all_goals exact ⟨rfl, rfl⟩

theorem purposeUpd_age (d : ParseData) (ln : List Char) :
    (purposeUpd d ln).age = d.age ∧ (purposeUpd d ln).age_group = d.age_group := by
  unfold purposeUpd
  repeat' split
  all_goals (try (dsimp only []; repeat' split))
  all_goals exact ⟨rfl, rfl⟩

theorem allergiesUpd_age (d : ParseData) (ln : List Char) :
    (allergiesUpd d ln).age = d.age ∧ (allergiesUpd d ln).age_group = d.age_group := by
  unfold allergiesUpd
  repeat' split
  all_goals (try (dsimp only []; repeat' split))
  all_goals exact ⟨rfl, rfl⟩

theorem genderUpd_age (d : ParseData) (ln : List Char) :
    (genderUpd d ln).age = d.age ∧ (genderUpd d ln).age_group = d.age_group := by
  unfold genderUpd
  repeat' split
  all_goals (try (dsimp only []; repeat' split))
  all_goals exact ⟨rfl, rfl⟩

theorem dobCompute_le {now : Int} {day : Nat} {ms : List Char} {year n : Nat}
    (h : dobCompute now day ms year = .ok (some n)) : n ≤ 120 := by
  unfold dobCompute at h
  dsimp only [] at h
  repeat' split at h
  all_goals try cases h
  rename_i hguard
  exact Int.toNat_le.mpr hguard.2

theorem ageUpd_ageOK (now : Int) (d : ParseData) (ln : List Char) (h : AgeOK d) :
    AgeOK (ageUpd now d ln) := by
  unfold ageUpd
  split
  · exact h
  · dsimp only []
    repeat' split
    all_goals try exact h
    all_goals first
      | (intro s hs
         injection hs with hs2
         refine ⟨_, ?_, hs2.symm, rfl⟩
         first
           | exact (show (1 ≤ _ ∧ _ ≤ 120) by assumption).2
           | exact dobCompute_le (by assumption))
      | simp_all

theorem fieldStep_ageOK (now : Int) (d : ParseData) (ln : List Char)
    (h : AgeOK d) : AgeOK (fieldStep now d ln) := by
  unfold fieldStep
  apply ageOK_of_eq (genderUpd_age _ _).1 (genderUpd_age _ _).2
  apply ageOK_of_eq (allergiesUpd_age _ _).1 (allergiesUpd_age _ _).2
  apply ageOK_of_eq (purposeUpd_age _ _).1 (purposeUpd_age _ _).2
  apply ageOK_of_eq (heightUpd_age _ _).1 (heightUpd_age _ _).2
  apply ageOK_of_eq (weightUpd_age _ _).1 (weightUpd_age _ _).2
  apply ageUpd_ageOK
  apply ageOK_of_eq (timeUpd_age _ _).1 (timeUpd_age _ _).2
  apply ageOK_of_eq (freqUpd_age _ _).1 (freqUpd_age _ _).2
  exact ageOK_of_eq (dosageUpd_age _ _).1 (dosageUpd_age _ _).2 h

theorem foldl_fieldStep_ageOK (now : Int) :
    ∀ (l : List (List Char)) (b : ParseData), AgeOK b →
      AgeOK (l.foldl (fieldStep now) b)
  | [], _, h => h
  | x :: xs, b, h =>
    foldl_fieldStep_ageOK now xs (fieldStep now b x) (fieldStep_ageOK now b x h)

theorem foldl_medStep_age :
    ∀ (l : List (List Char)) (b : ParseData),
      (l.foldl (fun d ln =>
        if d.med_name.isNone || d.dosage.isNone then medScan d ln medPatterns else d)
          b).age = b.age ∧
      (l.foldl (fun d ln =>
        if d.med_name.isNone || d.dosage.isNone then medScan d ln medPatterns else d)
          b).age_group = b.age_group
  | [], _ => ⟨rfl, rfl⟩
  | x :: xs, b => by
    have hx : (if b.med_name.isNone || b.dosage.isNone then medScan b x medPatterns
        else b).age = b.age ∧
        (if b.med_name.isNone || b.dosage.isNone then medScan b x medPatterns
          else b).age_group = b.age_group := by
      split
      · exact medScan_age b x medPatterns
      · exact ⟨rfl, rfl⟩
    have ih := foldl_medStep_age xs
      (if b.med_name.isNone || b.dosage.isNone then medScan b x medPatterns else b)
    exact ⟨by rw [List.foldl, ih.1, hx.1], by rw [List.foldl, ih.2, hx.2]⟩

theorem fbPass_age (lines : List (List Char)) (d : ParseData) :
    (fbPass lines d).age = d.age ∧ (fbPass lines d).age_group = d.age_group := by
  unfold fbPass
  split
  all_goals exact ⟨rfl, rfl⟩

theorem lrPass_age (lines : List (List Char)) (d : ParseData) :
    (lrPass lines d).age = d.age ∧ (lrPass lines d).age_group = d.age_group := by
  unfold lrPass
  split
  all_goals exact ⟨rfl, rfl⟩

theorem medPass_age (lines : List (List Char)) :
    (medPass lines).age = none ∧ (medPass lines).age_group = none := by
  unfold medPass
  exact foldl_medStep_age lines emptyData

theorem parseCore_ageOK (now : Int) (lines : List (List Char)) :
    AgeOK (parseCore now lines) := by
  unfold parseCore
  apply ageOK_of_eq (lrPass_age _ _).1 (lrPass_age _ _).2
  unfold fieldPass
  apply foldl_fieldStep_ageOK
  apply ageOK_of_eq (fbPass_age _ _).1 (fbPass_age _ _).2
  intro s hs
  rw [(medPass_age lines).1] at hs
  cases hs

/-- Claim C8 (amended): a non-null age is the decimal representation of a
value at most 120 — 0 is reachable through the date-of-birth branch, so
the lower bound is 0, not the claimed 1 — and the age group is
deterministically bucketed from that value (pediatric below 18, elderly
from 65, adult otherwise); ages 17 and 18 fall on the claimed boundary
sides. -/
theorem c8_age_bound_and_bucket :
    (∀ now t s, (parse_prescription_text now t).age = some s →
      ∃ n, n ≤ 120 ∧ s = Nat.repr n ∧
        (parse_prescription_text now t).age_group = some (bucket n)) ∧
    (parse_prescription_text nowRef "Age: 17").age_group = some "pediatric" ∧
    (parse_prescription_text nowRef "Age: 18").age_group = some "adult" := by
  refine ⟨?_, by rfl, by rfl⟩
  intro now t s hs
  exact parseCore_ageOK now (parseLines t) s hs

theorem c8_age_bound_and_bucket_witness :
    ∃ n, n ≤ 120 ∧ "17" = Nat.repr n ∧
      (parse_prescription_text nowRef "Age: 17").age_group = some (bucket n) :=
  c8_age_bound_and_bucket.1 nowRef "Age: 17" "17" (by rfl)

/-! ### C9 development: the normalizer is idempotent -/

/-- Substituting a two-letter word by itself is the identity. -/
theorem wr2_id (w0 w1 : Char) (b : Bool) (l : List Char) :
    wordRepl2Go w0 w1 [w0, w1] b l = l := by
  induction b, l using wordRepl2Go.induct w0 w1 [w0, w1] with
  | case1 b => rw [wordRepl2Go.eq_def]
  | case2 prevW c c2 cs2 hcond ih =>
    rw [wordRepl2Go.eq_def]
    simp only []
    rw [if_pos hcond, ih]
    simp only [Bool.and_eq_true, beq_iff_eq] at hcond
    obtain ⟨⟨⟨_, hc⟩, hc2⟩, _⟩ := hcond
    simp [hc, hc2]
  | case3 prevW c c2 cs2 hcond ih =>
    rw [wordRepl2Go.eq_def]
    simp only []
    rw [if_neg hcond, ih]
  | case4 prevW c => rw [wordRepl2Go.eq_def]

/-- Substituting a three-letter word by itself is the identity. -/
theorem wr3_id (w0 w1 w2 : Char) (b : Bool) (l : List Char) :
    wordRepl3Go w0 w1 w2 [w0, w1, w2] b l = l := by
  induction b, l using wordRepl3Go.induct w0 w1 w2 [w0, w1, w2] with
  | case1 b => rw [wordRepl3Go.eq_def]
  | case2 prevW c c2 c3 cs3 hcond ih =>
    rw [wordRepl3Go.eq_def]
    simp only []
    rw [if_pos hcond, ih]
    simp only [Bool.and_eq_true, beq_iff_eq] at hcond
    obtain ⟨⟨⟨⟨_, hc⟩, hc2⟩, hc3⟩, _⟩ := hcond
    simp [hc, hc2, hc3]
  | case3 prevW c c2 c3 cs3 hcond ih =>
    rw [wordRepl3Go.eq_def]
    simp only []
    rw [if_neg hcond, ih]
  | case4 prevW c cs hne ih =>
    rcases cs with _ | ⟨c2, _ | ⟨c3, cs3⟩⟩
    · rw [wordRepl3Go.eq_def]
      simp only []
      rw [ih]
    · rw [wordRepl3Go.eq_def]
      simp only []
      rw [ih]
    · cases hne c2 c3 cs3 rfl

/-! ### Shape predicates on normalized lines -/

/-- Drop trailing whitespace (Python `str.rstrip()` restricted to the
whitespace set). -/
def stripT : List Char → List Char
  | [] => []
  | c :: cs =>
    match stripT cs with
    | [] => if isWs c then [] else [c]
    | r => c :: r

/-- The first character, if any, is not whitespace. -/
def headNotWs : List Char → Bool
  | [] => true
  | c :: _ => !isWs c

/-- The last character, if any, is not whitespace. -/
def lastNotWs : List Char → Bool
  | [] => true
  | c :: cs => match cs with | [] => !isWs c | _ :: _ => lastNotWs cs

/-- Every whitespace character is a plain space and is followed by a
non-whitespace character or the end: the shape left by collapsing
whitespace runs. -/
def wsOk : List Char → Bool
  | [] => true
  | c :: cs => (if isWs c then c == ' ' && headNotWs cs else true) && wsOk cs

/-- No newline characters. -/
def noNl (l : List Char) : Bool := l.all (fun c => !(c == Char.ofNat 10))

/-- Punctuation-spacing shape of a normalized line: every punctuation
character is followed by a space, and every space not directly emitted
after punctuation is followed by a character that is neither whitespace
nor punctuation.  `prevP` records whether the previous character was
punctuation. -/
def pok : Bool → List Char → Bool
  | _, [] => true
  | prevP, c :: cs =>
    (if isPunct c then (match cs with | c2 :: _ => c2 == ' ' | [] => false)
     else if isWs c then
       (if prevP then true
        else (match cs with | c2 :: _ => !isWs c2 && !isPunct c2 | [] => false))
     else true) && pok (isPunct c) cs

theorem stripT_cons (c : Char) (cs : List Char) :
    stripT (c :: cs) =
      if stripT cs = [] then (if isWs c then [] else [c]) else c :: stripT cs := by
  cases h : stripT cs <;> simp [stripT, h]

theorem stripT_head (c : Char) (cs : List Char) (h : isWs c = false) :
    ∃ r, stripT (c :: cs) = c :: r := by
  rw [stripT_cons]
  split
  · exact ⟨[], by simp [h]⟩
  · exact ⟨stripT cs, rfl⟩

theorem stripT_isPrefix : ∀ l : List Char, stripT l <+: l := by
  intro l
  induction l with
  | nil => exact List.prefix_refl _
  | cons c cs ih =>
    rw [stripT_cons]
    split
    · split
      · exact List.nil_prefix
      · exact List.cons_prefix_cons.mpr ⟨rfl, List.nil_prefix⟩
    · exact List.cons_prefix_cons.mpr ⟨rfl, ih⟩

theorem stripT_append_ws (w : Char) (hw : isWs w = true) :
    ∀ l : List Char, stripT (l ++ [w]) = stripT l := by
  intro l
  induction l with
  | nil => simp [stripT, hw]
  | cons c cs ih =>
    rw [List.cons_append, stripT_cons, stripT_cons, ih]

theorem stripT_append_nws (c : Char) (hc : isWs c = false) :
    ∀ l : List Char, stripT (l ++ [c]) = l ++ [c] := by
  intro l
  induction l with
  | nil => simp [stripT, hc]
  | cons a l ih =>
    rw [List.cons_append, stripT_cons, ih]
    simp

theorem stripT_eq_reverse_dropWhile (l : List Char) :
    stripT l = (l.reverse.dropWhile isWs).reverse := by
  induction l using List.reverseRecOn with
  | nil => rfl
  | append_singleton l c ih =>
    rw [List.reverse_append]
    simp only [List.reverse_singleton, List.singleton_append, List.dropWhile_cons]
    by_cases h : isWs c
    · rw [if_pos h, stripT_append_ws c (by simp [h]), ih]
    · rw [if_neg h, stripT_append_nws c (by simp [h])]
      simp

theorem pyStrip_of_headNotWs (l : List Char) (h : headNotWs l = true) :
    pyStrip l = stripT l := by
  have hdw : l.dropWhile isWs = l := by
    cases l with
    | nil => rfl
    | cons c cs =>
      simp only [headNotWs, Bool.not_eq_eq_eq_not, Bool.not_true] at h
      simp [List.dropWhile_cons, h]
  rw [pyStrip, hdw, stripT_eq_reverse_dropWhile]

theorem wsOk_cons {c : Char} {cs : List Char} (h : wsOk (c :: cs) = true) :
    wsOk cs = true := by
  simp only [wsOk, Bool.and_eq_true] at h
  exact h.2

theorem wsOk_append_left : ∀ a b : List Char, wsOk (a ++ b) = true → wsOk a = true := by
  intro a
  induction a with
  | nil => intro b _; rfl
  | cons c a ih =>
    intro b h
    simp only [List.cons_append, wsOk, Bool.and_eq_true] at h ⊢
    refine ⟨?_, ih b h.2⟩
    rcases h with ⟨h1, _⟩
    by_cases hw : isWs c
    · rw [if_pos hw] at h1 ⊢
      rw [Bool.and_eq_true] at h1 ⊢
      refine ⟨h1.1, ?_⟩
      cases a with
      | nil => rfl
      | cons x xs => simpa [headNotWs] using h1.2
    · rw [if_neg hw]

theorem wsOk_stripT {l : List Char} (h : wsOk l = true) : wsOk (stripT l) = true := by
  obtain ⟨t, ht⟩ := stripT_isPrefix l
  exact wsOk_append_left _ t (by rw [ht]; exact h)

theorem wsOk_noNl : ∀ l : List Char, wsOk l = true → noNl l = true := by
  intro l
  induction l with
  | nil => intro _; rfl
  | cons c cs ih =>
    intro h
    simp only [wsOk, Bool.and_eq_true] at h
    simp only [noNl, List.all_cons, Bool.and_eq_true]
    refine ⟨?_, ih h.2⟩
    rcases h with ⟨h1, _⟩
    by_cases hw : isWs c
    · rw [if_pos hw, Bool.and_eq_true] at h1
      have : c = ' ' := by simpa using h1.1
      subst this
      decide
    · simp only [Bool.not_eq_true] at hw
      have hc : ¬ c = Char.ofNat 10 := by
        intro hc
        rw [hc] at hw
        exact absurd hw (by decide)
      simp [hc]

/-! ### Splitting on newline round-trips against joining -/

theorem splitNlGo_noNl : ∀ (l cur : List Char), noNl l = true →
    splitNlGo cur l = [cur.reverse ++ l] := by
  intro l
  induction l with
  | nil => intro cur _; simp [splitNlGo]
  | cons c cs ih =>
    intro cur h
    simp only [noNl, List.all_cons, Bool.and_eq_true] at h
    have hc : ¬ c = '\n' := by simpa using h.1
    simp only [splitNlGo, if_neg hc]
    rw [ih (c :: cur) (by simpa [noNl] using h.2)]
    simp

theorem splitNlGo_break : ∀ (l cur rest : List Char), noNl l = true →
    splitNlGo cur (l ++ '\n' :: rest) = (cur.reverse ++ l) :: splitNlGo [] rest := by
  intro l
  induction l with
  | nil => intro cur rest _; simp [splitNlGo]
  | cons c cs ih =>
    intro cur rest h
    simp only [noNl, List.all_cons, Bool.and_eq_true] at h
    have hc : ¬ c = '\n' := by simpa using h.1
    simp only [List.cons_append, splitNlGo, if_neg hc]
    simp only [List.append_eq]
    rw [ih (c :: cur) rest (by simpa [noNl] using h.2)]
    simp

theorem intercalate_cons_cons (s a : List Char) (y : List Char) (t : List (List Char)) :
    List.intercalate s (a :: y :: t) = a ++ s ++ List.intercalate s (y :: t) := by
  simp [List.intercalate, List.intersperse]

theorem splitNl_intercalate : ∀ ys : List (List Char), ys ≠ [] →
    (∀ y ∈ ys, noNl y = true) →
    splitNl (List.intercalate ['\n'] ys) = ys := by
  intro ys
  induction ys with
  | nil => intro h; exact absurd rfl h
  | cons y t ih =>
    intro _ hall
    cases t with
    | nil =>
      rw [show List.intercalate ['\n'] [y] = y by simp [List.intercalate]]
      rw [splitNl, splitNlGo_noNl _ [] (hall y (by simp))]
      simp
    | cons y2 t2 =>
      rw [intercalate_cons_cons]
      rw [splitNl, List.append_assoc, List.singleton_append,
        splitNlGo_break _ [] _ (hall y (by simp))]
      simp only [List.reverse_nil, List.nil_append]
      have := ih (by simp) (fun z hz => hall z (by simp [hz]))
      rw [splitNl] at this
      rw [this]

/-! ### The whitespace-collapse pass: shape and fixpoint -/

theorem collapseGo_true_headNotWs : ∀ l : List Char,
    headNotWs (collapseGo true l) = true := by
  intro l
  induction l with
  | nil => rfl
  | cons c cs ih =>
    simp only [collapseGo]
    split
    · simpa using ih
    · simpa [headNotWs] using (by assumption : ¬ isWs c = true)

theorem collapseGo_wsOk : ∀ (l : List Char) (b : Bool),
    wsOk (collapseGo b l) = true := by
  intro l
  induction l with
  | nil => intro b; rfl
  | cons c cs ih =>
    intro b
    simp only [collapseGo]
    split
    · split
      · exact ih true
      · simp only [wsOk, Bool.and_eq_true]
        refine ⟨?_, ih true⟩
        simp [collapseGo_true_headNotWs cs]
    · simp only [wsOk, Bool.and_eq_true]
      refine ⟨?_, ih false⟩
      simp_all

theorem lastNotWs_cons_of_ne (a : Char) {l : List Char} (h : l ≠ []) :
    lastNotWs (a :: l) = lastNotWs l := by
  cases l with
  | nil => exact absurd rfl h
  | cons x xs => rfl

theorem collapseGo_last : ∀ (l : List Char) (b : Bool), lastNotWs l = true →
    lastNotWs (collapseGo b l) = true ∧ (collapseGo b l = [] → l = []) := by
  intro l
  induction l with
  | nil => intro b _; exact ⟨rfl, fun _ => rfl⟩
  | cons c cs ih =>
    intro b h
    by_cases hw : isWs c
    · have hcs : cs ≠ [] ∧ lastNotWs cs = true := by
        cases cs with
        | nil => simp [lastNotWs, hw] at h
        | cons x xs => exact ⟨by simp, by simpa [lastNotWs] using h⟩
      simp only [collapseGo, if_pos hw]
      split
      · refine ⟨(ih true hcs.2).1, fun he => absurd ((ih true hcs.2).2 he) hcs.1⟩
      · have hne : collapseGo true cs ≠ [] :=
          fun he => absurd ((ih true hcs.2).2 he) hcs.1
        constructor
        · rw [lastNotWs_cons_of_ne ' ' hne]
          exact (ih true hcs.2).1
        · intro he; simp at he
    · simp only [collapseGo, if_neg hw]
      cases cs with
      | nil => exact ⟨by simpa [collapseGo, lastNotWs] using h, fun he => by simp at he⟩
      | cons x xs =>
        have hcs : lastNotWs (x :: xs) = true := by simpa [lastNotWs] using h
        have hne : collapseGo false (x :: xs) ≠ [] :=
          fun he => absurd ((ih false hcs).2 he) (by simp)
        constructor
        · rw [lastNotWs_cons_of_ne c hne]
          exact (ih false hcs).1
        · intro he; simp at he

theorem collapseGo_true_of_headNotWs (l : List Char) (h : headNotWs l = true) :
    collapseGo true l = collapseGo false l := by
  cases l with
  | nil => rfl
  | cons c cs =>
    have : ¬ isWs c = true := by simpa [headNotWs] using h
    simp [collapseGo, this]

theorem collapseGo_fix : ∀ l : List Char, wsOk l = true →
    collapseGo false l = l := by
  intro l
  induction l with
  | nil => intro _; rfl
  | cons c cs ih =>
    intro h
    simp only [wsOk, Bool.and_eq_true] at h
    by_cases hw : isWs c
    · rw [if_pos hw, Bool.and_eq_true] at h
      obtain ⟨⟨hsp, hhd⟩, hrest⟩ := h
      simp only [collapseGo, if_pos hw]
      rw [collapseGo_true_of_headNotWs cs hhd, ih hrest]
      have : c = ' ' := by simpa using hsp
      rw [this]
      simp
    · simp only [collapseGo, if_neg hw]
      rw [ih h.2]

/-! ### The punctuation-spacing pass: shape, establishment and restore -/

theorem punct_not_ws {c : Char} (h : isPunct c = true) : isWs c = false := by
  simp only [isPunct, Bool.or_eq_true, decide_eq_true_eq] at h
  rcases h with ((((h | h) | h) | h) | h) | h <;> subst h <;> decide

theorem ws_not_punct {c : Char} (h : isWs c = true) : isPunct c = false := by
  by_cases hp : isPunct c
  · exact absurd h (by simp [punct_not_ws hp])
  · simpa using hp

theorem lastNotWs_tail {c : Char} {cs : List Char} (h : lastNotWs (c :: cs) = true) :
    lastNotWs cs = true := by
  cases cs with
  | nil => rfl
  | cons x xs => simpa [lastNotWs] using h

theorem punctGo_skip_headNotWs : ∀ l : List Char,
    headNotWs (punctGo [] true l) = true := by
  intro l
  induction l with
  | nil => rfl
  | cons c cs ih =>
    simp only [punctGo, if_pos rfl]
    by_cases hw : isWs c
    · rw [if_pos hw]; exact ih
    · rw [if_neg hw]
      by_cases hpc : isPunct c
      · rw [if_pos hpc]; simp [headNotWs, punct_not_ws hpc]
      · rw [if_neg hpc]; simp [headNotWs, hw]

theorem punctGo_skip_eq (l : List Char) (h : headNotWs l = true) :
    punctGo [] true l = punctGo [] false l := by
  cases l with
  | nil => rfl
  | cons c cs =>
    have hw : ¬ isWs c = true := by simpa [headNotWs] using h
    by_cases hpc : isPunct c
    · simp [punctGo, hw, hpc]
    · simp [punctGo, hw, hpc]

theorem punctGo_headNotWs (l : List Char) (h : headNotWs l = true) :
    headNotWs (punctGo [] false l) = true := by
  cases l with
  | nil => rfl
  | cons c cs =>
    have hw : ¬ isWs c = true := by simpa [headNotWs] using h
    by_cases hpc : isPunct c
    · simp [punctGo, hw, hpc, headNotWs, punct_not_ws hpc]
    · simp [punctGo, hw, hpc, headNotWs]

theorem punctGo_ne_nil (c : Char) (cs : List Char) (h : isWs c = false) :
    punctGo [] false (c :: cs) ≠ [] := by
  by_cases hpc : isPunct c
  · simp [punctGo, h, hpc]
  · simp [punctGo, h, hpc]

theorem punctGo_estab : ∀ (l pend : List Char) (skip : Bool),
    wsOk l = true → lastNotWs l = true →
    (pend = [] ∨ (pend = [' '] ∧ headNotWs l = true ∧ l ≠ [])) →
    (skip = true → pend = []) →
    wsOk (punctGo pend skip l) = true ∧ pok false (punctGo pend skip l) = true := by
  intro l
  induction l with
  | nil =>
    intro pend skip _ _ hpend _
    have : pend = [] := by
      rcases hpend with h | ⟨_, _, h⟩
      · exact h
      · exact absurd rfl h
    subst this
    exact ⟨rfl, rfl⟩
  | cons c cs ih =>
    intro pend skip hws hlast hpend hskip
    have hwcs : wsOk cs = true := wsOk_cons hws
    have hlcs : lastNotWs cs = true := lastNotWs_tail hlast
    by_cases hw : isWs c
    · -- whitespace: pend must be empty
      have hpe : pend = [] := by
        rcases hpend with h | ⟨_, hh, _⟩
        · exact h
        · exact absurd (by simpa [headNotWs] using hh) (by simp [hw])
      subst hpe
      have hcsne : cs ≠ [] := by
        intro h; subst h
        simp [lastNotWs, hw] at hlast
      have hsp : c = ' ' := by
        simp only [wsOk, if_pos hw, Bool.and_eq_true] at hws
        simpa using hws.1.1
      have hhd : headNotWs cs = true := by
        simp only [wsOk, if_pos hw, Bool.and_eq_true] at hws
        exact hws.1.2
      cases skip with
      | true =>
        simp only [punctGo, if_pos rfl, if_pos hw]
        exact ih [] true hwcs hlcs (Or.inl rfl) (fun _ => rfl)
      | false =>
        simp only [punctGo]
        rw [if_neg (by simp), if_neg (by simp [ws_not_punct hw]), if_pos hw]
        subst hsp
        exact ih [' '] false hwcs hlcs (Or.inr ⟨rfl, hhd, hcsne⟩) (by simp)
    · by_cases hpc : isPunct c
      · -- punctuation: emit c and a space, enter skip mode
        have hout : punctGo pend skip (c :: cs) = c :: ' ' :: punctGo [] true cs := by
          cases skip with
          | true => simp [punctGo, hw, hpc]
          | false => simp [punctGo, hpc]
        obtain ⟨ho1, ho2⟩ := ih [] true hwcs hlcs (Or.inl rfl) (fun _ => rfl)
        rw [hout]
        constructor
        · simp only [wsOk, if_neg hw, Bool.and_eq_true]
          refine ⟨trivial, ?_, ho1⟩
          simp only [if_pos (by decide : isWs ' ' = true), Bool.and_eq_true]
          exact ⟨by decide, punctGo_skip_headNotWs cs⟩
        · simp only [pok, if_pos hpc, Bool.and_eq_true]
          refine ⟨by simp, ?_⟩
          rw [if_neg (by decide : ¬ isPunct ' ' = true),
            if_pos (by decide : isWs ' ' = true)]
          simp only [if_pos hpc, Bool.and_eq_true, if_pos rfl]
          exact ⟨trivial, by simpa [isPunct] using ho2⟩
      · -- ordinary character
        have hout : punctGo pend skip (c :: cs) =
            pend.reverse ++ c :: punctGo [] false cs := by
          cases skip with
          | true => rw [hskip rfl]; simp [punctGo, hw, hpc]
          | false => simp [punctGo, hw, hpc]
        obtain ⟨ho1, ho2⟩ := ih [] false hwcs hlcs (Or.inl rfl) (by simp)
        rw [hout]
        rcases hpend with hpe | ⟨hpe, _, _⟩ <;> subst hpe
        · constructor
          · simp only [List.reverse_nil, List.nil_append, wsOk, if_neg hw,
              Bool.and_eq_true]
            exact ⟨trivial, ho1⟩
          · simp only [List.reverse_nil, List.nil_append, pok, if_neg hpc, if_neg hw,
              Bool.and_eq_true]
            exact ⟨trivial, by simpa [hpc] using ho2⟩
        · have hnorm : ([' '].reverse ++ c :: punctGo [] false cs) =
              ' ' :: c :: punctGo [] false cs := by simp
          rw [hnorm]
          constructor
          · simp only [wsOk, Bool.and_eq_true,
              if_pos (by decide : isWs ' ' = true), if_neg hw]
            exact ⟨⟨by decide, by simp [headNotWs, hw]⟩, trivial, ho1⟩
          · simp only [pok, Bool.and_eq_true,
              if_neg (by decide : ¬ isPunct ' ' = true),
              if_pos (by decide : isWs ' ' = true), if_neg hpc, if_neg hw]
            refine ⟨by simp [hw, hpc], trivial, by simpa [hpc] using ho2⟩

theorem punctGo_ws_step (y : Char) (ys : List Char)
    (hy : isWs y = false) (hp : isPunct y = false) :
    punctGo [] false (' ' :: y :: ys) = ' ' :: punctGo [] false (y :: ys) := by
  simp [punctGo, hy, hp, show isPunct ' ' = false by decide,
    show isWs ' ' = true by decide]

theorem punct_restore : ∀ l : List Char, wsOk l = true → pok false l = true →
    punctGo [] false (stripT l) = l := by
  have H : ∀ n : Nat, ∀ l : List Char, l.length ≤ n → wsOk l = true →
      pok false l = true → punctGo [] false (stripT l) = l := by
    intro n
    induction n with
    | zero =>
      intro l hlen _ _
      have : l = [] := List.length_eq_zero.mp (Nat.le_zero.mp hlen)
      subst this; rfl
    | succ n IH =>
      intro l hlen hws hpok
      cases l with
      | nil => rfl
      | cons c l1 =>
        by_cases hpc : isPunct c
        · have hcnw : isWs c = false := punct_not_ws hpc
          simp only [pok, if_pos hpc, Bool.and_eq_true] at hpok
          obtain ⟨hnext, hrest⟩ := hpok
          cases l1 with
          | nil => exact Bool.noConfusion hnext
          | cons c2 l2 =>
            have hc2 : c2 = ' ' := by simpa using hnext
            subst hc2
            have hrest2 : pok false l2 = true := by
              rw [hpc] at hrest
              simp only [pok, if_neg (by decide : ¬ isPunct ' ' = true),
                if_pos (by decide : isWs ' ' = true), if_pos rfl,
                Bool.true_and] at hrest
              simpa [show isPunct ' ' = false by decide] using hrest
            have hws1 : wsOk (' ' :: l2) = true := wsOk_cons hws
            have hws2 : wsOk l2 = true := wsOk_cons hws1
            have hhd2 : headNotWs l2 = true := by
              simp only [wsOk, if_pos (by decide : isWs ' ' = true),
                Bool.and_eq_true] at hws1
              exact hws1.1.2
            cases l2 with
            | nil =>
              show punctGo [] false (stripT [c, ' ']) = [c, ' ']
              rw [show stripT [c, ' '] = [c] by
                simp [stripT, hcnw, show isWs ' ' = true by decide]]
              simp [punctGo, hpc, hcnw]
            | cons d l3 =>
              have hd : isWs d = false := by simpa [headNotWs] using hhd2
              obtain ⟨r, hr⟩ := stripT_head d l3 hd
              have hst : stripT (c :: ' ' :: d :: l3) = c :: ' ' :: stripT (d :: l3) := by
                rw [stripT_cons, stripT_cons, hr]
                simp [hcnw]
              rw [hst]
              have h1 : punctGo [] false (c :: ' ' :: stripT (d :: l3)) =
                  c :: ' ' :: punctGo [] true (' ' :: stripT (d :: l3)) := by
                simp [punctGo, hpc, hcnw]
              rw [h1]
              have h2 : punctGo [] true (' ' :: stripT (d :: l3)) =
                  punctGo [] true (stripT (d :: l3)) := by
                simp [punctGo, show isWs ' ' = true by decide]
              rw [h2, punctGo_skip_eq _ (by simp [hr, headNotWs, hd])]
              rw [IH (d :: l3) (by
                  simp only [List.length_cons] at hlen ⊢
                  omega) hws2 hrest2]
        · by_cases hw : isWs c
          · simp only [pok, if_neg hpc, if_pos hw,
              if_neg (by decide : ¬ (false = true))] at hpok
            rw [Bool.and_eq_true] at hpok
            obtain ⟨hnext, hrest⟩ := hpok
            cases l1 with
            | nil => exact Bool.noConfusion hnext
            | cons c2 l2 =>
              have hnext2 : (!isWs c2 && !isPunct c2) = true := hnext
              rw [Bool.and_eq_true] at hnext2
              have hc2w : isWs c2 = false := by simpa using hnext2.1
              have hc2p : isPunct c2 = false := by simpa using hnext2.2
              have hsp : c = ' ' := by
                simp only [wsOk, if_pos hw, Bool.and_eq_true] at hws
                simpa using hws.1.1
              subst hsp
              obtain ⟨r, hr⟩ := stripT_head c2 l2 hc2w
              have hst : stripT (' ' :: c2 :: l2) = ' ' :: stripT (c2 :: l2) := by
                rw [stripT_cons, hr]
                simp
              rw [hst, hr, punctGo_ws_step c2 r hc2w hc2p, ← hr]
              rw [IH (c2 :: l2) (by simp only [List.length_cons] at hlen ⊢; omega)
                (wsOk_cons hws) (by simpa [show isPunct ' ' = false by decide] using hrest)]
          · simp only [pok, if_neg hpc, if_neg hw, Bool.true_and] at hpok
            have hrest : pok false l1 = true := by simpa [hpc] using hpok
            by_cases hst1 : stripT l1 = []
            · have hl1 : l1 = [] := by
                cases l1 with
                | nil => rfl
                | cons x xs =>
                  exfalso
                  by_cases hxw : isWs x
                  · have hrx : pok false (x :: xs) = true := hrest
                    simp only [pok, if_neg (show ¬ isPunct x = true by
                        simp [ws_not_punct hxw]), if_pos hxw,
                      if_neg (by decide : ¬ (false = true)), Bool.and_eq_true] at hrx
                    cases xs with
                    | nil => exact Bool.noConfusion hrx.1
                    | cons y ys =>
                      have hy : (!isWs y && !isPunct y) = true := hrx.1
                      rw [Bool.and_eq_true] at hy
                      have hyw : isWs y = false := by simpa using hy.1
                      obtain ⟨r, hr⟩ := stripT_head y ys hyw
                      rw [stripT_cons, hr] at hst1
                      simp at hst1
                  · obtain ⟨r, hr⟩ := stripT_head x xs (by simpa using hxw)
                    rw [hr] at hst1
                    exact absurd hst1 (by simp)
              subst hl1
              show punctGo [] false (stripT [c]) = [c]
              rw [show stripT [c] = [c] by simp [stripT, hw]]
              simp [punctGo, hpc, hw]
            · have hst : stripT (c :: l1) = c :: stripT l1 := by
                rw [stripT_cons, if_neg hst1]
              rw [hst]
              obtain ⟨x, xs, hsx⟩ : ∃ x xs, stripT l1 = x :: xs := by
                cases hsx : stripT l1 with
                | nil => exact absurd hsx hst1
                | cons x xs => exact ⟨x, xs, rfl⟩
              have h1 : punctGo [] false (c :: stripT l1) =
                  c :: punctGo [] false (stripT l1) := by
                rw [hsx]
                simp [punctGo, hpc, hw]
              rw [h1, IH l1 (by simp only [List.length_cons] at hlen; omega)
                (wsOk_cons hws) hrest]
  intro l
  exact H l.length l (Nat.le_refl _)

/-! ### The `0D`→`OD` pass: shape preservation and self-stabilization -/

/-- Pointwise character-shape agreement: equal whitespace and punctuation
classes, with whitespace characters kept identical. -/
inductive SameShape : List Char → List Char → Prop
  | nil : SameShape [] []
  | cons (a b : Char) {l o : List Char} :
      isWs a = isWs b → isPunct a = isPunct b → (isWs a = true → a = b) →
      SameShape l o → SameShape (a :: l) (b :: o)

theorem sameShape_headNotWs {l o : List Char} (h : SameShape l o) :
    headNotWs l = headNotWs o := by
  cases h with
  | nil => rfl
  | cons a b hw _ _ _ => simp [headNotWs, hw]

theorem sameShape_wsOk {l o : List Char} (h : SameShape l o) :
    wsOk l = true → wsOk o = true := by
  induction h with
  | nil => intro _; rfl
  | cons a b hw hp heq hrel ih =>
    intro hok
    simp only [wsOk, Bool.and_eq_true] at hok ⊢
    refine ⟨?_, ih hok.2⟩
    rcases hok with ⟨h1, _⟩
    by_cases hwa : isWs a
    · rw [if_pos hwa, Bool.and_eq_true] at h1
      rw [if_pos (hw ▸ hwa), Bool.and_eq_true]
      have hab : a = b := heq hwa
      exact ⟨hab ▸ h1.1, (sameShape_headNotWs hrel) ▸ h1.2⟩
    · rw [if_neg (fun hc => hwa (hw ▸ hc))]

theorem sameShape_pok {l o : List Char} (h : SameShape l o) :
    ∀ p, pok p l = true → pok p o = true := by
  induction h with
  | nil => intro p _; rfl
  | cons a b hw hp heq hrel ih =>
    intro p hok
    simp only [pok, Bool.and_eq_true] at hok ⊢
    refine ⟨?_, hp ▸ ih (isPunct a) hok.2⟩
    rcases hok with ⟨h1, _⟩
    by_cases hpa : isPunct a
    · rw [if_pos hpa] at h1
      rw [if_pos (hp ▸ hpa)]
      cases hrel with
      | nil => exact h1
      | cons a2 b2 hw2 _ heq2 _ =>
        have ha2 : a2 = ' ' := by simpa using h1
        subst ha2
        have : b2 = ' ' := (heq2 (by decide)).symm.trans rfl |>.symm ▸ (heq2 (by decide)).symm
        simp [← heq2 (by decide)]
    · rw [if_neg hpa] at h1
      rw [if_neg (fun hc => hpa (hp ▸ hc))]
      by_cases hwa : isWs a
      · rw [if_pos hwa] at h1
        rw [if_pos (hw ▸ hwa)]
        by_cases hpp : p = true
        · rw [if_pos hpp]
        · rw [if_neg hpp] at h1 ⊢
          cases hrel with
          | nil => exact h1
          | cons a2 b2 hw2 hp2 _ _ =>
            rw [Bool.and_eq_true] at h1 ⊢
            exact ⟨by rw [← hw2]; exact h1.1, by rw [← hp2]; exact h1.2⟩
      · rw [if_neg (fun hc => hwa (hw ▸ hc))]

theorem od0_sameShape : ∀ (b : Bool) (l : List Char),
    SameShape l (wordRepl2Go '0' 'D' ['O', 'D'] b l) := by
  intro b l
  induction b, l using wordRepl2Go.induct '0' 'D' ['O', 'D'] with
  | case1 b => rw [wordRepl2Go.eq_def]; exact SameShape.nil
  | case2 prevW c c2 cs2 hcond ih =>
    rw [wordRepl2Go.eq_def]
    simp only []
    rw [if_pos hcond]
    simp only [Bool.and_eq_true, beq_iff_eq] at hcond
    obtain ⟨⟨⟨_, hc⟩, hc2⟩, _⟩ := hcond
    subst hc; subst hc2
    exact SameShape.cons _ _ (by decide) (by decide) (by intro h; exact absurd h (by decide))
      (SameShape.cons _ _ rfl rfl (fun _ => rfl) ih)
  | case3 prevW c c2 cs2 hcond ih =>
    rw [wordRepl2Go.eq_def]
    simp only []
    rw [if_neg hcond]
    exact SameShape.cons _ _ rfl rfl (fun _ => rfl) ih
  | case4 prevW c =>
    rw [wordRepl2Go.eq_def]
    exact SameShape.cons _ _ rfl rfl (fun _ => rfl) SameShape.nil

/-- No occurrence of the two-character word `w0 w1` at a word boundary:
the text is a fixed point of the corresponding substitution. -/
def noW2 (w0 w1 : Char) : Bool → List Char → Bool
  | _, [] => true
  | prevW, c :: cs =>
    (match cs with
     | c2 :: cs2 => !(!prevW && c == w0 && c2 == w1 && hdNonWord cs2)
     | [] => true) && noW2 w0 w1 (isWordC c) cs

theorem noW2_fix (w0 w1 : Char) (r : List Char) : ∀ (b : Bool) (l : List Char),
    noW2 w0 w1 b l = true → wordRepl2Go w0 w1 r b l = l := by
  intro b l
  induction b, l using wordRepl2Go.induct w0 w1 r with
  | case1 b => intro _; rw [wordRepl2Go.eq_def]
  | case2 prevW c c2 cs2 hcond ih =>
    intro h
    exfalso
    simp only [noW2, Bool.and_eq_true] at h
    rw [hcond] at h
    simpa using h.1
  | case3 prevW c c2 cs2 hcond ih =>
    intro h
    simp only [noW2, Bool.and_eq_true] at h
    rw [wordRepl2Go.eq_def]
    simp only []
    rw [if_neg hcond, ih (by simp only [noW2, Bool.and_eq_true]; exact h.2)]
  | case4 prevW c => intro _; rw [wordRepl2Go.eq_def]

theorem hdNonWord_eq (l : List Char) :
    hdNonWord l = (match l.head? with | none => true | some c => !isWordC c) := by
  cases l <;> rfl

theorem wr2_head_true (w0 w1 : Char) (r : List Char) (cs : List Char) :
    (wordRepl2Go w0 w1 r true cs).head? = cs.head? := by
  cases cs with
  | nil => rw [wordRepl2Go.eq_def]
  | cons c cs2 =>
    rw [wordRepl2Go.eq_def]
    cases cs2 with
    | nil => rfl
    | cons c2 cs3 => simp

theorem wr2_head_ne (w0 w1 : Char) (r : List Char) (f : Bool) (x : Char)
    (xs : List Char) (h : (x == w0) = false) :
    (wordRepl2Go w0 w1 r f (x :: xs)).head? = some x := by
  rw [wordRepl2Go.eq_def]
  cases xs with
  | nil => rfl
  | cons c2 cs3 => simp [h]

theorem od0_noW2 : ∀ (b : Bool) (l : List Char),
    noW2 '0' 'D' b (wordRepl2Go '0' 'D' ['O', 'D'] b l) = true := by
  intro b l
  induction b, l using wordRepl2Go.induct '0' 'D' ['O', 'D'] with
  | case1 b => rw [wordRepl2Go.eq_def]; rfl
  | case2 prevW c c2 cs2 hcond ih =>
    rw [wordRepl2Go.eq_def]
    simp only []
    rw [if_pos hcond]
    simp only [Bool.and_eq_true, beq_iff_eq] at hcond
    obtain ⟨⟨⟨_, hc⟩, hc2⟩, _⟩ := hcond
    show noW2 '0' 'D' prevW
      ('O' :: 'D' :: wordRepl2Go '0' 'D' ['O', 'D'] (isWordC c2) cs2) = true
    simp only [noW2, Bool.and_eq_true]
    refine ⟨by simp, ?_, ?_⟩
    · cases wordRepl2Go '0' 'D' ['O', 'D'] (isWordC c2) cs2 with
      | nil => rfl
      | cons x xs => simp
    · subst hc2
      exact ih
  | case3 prevW c c2 cs2 hcond ih =>
    rw [wordRepl2Go.eq_def]
    simp only []
    rw [if_neg hcond]
    simp only [noW2, Bool.and_eq_true]
    constructor
    · cases ho : wordRepl2Go '0' 'D' ['O', 'D'] (isWordC c) (c2 :: cs2) with
      | nil => rfl
      | cons x xs =>
        by_cases hb : (!prevW) = true
        case neg =>
          have hb2 : (!prevW) = false := by simpa using hb
          simp [hb2]
        by_cases hc0 : (c == '0') = true
        case neg =>
          have hc02 : (c == '0') = false := by simpa using hc0
          simp [hc02]
        have hf : isWordC c = true := by
          have : c = '0' := by simpa using hc0
          subst this; decide
        rw [hf] at ho
        have hx : x = c2 := by
          have hh := wr2_head_true '0' 'D' ['O', 'D'] (c2 :: cs2)
          rw [ho] at hh
          simpa using hh
        rw [hx]
        rw [hx] at ho
        by_cases hxD : (c2 == 'D') = true
        · have hc2 : c2 = 'D' := by simpa using hxD
          have hnwcs : hdNonWord cs2 = false := by
            by_cases hn : hdNonWord cs2 = true
            · exact absurd (by rw [hb, hc0, hxD, hn]; rfl) hcond
            · simpa using hn
          cases cs2 with
          | nil => simp [hdNonWord] at hnwcs
          | cons c3 cs3 =>
            have hc3 : isWordC c3 = true := by
              simpa [hdNonWord] using hnwcs
            subst hc2
            have hO : wordRepl2Go '0' 'D' ['O', 'D'] true ('D' :: c3 :: cs3) =
                'D' :: wordRepl2Go '0' 'D' ['O', 'D'] (isWordC 'D') (c3 :: cs3) := by
              rw [wordRepl2Go.eq_def]
              simp
            rw [hO] at ho
            injection ho with h1 h2
            have hxs : hdNonWord xs = false := by
              rw [← h2, show isWordC 'D' = true from by decide, hdNonWord_eq,
                wr2_head_true]
              simp [hc3]
            simp [hxs]
        · have hxD2 : (c2 == 'D') = false := by simpa using hxD
          simp [hxD2]
    · exact ih
  | case4 prevW c =>
    rw [wordRepl2Go.eq_def]
    rfl

/-! ### Unfolding equations for the unit-normalization scanners -/

theorem unit2Go_norm_nil (u1 u2 : Char) (ru : List Char) (b : Bool) :
    unit2Go u1 u2 ru (.norm b) [] = [] := by
  rw [unit2Go.eq_def]

theorem unit2Go_digs_nil (u1 u2 : Char) (ru ds : List Char) :
    unit2Go u1 u2 ru (.digs ds) [] = ds.reverse := by
  rw [unit2Go.eq_def]

theorem unit2Go_wsm_nil (u1 u2 : Char) (ru ds ws : List Char) :
    unit2Go u1 u2 ru (.wsm ds ws) [] = ds.reverse ++ ws.reverse := by
  rw [unit2Go.eq_def]

theorem unit2Go_norm_digit (u1 u2 : Char) (ru : List Char) (b : Bool) (c : Char)
    (cs : List Char) (h : (!b && isDigitC c) = true) :
    unit2Go u1 u2 ru (.norm b) (c :: cs) = unit2Go u1 u2 ru (.digs [c]) cs := by
  rw [unit2Go.eq_def]
  simp [h]

theorem unit2Go_norm_other (u1 u2 : Char) (ru : List Char) (b : Bool) (c : Char)
    (cs : List Char) (h : (!b && isDigitC c) = false) :
    unit2Go u1 u2 ru (.norm b) (c :: cs) =
      c :: unit2Go u1 u2 ru (.norm (isWordC c)) cs := by
  rw [unit2Go.eq_def]
  simp [h]

theorem unit2Go_digs_digit (u1 u2 : Char) (ru ds : List Char) (c : Char)
    (cs : List Char) (h : isDigitC c = true) :
    unit2Go u1 u2 ru (.digs ds) (c :: cs) = unit2Go u1 u2 ru (.digs (c :: ds)) cs := by
  rw [unit2Go.eq_def]
  simp [h]

theorem unit2Go_digs_ws (u1 u2 : Char) (ru ds : List Char) (c : Char)
    (cs : List Char) (hd : isDigitC c = false) (hw : isWs c = true) :
    unit2Go u1 u2 ru (.digs ds) (c :: cs) = unit2Go u1 u2 ru (.wsm ds [c]) cs := by
  rw [unit2Go.eq_def]
  simp [hd, hw]

theorem unit2Go_digs_match (u1 u2 : Char) (ru ds : List Char) (c c2 : Char)
    (cs2 : List Char) (hd : isDigitC c = false) (hw : isWs c = false)
    (hm : (lowC c == lowC u1 && lowC c2 == lowC u2 && hdNonWord cs2) = true) :
    unit2Go u1 u2 ru (.digs ds) (c :: c2 :: cs2) =
      ds.reverse ++ ' ' :: ru ++ unit2Go u1 u2 ru (.norm (isWordC c2)) cs2 := by
  rw [unit2Go.eq_def]
  simp [hd, hw, hm]

theorem unit2Go_digs_fail (u1 u2 : Char) (ru ds : List Char) (c c2 : Char)
    (cs2 : List Char) (hd : isDigitC c = false) (hw : isWs c = false)
    (hm : (lowC c == lowC u1 && lowC c2 == lowC u2 && hdNonWord cs2) = false) :
    unit2Go u1 u2 ru (.digs ds) (c :: c2 :: cs2) =
      ds.reverse ++ c :: unit2Go u1 u2 ru (.norm (isWordC c)) (c2 :: cs2) := by
  rw [unit2Go.eq_def]
  simp [hd, hw, hm]

theorem unit2Go_digs_one (u1 u2 : Char) (ru ds : List Char) (c : Char)
    (hd : isDigitC c = false) (hw : isWs c = false) :
    unit2Go u1 u2 ru (.digs ds) [c] = ds.reverse ++ [c] := by
  rw [unit2Go.eq_def]
  simp [hd, hw]

theorem unit2Go_wsm_ws (u1 u2 : Char) (ru ds ws : List Char) (c : Char)
    (cs : List Char) (hw : isWs c = true) :
    unit2Go u1 u2 ru (.wsm ds ws) (c :: cs) =
      unit2Go u1 u2 ru (.wsm ds (c :: ws)) cs := by
  rw [unit2Go.eq_def]
  simp [hw]

theorem unit2Go_wsm_digit (u1 u2 : Char) (ru ds ws : List Char) (c : Char)
    (cs : List Char) (hw : isWs c = false) (hd : isDigitC c = true) :
    unit2Go u1 u2 ru (.wsm ds ws) (c :: cs) =
      ds.reverse ++ ws.reverse ++ unit2Go u1 u2 ru (.digs [c]) cs := by
  rw [unit2Go.eq_def]
  simp [hw, hd]

theorem unit2Go_wsm_match (u1 u2 : Char) (ru ds ws : List Char) (c c2 : Char)
    (cs2 : List Char) (hw : isWs c = false) (hd : isDigitC c = false)
    (hm : (lowC c == lowC u1 && lowC c2 == lowC u2 && hdNonWord cs2) = true) :
    unit2Go u1 u2 ru (.wsm ds ws) (c :: c2 :: cs2) =
      ds.reverse ++ ' ' :: ru ++ unit2Go u1 u2 ru (.norm (isWordC c2)) cs2 := by
  rw [unit2Go.eq_def]
  simp [hw, hd, hm]

theorem unit2Go_wsm_fail (u1 u2 : Char) (ru ds ws : List Char) (c c2 : Char)
    (cs2 : List Char) (hw : isWs c = false) (hd : isDigitC c = false)
    (hm : (lowC c == lowC u1 && lowC c2 == lowC u2 && hdNonWord cs2) = false) :
    unit2Go u1 u2 ru (.wsm ds ws) (c :: c2 :: cs2) =
      ds.reverse ++ ws.reverse ++ c :: unit2Go u1 u2 ru (.norm (isWordC c)) (c2 :: cs2) := by
  rw [unit2Go.eq_def]
  simp [hw, hd, hm]

theorem unit2Go_wsm_one (u1 u2 : Char) (ru ds ws : List Char) (c : Char)
    (hw : isWs c = false) (hd : isDigitC c = false) :
    unit2Go u1 u2 ru (.wsm ds ws) [c] = ds.reverse ++ ws.reverse ++ [c] := by
  rw [unit2Go.eq_def]
  simp [hw, hd]
theorem unit3Go_norm_nil (u1 u2 u3 : Char) (ru : List Char) (b : Bool) :
    unit3Go u1 u2 u3 ru (.norm b) [] = [] := by
  rw [unit3Go.eq_def]

theorem unit3Go_digs_nil (u1 u2 u3 : Char) (ru ds : List Char) :
    unit3Go u1 u2 u3 ru (.digs ds) [] = ds.reverse := by
  rw [unit3Go.eq_def]

theorem unit3Go_wsm_nil (u1 u2 u3 : Char) (ru ds ws : List Char) :
    unit3Go u1 u2 u3 ru (.wsm ds ws) [] = ds.reverse ++ ws.reverse := by
  rw [unit3Go.eq_def]

theorem unit3Go_norm_digit (u1 u2 u3 : Char) (ru : List Char) (b : Bool) (c : Char)
    (cs : List Char) (h : (!b && isDigitC c) = true) :
    unit3Go u1 u2 u3 ru (.norm b) (c :: cs) = unit3Go u1 u2 u3 ru (.digs [c]) cs := by
  rw [unit3Go.eq_def]
  simp [h]

theorem unit3Go_norm_other (u1 u2 u3 : Char) (ru : List Char) (b : Bool) (c : Char)
    (cs : List Char) (h : (!b && isDigitC c) = false) :
    unit3Go u1 u2 u3 ru (.norm b) (c :: cs) =
      c :: unit3Go u1 u2 u3 ru (.norm (isWordC c)) cs := by
  rw [unit3Go.eq_def]
  simp [h]

theorem unit3Go_digs_digit (u1 u2 u3 : Char) (ru ds : List Char) (c : Char)
    (cs : List Char) (h : isDigitC c = true) :
    unit3Go u1 u2 u3 ru (.digs ds) (c :: cs) =
      unit3Go u1 u2 u3 ru (.digs (c :: ds)) cs := by
  rw [unit3Go.eq_def]
  simp [h]

theorem unit3Go_digs_ws (u1 u2 u3 : Char) (ru ds : List Char) (c : Char)
    (cs : List Char) (hd : isDigitC c = false) (hw : isWs c = true) :
    unit3Go u1 u2 u3 ru (.digs ds) (c :: cs) =
      unit3Go u1 u2 u3 ru (.wsm ds [c]) cs := by
  rw [unit3Go.eq_def]
  simp [hd, hw]

theorem unit3Go_digs_match (u1 u2 u3 : Char) (ru ds : List Char) (c c2 c3 : Char)
    (cs3 : List Char) (hd : isDigitC c = false) (hw : isWs c = false)
    (hm : (lowC c == lowC u1 && lowC c2 == lowC u2 && lowC c3 == lowC u3 &&
      hdNonWord cs3) = true) :
    unit3Go u1 u2 u3 ru (.digs ds) (c :: c2 :: c3 :: cs3) =
      ds.reverse ++ ' ' :: ru ++ unit3Go u1 u2 u3 ru (.norm (isWordC c3)) cs3 := by
  rw [unit3Go.eq_def]
  simp [hd, hw, hm]

theorem unit3Go_digs_fail (u1 u2 u3 : Char) (ru ds : List Char) (c c2 c3 : Char)
    (cs3 : List Char) (hd : isDigitC c = false) (hw : isWs c = false)
    (hm : (lowC c == lowC u1 && lowC c2 == lowC u2 && lowC c3 == lowC u3 &&
      hdNonWord cs3) = false) :
    unit3Go u1 u2 u3 ru (.digs ds) (c :: c2 :: c3 :: cs3) =
      ds.reverse ++ c :: unit3Go u1 u2 u3 ru (.norm (isWordC c)) (c2 :: c3 :: cs3) := by
  rw [unit3Go.eq_def]
  simp [hd, hw, hm]

theorem unit3Go_digs_short0 (u1 u2 u3 : Char) (ru ds : List Char) (c : Char)
    (hd : isDigitC c = false) (hw : isWs c = false) :
    unit3Go u1 u2 u3 ru (.digs ds) [c] = ds.reverse ++ [c] := by
  rw [unit3Go.eq_def]
  simp [hd, hw]

theorem unit3Go_digs_short1 (u1 u2 u3 : Char) (ru ds : List Char) (c c2 : Char)
    (hd : isDigitC c = false) (hw : isWs c = false) :
    unit3Go u1 u2 u3 ru (.digs ds) [c, c2] =
      ds.reverse ++ c :: unit3Go u1 u2 u3 ru (.norm (isWordC c)) [c2] := by
  rw [unit3Go.eq_def]
  simp [hd, hw]

theorem unit3Go_wsm_ws (u1 u2 u3 : Char) (ru ds ws : List Char) (c : Char)
    (cs : List Char) (hw : isWs c = true) :
    unit3Go u1 u2 u3 ru (.wsm ds ws) (c :: cs) =
      unit3Go u1 u2 u3 ru (.wsm ds (c :: ws)) cs := by
  rw [unit3Go.eq_def]
  simp [hw]

theorem unit3Go_wsm_digit (u1 u2 u3 : Char) (ru ds ws : List Char) (c : Char)
    (cs : List Char) (hw : isWs c = false) (hd : isDigitC c = true) :
    unit3Go u1 u2 u3 ru (.wsm ds ws) (c :: cs) =
      ds.reverse ++ ws.reverse ++ unit3Go u1 u2 u3 ru (.digs [c]) cs := by
  rw [unit3Go.eq_def]
  simp [hw, hd]

theorem unit3Go_wsm_match (u1 u2 u3 : Char) (ru ds ws : List Char) (c c2 c3 : Char)
    (cs3 : List Char) (hw : isWs c = false) (hd : isDigitC c = false)
    (hm : (lowC c == lowC u1 && lowC c2 == lowC u2 && lowC c3 == lowC u3 &&
      hdNonWord cs3) = true) :
    unit3Go u1 u2 u3 ru (.wsm ds ws) (c :: c2 :: c3 :: cs3) =
      ds.reverse ++ ' ' :: ru ++ unit3Go u1 u2 u3 ru (.norm (isWordC c3)) cs3 := by
  rw [unit3Go.eq_def]
  simp [hw, hd, hm]

theorem unit3Go_wsm_fail (u1 u2 u3 : Char) (ru ds ws : List Char) (c c2 c3 : Char)
    (cs3 : List Char) (hw : isWs c = false) (hd : isDigitC c = false)
    (hm : (lowC c == lowC u1 && lowC c2 == lowC u2 && lowC c3 == lowC u3 &&
      hdNonWord cs3) = false) :
    unit3Go u1 u2 u3 ru (.wsm ds ws) (c :: c2 :: c3 :: cs3) =
      ds.reverse ++ ws.reverse ++ c ::
        unit3Go u1 u2 u3 ru (.norm (isWordC c)) (c2 :: c3 :: cs3) := by
  rw [unit3Go.eq_def]
  simp [hw, hd, hm]

theorem unit3Go_wsm_short0 (u1 u2 u3 : Char) (ru ds ws : List Char) (c : Char)
    (hw : isWs c = false) (hd : isDigitC c = false) :
    unit3Go u1 u2 u3 ru (.wsm ds ws) [c] = ds.reverse ++ ws.reverse ++ [c] := by
  rw [unit3Go.eq_def]
  simp [hw, hd]

theorem unit3Go_wsm_short1 (u1 u2 u3 : Char) (ru ds ws : List Char) (c c2 : Char)
    (hw : isWs c = false) (hd : isDigitC c = false) :
    unit3Go u1 u2 u3 ru (.wsm ds ws) [c, c2] =
      ds.reverse ++ ws.reverse ++ c ::
        unit3Go u1 u2 u3 ru (.norm (isWordC c)) [c2] := by
  rw [unit3Go.eq_def]
  simp [hw, hd]

/-! ### The unit-pass input/output relation -/

theorem ws_not_word {c : Char} (h : isWs c = true) : isWordC c = false := by
  simp only [isWs, Bool.or_eq_true, decide_eq_true_eq] at h
  rcases h with ((((h | h) | h) | h) | h) | h <;> subst h <;> decide

theorem word_of_lowC_eq {c v : Char} (hv : isAlphaC v = true) (h : lowC c = v) :
    isWordC c = true := by
  unfold lowC at h
  by_cases hu : isUpperC c
  · simp [isWordC, isAlphaC, hu]
  · rw [if_neg hu] at h
    subst h
    simp [isWordC, hv]

/-- Input/output relation of a unit-normalization pass with lowered unit
`lu` and replacement `ru`: copied characters interleaved with replaced
segments (digit run, whitespace run, unit letters at a boundary → digit
run, one space, `ru`).  The Boolean index is the wordness of the previous
original character. -/
inductive URel (lu ru : List Char) : Bool → List Char → List Char → Prop
  | nil (b : Bool) : URel lu ru b [] []
  | copy (b : Bool) (c : Char) {l o : List Char} :
      URel lu ru (isWordC c) l o → URel lu ru b (c :: l) (c :: o)
  | repl (ds ws us : List Char) {l o : List Char} :
      ds ≠ [] → (∀ d ∈ ds, isDigitC d = true) → (∀ w ∈ ws, isWs w = true) →
      lowS us = lu → (∀ u ∈ us, isWordC u = true) → hdNonWord l = true →
      URel lu ru true l o →
      URel lu ru false (ds ++ ws ++ us ++ l) (ds ++ ' ' :: ru ++ o)

theorem urel_copy_list (lu ru : List Char) : ∀ (a : List Char) (b : Bool)
    {l o : List Char},
    URel lu ru (a.foldl (fun _ c => isWordC c) b) l o →
    URel lu ru b (a ++ l) (a ++ o) := by
  intro a
  induction a with
  | nil => intro b l o h; exact h
  | cons c a ih =>
    intro b l o h
    exact URel.copy b c (ih (isWordC c) h)

theorem foldl_word_last (a : List Char) (x : Char) (b : Bool) :
    ((a ++ [x]).foldl (fun _ c => isWordC c) b) = isWordC x := by
  rw [List.foldl_append]
  rfl

/-- State-indexed statement of the production of `URel` by `unit2Go`. -/
def urelMotive2 (u1 u2 : Char) (ru : List Char) (st : USt) (l : List Char) : Prop :=
  match st with
  | .norm b => URel [lowC u1, lowC u2] ru b l (unit2Go u1 u2 ru (.norm b) l)
  | .digs ds => ds ≠ [] → (∀ d ∈ ds, isDigitC d = true) →
      URel [lowC u1, lowC u2] ru false (ds.reverse ++ l)
        (unit2Go u1 u2 ru (.digs ds) l)
  | .wsm ds ws => ds ≠ [] → (∀ d ∈ ds, isDigitC d = true) →
      ws ≠ [] → (∀ w ∈ ws, isWs w = true) →
      URel [lowC u1, lowC u2] ru false (ds.reverse ++ ws.reverse ++ l)
        (unit2Go u1 u2 ru (.wsm ds ws) l)

theorem unit2Go_urelM (u1 u2 : Char) (ru : List Char)
    (ha1 : isAlphaC (lowC u1) = true) (ha2 : isAlphaC (lowC u2) = true) :
    ∀ (st : USt) (l : List Char), urelMotive2 u1 u2 ru st l := by
  intro st l
  induction st, l using unit2Go.induct u1 u2 ru with
  | case1 b =>
    simp only [urelMotive2]
    rw [unit2Go_norm_nil]
    exact URel.nil b
  | case2 ds =>
    simp only [urelMotive2]
    intro hne hdig
    rw [unit2Go_digs_nil]
    have := urel_copy_list [lowC u1, lowC u2] ru ds.reverse false (URel.nil _)
    simpa using this
  | case3 ds ws =>
    simp only [urelMotive2]
    intro hne hdig hwne hws
    rw [unit2Go_wsm_nil]
    have := urel_copy_list [lowC u1, lowC u2] ru (ds.reverse ++ ws.reverse) false
      (URel.nil _)
    simpa using this
  | case4 prevW c cs hcond ih =>
    simp only [urelMotive2] at ih ⊢
    rw [unit2Go_norm_digit u1 u2 ru prevW c cs hcond]
    simp only [Bool.and_eq_true] at hcond
    have hb : prevW = false := by simpa using hcond.1
    subst hb
    have := ih (by simp) (by intro d hd; simp at hd; subst hd; exact hcond.2)
    simpa using this
  | case5 prevW c cs hcond ih =>
    simp only [urelMotive2] at ih ⊢
    rw [unit2Go_norm_other u1 u2 ru prevW c cs (by simpa using hcond)]
    exact URel.copy prevW c ih
  | case6 ds c cs hd ih =>
    simp only [urelMotive2] at ih ⊢
    intro hne hdig
    rw [unit2Go_digs_digit u1 u2 ru ds c cs hd]
    have := ih (by simp) (by
      intro d hdm
      simp only [List.mem_cons] at hdm
      rcases hdm with rfl | hdm
      · exact hd
      · exact hdig d hdm)
    simpa [List.append_assoc] using this
  | case7 ds c cs hd hw ih =>
    simp only [urelMotive2] at ih ⊢
    intro hne hdig
    rw [unit2Go_digs_ws u1 u2 ru ds c cs (by simpa using hd) hw]
    have := ih hne hdig (by simp) (by
      intro w hwm
      simp only [List.mem_singleton] at hwm
      subst hwm
      exact hw)
    simpa [List.append_assoc] using this
  | case8 ds c hd hw c2 cs2 hm ih =>
    simp only [urelMotive2] at ih ⊢
    intro hne hdig
    rw [unit2Go_digs_match u1 u2 ru ds c c2 cs2 (by simpa using hd)
      (by simpa using hw) hm]
    simp only [Bool.and_eq_true, beq_iff_eq] at hm
    obtain ⟨⟨hl1, hl2⟩, hnw⟩ := hm
    have hw2 : isWordC c2 = true := word_of_lowC_eq ha2 hl2
    rw [hw2] at ih
    rw [hw2]
    have := @URel.repl [lowC u1, lowC u2] ru ds.reverse [] [c, c2] _ _
      (by simpa using hne) (by intro d hd2; rw [List.mem_reverse] at hd2; exact hdig d hd2)
      (by intro w hw2; simp at hw2)
      (by simp [lowS, hl1, hl2])
      (by
        intro u hu
        simp only [List.mem_cons, List.mem_singleton] at hu
        rcases hu with rfl | rfl | h
        · exact word_of_lowC_eq ha1 hl1
        · exact hw2
        · simp at h)
      hnw ih
    simpa using this
  | case9 ds c hd hw c2 cs2 hm ih =>
    simp only [urelMotive2] at ih ⊢
    intro hne hdig
    rw [unit2Go_digs_fail u1 u2 ru ds c c2 cs2 (by simpa using hd)
      (by simpa using hw) (by simpa using hm)]
    have hfold : ((ds.reverse ++ [c]).foldl (fun _ x => isWordC x) false) = isWordC c :=
      foldl_word_last ds.reverse c false
    have := urel_copy_list [lowC u1, lowC u2] ru (ds.reverse ++ [c]) false
      (by rw [hfold]; exact ih)
    simpa [List.append_assoc] using this
  | case10 ds c hd hw =>
    simp only [urelMotive2]
    intro hne hdig
    rw [unit2Go_digs_one u1 u2 ru ds c (by simpa using hd) (by simpa using hw)]
    have := urel_copy_list [lowC u1, lowC u2] ru (ds.reverse ++ [c]) false (URel.nil _)
    simpa [List.append_assoc] using this
  | case11 ds ws c cs hw ih =>
    simp only [urelMotive2] at ih ⊢
    intro hne hdig hwne hwsm
    rw [unit2Go_wsm_ws u1 u2 ru ds ws c cs hw]
    have := ih hne hdig (by simp) (by
      intro w hwm
      simp only [List.mem_cons] at hwm
      rcases hwm with rfl | hwm
      · exact hw
      · exact hwsm w hwm)
    simpa [List.append_assoc] using this
  | case12 ds ws c cs hw hd ih =>
    simp only [urelMotive2] at ih ⊢
    intro hne hdig hwne hwsm
    rw [unit2Go_wsm_digit u1 u2 ru ds ws c cs (by simpa using hw) hd]
    obtain ⟨w0, ws2, rfl⟩ : ∃ w0 ws2, ws = w0 :: ws2 := by
      cases ws with
      | nil => exact absurd rfl hwne
      | cons a b => exact ⟨a, b, rfl⟩
    have hW : URel [lowC u1, lowC u2] ru false (c :: cs)
        (unit2Go u1 u2 ru (.digs [c]) cs) := by
      have := ih (by simp) (by intro d hdm; simp at hdm; subst hdm; exact hd)
      simpa using this
    have hfl : ((ds.reverse ++ (ws2.reverse ++ [w0])).foldl
        (fun _ x => isWordC x) false) = isWordC w0 := by
      rw [← List.append_assoc]
      exact foldl_word_last _ w0 false
    have hw0 : isWordC w0 = false := ws_not_word (hwsm w0 (by simp))
    have := urel_copy_list [lowC u1, lowC u2] ru (ds.reverse ++ (ws2.reverse ++ [w0]))
      false (by rw [hfl, hw0] at *; exact hW)
    simpa [List.reverse_cons, List.append_assoc] using this
  | case13 ds ws c hw hd c2 cs2 hm ih =>
    simp only [urelMotive2] at ih ⊢
    intro hne hdig hwne hwsm
    rw [unit2Go_wsm_match u1 u2 ru ds ws c c2 cs2 (by simpa using hw)
      (by simpa using hd) hm]
    simp only [Bool.and_eq_true, beq_iff_eq] at hm
    obtain ⟨⟨hl1, hl2⟩, hnw⟩ := hm
    have hw2 : isWordC c2 = true := word_of_lowC_eq ha2 hl2
    rw [hw2] at ih
    rw [hw2]
    have := @URel.repl [lowC u1, lowC u2] ru ds.reverse ws.reverse
      [c, c2] _ _
      (by simpa using hne)
      (by intro d hd2; rw [List.mem_reverse] at hd2; exact hdig d hd2)
      (by intro w hwm; rw [List.mem_reverse] at hwm; exact hwsm w hwm)
      (by simp [lowS, hl1, hl2])
      (by
        intro u hu
        simp only [List.mem_cons, List.mem_singleton] at hu
        rcases hu with rfl | rfl | h
        · exact word_of_lowC_eq ha1 hl1
        · exact hw2
        · simp at h)
      hnw ih
    simpa [List.append_assoc] using this
  | case14 ds ws c hw hd c2 cs2 hm ih =>
    simp only [urelMotive2] at ih ⊢
    intro hne hdig hwne hwsm
    rw [unit2Go_wsm_fail u1 u2 ru ds ws c c2 cs2 (by simpa using hw)
      (by simpa using hd) (by simpa using hm)]
    have hfold : (((ds.reverse ++ ws.reverse) ++ [c]).foldl
        (fun _ x => isWordC x) false) = isWordC c :=
      foldl_word_last _ c false
    have := urel_copy_list [lowC u1, lowC u2] ru ((ds.reverse ++ ws.reverse) ++ [c])
      false (by rw [hfold]; exact ih)
    simpa [List.append_assoc] using this
  | case15 ds ws c hw hd =>
    simp only [urelMotive2]
    intro hne hdig hwne hwsm
    rw [unit2Go_wsm_one u1 u2 ru ds ws c (by simpa using hw) (by simpa using hd)]
    have := urel_copy_list [lowC u1, lowC u2] ru ((ds.reverse ++ ws.reverse) ++ [c])
      false (URel.nil _)
    simpa [List.append_assoc] using this

theorem unit2Go_urel (u1 u2 : Char) (ru : List Char)
    (ha1 : isAlphaC (lowC u1) = true) (ha2 : isAlphaC (lowC u2) = true)
    (b : Bool) (l : List Char) :
    URel [lowC u1, lowC u2] ru b l (unit2Go u1 u2 ru (.norm b) l) :=
  unit2Go_urelM u1 u2 ru ha1 ha2 (.norm b) l

/-- State-indexed statement of the production of `URel` by `unit3Go`. -/
def urelMotive3 (u1 u2 u3 : Char) (ru : List Char) (st : USt) (l : List Char) : Prop :=
  match st with
  | .norm b => URel [lowC u1, lowC u2, lowC u3] ru b l (unit3Go u1 u2 u3 ru (.norm b) l)
  | .digs ds => ds ≠ [] → (∀ d ∈ ds, isDigitC d = true) →
      URel [lowC u1, lowC u2, lowC u3] ru false (ds.reverse ++ l)
        (unit3Go u1 u2 u3 ru (.digs ds) l)
  | .wsm ds ws => ds ≠ [] → (∀ d ∈ ds, isDigitC d = true) →
      ws ≠ [] → (∀ w ∈ ws, isWs w = true) →
      URel [lowC u1, lowC u2, lowC u3] ru false (ds.reverse ++ ws.reverse ++ l)
        (unit3Go u1 u2 u3 ru (.wsm ds ws) l)

theorem unit3Go_urelM (u1 u2 u3 : Char) (ru : List Char)
    (ha1 : isAlphaC (lowC u1) = true) (ha2 : isAlphaC (lowC u2) = true)
    (ha3 : isAlphaC (lowC u3) = true) :
    ∀ (st : USt) (l : List Char), urelMotive3 u1 u2 u3 ru st l := by
  intro st l
  induction st, l using unit3Go.induct u1 u2 u3 ru with
  | case1 b =>
    simp only [urelMotive3]
    rw [unit3Go_norm_nil]
    exact URel.nil b
  | case2 ds =>
    simp only [urelMotive3]
    intro hne hdig
    rw [unit3Go_digs_nil]
    have := urel_copy_list [lowC u1, lowC u2, lowC u3] ru ds.reverse false (URel.nil _)
    simpa using this
  | case3 ds ws =>
    simp only [urelMotive3]
    intro hne hdig hwne hws
    rw [unit3Go_wsm_nil]
    have := urel_copy_list [lowC u1, lowC u2, lowC u3] ru (ds.reverse ++ ws.reverse)
      false (URel.nil _)
    simpa using this
  | case4 prevW c cs hcond ih =>
    simp only [urelMotive3] at ih ⊢
    rw [unit3Go_norm_digit u1 u2 u3 ru prevW c cs hcond]
    simp only [Bool.and_eq_true] at hcond
    have hb : prevW = false := by simpa using hcond.1
    subst hb
    have := ih (by simp) (by intro d hd; simp at hd; subst hd; exact hcond.2)
    simpa using this
  | case5 prevW c cs hcond ih =>
    simp only [urelMotive3] at ih ⊢
    rw [unit3Go_norm_other u1 u2 u3 ru prevW c cs (by simpa using hcond)]
    exact URel.copy prevW c ih
  | case6 ds c cs hd ih =>
    simp only [urelMotive3] at ih ⊢
    intro hne hdig
    rw [unit3Go_digs_digit u1 u2 u3 ru ds c cs hd]
    have := ih (by simp) (by
      intro d hdm
      simp only [List.mem_cons] at hdm
      rcases hdm with rfl | hdm
      · exact hd
      · exact hdig d hdm)
    simpa [List.append_assoc] using this
  | case7 ds c cs hd hw ih =>
    simp only [urelMotive3] at ih ⊢
    intro hne hdig
    rw [unit3Go_digs_ws u1 u2 u3 ru ds c cs (by simpa using hd) hw]
    have := ih hne hdig (by simp) (by
      intro w hwm
      simp only [List.mem_singleton] at hwm
      subst hwm
      exact hw)
    simpa [List.append_assoc] using this
  | case8 ds c hd hw c2 c3 cs3 hm ih =>
    simp only [urelMotive3] at ih ⊢
    intro hne hdig
    rw [unit3Go_digs_match u1 u2 u3 ru ds c c2 c3 cs3 (by simpa using hd)
      (by simpa using hw) hm]
    simp only [Bool.and_eq_true, beq_iff_eq] at hm
    obtain ⟨⟨⟨hl1, hl2⟩, hl3⟩, hnw⟩ := hm
    have hw3 : isWordC c3 = true := word_of_lowC_eq ha3 hl3
    rw [hw3] at ih
    rw [hw3]
    have := @URel.repl [lowC u1, lowC u2, lowC u3] ru ds.reverse []
      [c, c2, c3] _ _
      (by simpa using hne)
      (by intro d hd2; rw [List.mem_reverse] at hd2; exact hdig d hd2)
      (by intro w hw2; simp at hw2)
      (by simp [lowS, hl1, hl2, hl3])
      (by
        intro u hu
        simp only [List.mem_cons, List.mem_singleton] at hu
        rcases hu with rfl | rfl | rfl | h
        · exact word_of_lowC_eq ha1 hl1
        · exact word_of_lowC_eq ha2 hl2
        · exact hw3
        · simp at h)
      hnw ih
    simpa using this
  | case9 ds c hd hw c2 c3 cs3 hm ih =>
    simp only [urelMotive3] at ih ⊢
    intro hne hdig
    rw [unit3Go_digs_fail u1 u2 u3 ru ds c c2 c3 cs3 (by simpa using hd)
      (by simpa using hw) (by simpa using hm)]
    have hfold : ((ds.reverse ++ [c]).foldl (fun _ x => isWordC x) false) = isWordC c :=
      foldl_word_last ds.reverse c false
    have := urel_copy_list [lowC u1, lowC u2, lowC u3] ru (ds.reverse ++ [c]) false
      (by rw [hfold]; exact ih)
    simpa [List.append_assoc] using this
  | case10 ds c hd hw =>
    simp only [urelMotive3]
    intro hne hdig
    rw [unit3Go_digs_short0 u1 u2 u3 ru ds c (by simpa using hd) (by simpa using hw)]
    have := urel_copy_list [lowC u1, lowC u2, lowC u3] ru (ds.reverse ++ [c]) false
      (URel.nil _)
    simpa [List.append_assoc] using this
  | case11 ds c hd hw c2 ih =>
    simp only [urelMotive3] at ih ⊢
    intro hne hdig
    rw [unit3Go_digs_short1 u1 u2 u3 ru ds c c2 (by simpa using hd) (by simpa using hw)]
    have hfold : ((ds.reverse ++ [c]).foldl (fun _ x => isWordC x) false) = isWordC c :=
      foldl_word_last ds.reverse c false
    have := urel_copy_list [lowC u1, lowC u2, lowC u3] ru (ds.reverse ++ [c]) false
      (by rw [hfold]; exact ih)
    simpa [List.append_assoc] using this
  | case12 ds ws c cs hw ih =>
    simp only [urelMotive3] at ih ⊢
    intro hne hdig hwne hwsm
    rw [unit3Go_wsm_ws u1 u2 u3 ru ds ws c cs hw]
    have := ih hne hdig (by simp) (by
      intro w hwm
      simp only [List.mem_cons] at hwm
      rcases hwm with rfl | hwm
      · exact hw
      · exact hwsm w hwm)
    simpa [List.append_assoc] using this
  | case13 ds ws c cs hw hd ih =>
    simp only [urelMotive3] at ih ⊢
    intro hne hdig hwne hwsm
    rw [unit3Go_wsm_digit u1 u2 u3 ru ds ws c cs (by simpa using hw) hd]
    obtain ⟨w0, ws2, rfl⟩ : ∃ w0 ws2, ws = w0 :: ws2 := by
      cases ws with
      | nil => exact absurd rfl hwne
      | cons a b => exact ⟨a, b, rfl⟩
    have hW : URel [lowC u1, lowC u2, lowC u3] ru false (c :: cs)
        (unit3Go u1 u2 u3 ru (.digs [c]) cs) := by
      have := ih (by simp) (by intro d hdm; simp at hdm; subst hdm; exact hd)
      simpa using this
    have hfl : ((ds.reverse ++ (ws2.reverse ++ [w0])).foldl
        (fun _ x => isWordC x) false) = isWordC w0 := by
      rw [← List.append_assoc]
      exact foldl_word_last _ w0 false
    have hw0 : isWordC w0 = false := ws_not_word (hwsm w0 (by simp))
    have := urel_copy_list [lowC u1, lowC u2, lowC u3] ru
      (ds.reverse ++ (ws2.reverse ++ [w0])) false (by rw [hfl, hw0] at *; exact hW)
    simpa [List.reverse_cons, List.append_assoc] using this
  | case14 ds ws c hw hd c2 c3 cs3 hm ih =>
    simp only [urelMotive3] at ih ⊢
    intro hne hdig hwne hwsm
    rw [unit3Go_wsm_match u1 u2 u3 ru ds ws c c2 c3 cs3 (by simpa using hw)
      (by simpa using hd) hm]
    simp only [Bool.and_eq_true, beq_iff_eq] at hm
    obtain ⟨⟨⟨hl1, hl2⟩, hl3⟩, hnw⟩ := hm
    have hw3 : isWordC c3 = true := word_of_lowC_eq ha3 hl3
    rw [hw3] at ih
    rw [hw3]
    have := @URel.repl [lowC u1, lowC u2, lowC u3] ru ds.reverse
      ws.reverse [c, c2, c3] _ _
      (by simpa using hne)
      (by intro d hd2; rw [List.mem_reverse] at hd2; exact hdig d hd2)
      (by intro w hwm; rw [List.mem_reverse] at hwm; exact hwsm w hwm)
      (by simp [lowS, hl1, hl2, hl3])
      (by
        intro u hu
        simp only [List.mem_cons, List.mem_singleton] at hu
        rcases hu with rfl | rfl | rfl | h
        · exact word_of_lowC_eq ha1 hl1
        · exact word_of_lowC_eq ha2 hl2
        · exact hw3
        · simp at h)
      hnw ih
    simpa [List.append_assoc] using this
  | case15 ds ws c hw hd c2 c3 cs3 hm ih =>
    simp only [urelMotive3] at ih ⊢
    intro hne hdig hwne hwsm
    rw [unit3Go_wsm_fail u1 u2 u3 ru ds ws c c2 c3 cs3 (by simpa using hw)
      (by simpa using hd) (by simpa using hm)]
    have hfold : (((ds.reverse ++ ws.reverse) ++ [c]).foldl
        (fun _ x => isWordC x) false) = isWordC c :=
      foldl_word_last _ c false
    have := urel_copy_list [lowC u1, lowC u2, lowC u3] ru
      ((ds.reverse ++ ws.reverse) ++ [c]) false (by rw [hfold]; exact ih)
    simpa [List.append_assoc] using this
  | case16 ds ws c hw hd =>
    simp only [urelMotive3]
    intro hne hdig hwne hwsm
    rw [unit3Go_wsm_short0 u1 u2 u3 ru ds ws c (by simpa using hw) (by simpa using hd)]
    have := urel_copy_list [lowC u1, lowC u2, lowC u3] ru
      ((ds.reverse ++ ws.reverse) ++ [c]) false (URel.nil _)
    simpa [List.append_assoc] using this
  | case17 ds ws c hw hd c2 ih =>
    simp only [urelMotive3] at ih ⊢
    intro hne hdig hwne hwsm
    rw [unit3Go_wsm_short1 u1 u2 u3 ru ds ws c c2 (by simpa using hw)
      (by simpa using hd)]
    have hfold : (((ds.reverse ++ ws.reverse) ++ [c]).foldl
        (fun _ x => isWordC x) false) = isWordC c :=
      foldl_word_last _ c false
    have := urel_copy_list [lowC u1, lowC u2, lowC u3] ru
      ((ds.reverse ++ ws.reverse) ++ [c]) false (by rw [hfold]; exact ih)
    simpa [List.append_assoc] using this

theorem unit3Go_urel (u1 u2 u3 : Char) (ru : List Char)
    (ha1 : isAlphaC (lowC u1) = true) (ha2 : isAlphaC (lowC u2) = true)
    (ha3 : isAlphaC (lowC u3) = true) (b : Bool) (l : List Char) :
    URel [lowC u1, lowC u2, lowC u3] ru b l (unit3Go u1 u2 u3 ru (.norm b) l) :=
  unit3Go_urelM u1 u2 u3 ru ha1 ha2 ha3 (.norm b) l

/-! ### Transfer of line-shape predicates across the unit-pass relation -/

theorem ws_not_digit {c : Char} (h : isWs c = true) : isDigitC c = false := by
  simp only [isWs, Bool.or_eq_true, decide_eq_true_eq] at h
  rcases h with ((((h | h) | h) | h) | h) | h <;> subst h <;> decide

theorem digit_not_ws {c : Char} (h : isDigitC c = true) : isWs c = false := by
  by_cases hw : isWs c
  · rw [ws_not_digit hw] at h
    exact Bool.noConfusion h
  · simpa using hw

theorem punct_not_word {c : Char} (h : isPunct c = true) : isWordC c = false := by
  simp only [isPunct, Bool.or_eq_true, decide_eq_true_eq] at h
  rcases h with ((((h | h) | h) | h) | h) | h <;> subst h <;> decide

theorem word_not_punct {c : Char} (h : isWordC c = true) : isPunct c = false := by
  by_cases hp : isPunct c
  · rw [punct_not_word hp] at h
    exact Bool.noConfusion h
  · simpa using hp

theorem word_not_ws {c : Char} (h : isWordC c = true) : isWs c = false := by
  by_cases hw : isWs c
  · rw [ws_not_word hw] at h
    exact Bool.noConfusion h
  · simpa using hw

theorem digit_word {c : Char} (h : isDigitC c = true) : isWordC c = true := by
  simp [isWordC, h]

theorem digit_not_punct {c : Char} (h : isDigitC c = true) : isPunct c = false := by
  by_cases hp : isPunct c
  · have hw : isWordC c = true := digit_word h
    rw [punct_not_word hp] at hw
    exact Bool.noConfusion hw
  · simpa using hp

theorem urel_head {lu ru : List Char} {b : Bool} {l o : List Char}
    (h : URel lu ru b l o) : l.head? = o.head? := by
  cases h with
  | nil => rfl
  | copy b c h2 => rfl
  | repl ds ws us hne hdig hws hlow hword hnw h2 =>
    cases ds with
    | nil => exact absurd rfl hne
    | cons d ds2 => rfl

theorem headNotWs_eq (l : List Char) :
    headNotWs l = (match l.head? with | none => true | some c => !isWs c) := by
  cases l <;> rfl

theorem wsOk_append_right : ∀ (a b : List Char), wsOk (a ++ b) = true →
    wsOk b = true := by
  intro a
  induction a with
  | nil => intro b h; exact h
  | cons c a ih => intro b h; exact ih b (wsOk_cons h)

theorem wsOk_prepend_nonws : ∀ (a t : List Char), (∀ x ∈ a, isWs x = false) →
    wsOk t = true → wsOk (a ++ t) = true := by
  intro a
  induction a with
  | nil => intro t _ h; exact h
  | cons x a ih =>
    intro t hx h
    simp only [List.cons_append, wsOk, Bool.and_eq_true]
    refine ⟨?_, ih t (fun y hy => hx y (by simp [hy])) h⟩
    rw [if_neg (by simp [hx x (by simp)])]

theorem urel_wsOk {lu ru : List Char} (hrne : ru ≠ [])
    (hrw : ∀ r ∈ ru, isWordC r = true) :
    ∀ {b : Bool} {l o : List Char}, URel lu ru b l o →
    wsOk l = true → wsOk o = true := by
  intro b l o h
  induction h with
  | nil b => intro _; rfl
  | copy b c hrel ih =>
    intro hok
    simp only [wsOk, Bool.and_eq_true] at hok ⊢
    refine ⟨?_, ih hok.2⟩
    rcases hok with ⟨h1, _⟩
    by_cases hwc : isWs c
    · rw [if_pos hwc, Bool.and_eq_true] at h1 ⊢
      refine ⟨h1.1, ?_⟩
      rw [headNotWs_eq, ← urel_head hrel, ← headNotWs_eq]
      exact h1.2
    · rw [if_neg hwc]
  | repl ds ws us hne hdig hws hlow hword hnw hrel ih =>
    rename_i l2 o2
    intro hok
    have hl : wsOk l2 = true :=
      wsOk_append_right (ds ++ ws ++ us) l2 (by simpa [List.append_assoc] using hok)
    have ho := ih hl
    have hmid : wsOk (' ' :: ru ++ o2) = true := by
      simp only [wsOk, Bool.and_eq_true]
      refine ⟨?_, wsOk_prepend_nonws ru o2 (fun r hr => word_not_ws (hrw r hr)) ho⟩
      rw [if_pos (by decide)]
      simp only [Bool.and_eq_true]
      refine ⟨by decide, ?_⟩
      cases ru with
      | nil => exact absurd rfl hrne
      | cons r0 ru2 => simp [headNotWs, word_not_ws (hrw r0 (by simp))]
    have hfin := wsOk_prepend_nonws ds (' ' :: ru ++ o2)
      (fun d hd => digit_not_ws (hdig d hd)) hmid
    simpa [List.cons_append, List.append_assoc] using hfin

theorem pok_first_mono : ∀ {l : List Char}, pok false l = true →
    ∀ p, pok p l = true := by
  intro l h p
  cases l with
  | nil => rfl
  | cons c cs =>
    simp only [pok, Bool.and_eq_true] at h ⊢
    refine ⟨?_, h.2⟩
    rcases h with ⟨h1, _⟩
    by_cases hpc : isPunct c
    · rwa [if_pos hpc] at h1 ⊢
    · rw [if_neg hpc] at h1 ⊢
      by_cases hwc : isWs c
      · rw [if_pos hwc] at h1 ⊢
        by_cases hp : p = true
        · rw [if_pos hp]
        · rw [if_neg hp]
          first
          | exact h1
          | (rw [if_neg (by decide : ¬ (false = true))] at h1; exact h1)
      · rw [if_neg hwc]

theorem pok_prepend_plain : ∀ (a l : List Char),
    (∀ x ∈ a, isPunct x = false ∧ isWs x = false) → pok false l = true →
    ∀ q, pok q (a ++ l) = true := by
  intro a
  induction a with
  | nil => intro l _ h q; exact pok_first_mono h q
  | cons x a ih =>
    intro l hx h q
    simp only [List.cons_append, pok, Bool.and_eq_true]
    obtain ⟨hxp, hxw⟩ := hx x (by simp)
    refine ⟨?_, ?_⟩
    · rw [if_neg (by simp [hxp]), if_neg (by simp [hxw])]
    · rw [hxp]
      exact ih l (fun y hy => hx y (by simp [hy])) h false

theorem pok_seg (ds ru o : List Char)
    (hds : ∀ d ∈ ds, isPunct d = false ∧ isWs d = false)
    (hru : ru ≠ []) (hruc : ∀ r ∈ ru, isPunct r = false ∧ isWs r = false)
    (ho : pok false o = true) (p : Bool) :
    pok p (ds ++ ' ' :: ru ++ o) = true := by
  have hmid : pok false (' ' :: (ru ++ o)) = true := by
    simp only [pok, Bool.and_eq_true]
    constructor
    · rw [if_neg (by decide : ¬ isPunct ' ' = true),
        if_pos (by decide : isWs ' ' = true),
        if_neg (by decide : ¬ (false = true))]
      cases ru with
      | nil => exact absurd rfl hru
      | cons r0 ru2 =>
        obtain ⟨hp0, hw0⟩ := hruc r0 (by simp)
        simp [hp0, hw0]
    · rw [show isPunct ' ' = false by decide]
      exact pok_prepend_plain ru o (fun r hr => hruc r hr) ho false
  have := pok_prepend_plain ds (' ' :: (ru ++ o)) hds hmid p
  simpa [List.cons_append, List.append_assoc] using this

theorem pok_append_out : ∀ (a : List Char) (p : Bool) (l : List Char),
    pok p (a ++ l) = true → pok (a.foldl (fun _ c => isPunct c) p) l = true := by
  intro a
  induction a with
  | nil => intro p l h; exact h
  | cons c a ih =>
    intro p l h
    simp only [List.cons_append, pok, Bool.and_eq_true] at h
    exact ih (isPunct c) l h.2

theorem foldl_flag_false (f : Char → Bool) : ∀ (a : List Char) (p : Bool),
    a ≠ [] → (∀ x ∈ a, f x = false) → a.foldl (fun _ c => f c) p = false := by
  intro a
  induction a with
  | nil => intro p h _; exact absurd rfl h
  | cons x a ih =>
    intro p _ hx
    cases a with
    | nil => simpa using hx x (by simp)
    | cons y a2 =>
      simp only [List.foldl_cons]
      exact ih (f x) (by simp) (fun z hz => hx z (by simp [hz]))

theorem foldl_flag_true (f : Char → Bool) : ∀ (a : List Char) (p : Bool),
    a ≠ [] → (∀ x ∈ a, f x = true) → a.foldl (fun _ c => f c) p = true := by
  intro a
  induction a with
  | nil => intro p h _; exact absurd rfl h
  | cons x a ih =>
    intro p _ hx
    cases a with
    | nil => simpa using hx x (by simp)
    | cons y a2 =>
      simp only [List.foldl_cons]
      exact ih (f x) (by simp) (fun z hz => hx z (by simp [hz]))

def headCase (P : Char → Bool) : List Char → Bool
  | [] => false
  | c :: _ => P c

theorem headCase_eq_of_head (P : Char → Bool) {l o : List Char}
    (hh : l.head? = o.head?) (h : headCase P l = true) : headCase P o = true := by
  cases l with
  | nil => exact Bool.noConfusion h
  | cons a l2 =>
    cases o with
    | nil => simp at hh
    | cons b o2 =>
      have : a = b := by simpa using hh
      subst this
      exact h

theorem urel_pok {lu ru : List Char} (hrne : ru ≠ [])
    (hrw : ∀ r ∈ ru, isWordC r = true) (hlune : lu ≠ []) :
    ∀ {b : Bool} {l o : List Char}, URel lu ru b l o →
    ∀ p, pok p l = true → pok p o = true := by
  intro b l o h
  induction h with
  | nil b => intro p _; rfl
  | copy b c hrel ih =>
    rename_i l2 o2
    intro p hok
    simp only [pok, Bool.and_eq_true] at hok ⊢
    refine ⟨?_, ih (isPunct c) hok.2⟩
    rcases hok with ⟨h1, _⟩
    by_cases hpc : isPunct c
    · rw [if_pos hpc] at h1 ⊢
      have h1b : headCase (fun c2 => c2 == ' ') l2 = true := by
        cases l2 with
        | nil => exact Bool.noConfusion h1
        | cons a t => exact h1
      have h2b := headCase_eq_of_head _ (urel_head hrel) h1b
      cases o2 with
      | nil => exact Bool.noConfusion h2b
      | cons b t2 => exact h2b
    · rw [if_neg hpc] at h1 ⊢
      by_cases hwc : isWs c
      · rw [if_pos hwc] at h1 ⊢
        by_cases hp : p = true
        · rw [if_pos hp]
        · rw [if_neg hp] at h1 ⊢
          have h1b : headCase (fun c2 => !isWs c2 && !isPunct c2) l2 = true := by
            cases l2 with
            | nil => exact Bool.noConfusion h1
            | cons a t => exact h1
          have h2b := headCase_eq_of_head _ (urel_head hrel) h1b
          cases o2 with
          | nil => exact Bool.noConfusion h2b
          | cons b t2 => exact h2b
      · rw [if_neg hwc]
  | repl ds ws us hne hdig hws hlow hword hnw hrel ih =>
    rename_i l2 o2
    intro p hok
    have hseq := pok_append_out (ds ++ ws ++ us) p l2
      (by simpa [List.append_assoc] using hok)
    have husne : us ≠ [] := by
      intro h2
      rw [h2] at hlow
      simp only [lowS, List.map_nil] at hlow
      exact hlune hlow.symm
    have hflag : ((ds ++ ws ++ us).foldl (fun _ c => isPunct c) p) = false := by
      rw [List.foldl_append]
      exact foldl_flag_false _ us _ husne (fun u hu => word_not_punct (hword u hu))
    rw [hflag] at hseq
    have ho := ih false hseq
    have := pok_seg ds ru o2
      (fun d hd => ⟨digit_not_punct (hdig d hd), digit_not_ws (hdig d hd)⟩)
      hrne (fun r hr => ⟨word_not_punct (hrw r hr), word_not_ws (hrw r hr)⟩) ho p
    simpa [List.cons_append, List.append_assoc] using this

theorem digit_ne_D {c : Char} (h : isDigitC c = true) : (c == 'D') = false := by
  by_cases he : c = 'D'
  · subst he
    exact Bool.noConfusion h
  · simp [he]

theorem noW2_append_out : ∀ (a : List Char) (f : Bool) (l : List Char),
    noW2 '0' 'D' f (a ++ l) = true →
    noW2 '0' 'D' (a.foldl (fun _ c => isWordC c) f) l = true := by
  intro a
  induction a with
  | nil => intro f l h; exact h
  | cons c a ih =>
    intro f l h
    simp only [List.cons_append, noW2, Bool.and_eq_true] at h
    exact ih (isWordC c) l h.2

theorem noW2_prepend_digits : ∀ (ds : List Char) (f : Bool) (t : List Char),
    (∀ d ∈ ds, isDigitC d = true) →
    (∀ x, t.head? = some x → (x == 'D') = false) →
    noW2 '0' 'D' (ds.foldl (fun _ c => isWordC c) f) t = true →
    noW2 '0' 'D' f (ds ++ t) = true := by
  intro ds
  induction ds with
  | nil => intro f t _ _ h; exact h
  | cons d ds ih =>
    intro f t hdig htD h
    simp only [List.cons_append, noW2, Bool.and_eq_true]
    refine ⟨?_, ih (isWordC d) t (fun x hx => hdig x (by simp [hx])) htD h⟩
    cases ds with
    | cons d2 ds2 =>
      have : (d2 == 'D') = false := digit_ne_D (hdig d2 (by simp))
      simp [this]
    | nil =>
      cases t with
      | nil => rfl
      | cons x ts =>
        have : (x == 'D') = false := htD x rfl
        simp [this]

theorem noW2_prepend_safe : ∀ (a : List Char) (f : Bool) (t : List Char),
    (∀ x ∈ a, (x == '0') = false) →
    noW2 '0' 'D' (a.foldl (fun _ c => isWordC c) f) t = true →
    noW2 '0' 'D' f (a ++ t) = true := by
  intro a
  induction a with
  | nil => intro f t _ h; exact h
  | cons c a ih =>
    intro f t h0 h
    simp only [List.cons_append, noW2, Bool.and_eq_true]
    refine ⟨?_, ih (isWordC c) t (fun x hx => h0 x (by simp [hx])) h⟩
    have hc0 : (c == '0') = false := h0 c (by simp)
    cases a with
    | cons a2 as => simp [hc0]
    | nil =>
      cases t with
      | nil => rfl
      | cons x ts => simp [hc0]

theorem urel_nil_left {lu ru : List Char} {b : Bool} {o : List Char}
    (h : URel lu ru b [] o) : o = [] := by
  generalize hl : ([] : List Char) = z at h
  cases h with
  | nil => rfl
  | copy b c hrel => exact absurd hl (by simp)
  | repl ds ws us hne hdig hws hlow hword hnw hrel =>
    exfalso
    cases ds with
    | nil => exact hne rfl
    | cons d ds2 => simp at hl

theorem urel_true_cons {lu ru : List Char} {x : Char} {l2 o2 : List Char}
    (h : URel lu ru true (x :: l2) o2) :
    ∃ o3, o2 = x :: o3 ∧ l2.head? = o3.head? := by
  cases h with
  | copy b c hrel => exact ⟨_, rfl, urel_head hrel⟩

theorem urel_noW2 {lu ru : List Char} (hlune : lu ≠ []) (hrne : ru ≠ [])
    (hrw : ∀ r ∈ ru, isWordC r = true) (hr0 : ∀ r ∈ ru, (r == '0') = false) :
    ∀ {b : Bool} {l o : List Char}, URel lu ru b l o →
    noW2 '0' 'D' b l = true → noW2 '0' 'D' b o = true := by
  intro b l o h
  induction h with
  | nil b => intro _; rfl
  | copy b c hrel ih =>
    rename_i l2 o2
    intro hok
    simp only [noW2, Bool.and_eq_true] at hok ⊢
    refine ⟨?_, ih hok.2⟩
    rcases hok with ⟨chkin, _⟩
    by_cases h0 : (!b && (c == '0')) = true
    · simp only [Bool.and_eq_true] at h0
      obtain ⟨hb, hc⟩ := h0
      have hc2 : c = '0' := by simpa using hc
      subst hc2
      rw [show isWordC '0' = true from by decide] at hrel
      cases hl2 : l2 with
      | nil =>
        rw [hl2] at hrel
        rw [urel_nil_left hrel]
      | cons c2 l3 =>
        rw [hl2] at hrel chkin
        obtain ⟨o3, rfl, hh⟩ := urel_true_cons hrel
        by_cases hd2 : (c2 == 'D') = true
        · have hnw3 : hdNonWord l3 = false := by
            simpa [hb, hd2] using chkin
          have hnwo : hdNonWord o3 = false := by
            rw [hdNonWord_eq, ← hh, ← hdNonWord_eq]
            exact hnw3
          simp [hnwo]
        · have hd2f : (c2 == 'D') = false := by simpa using hd2
          simp [hd2f]
    · have h0f : (!b && (c == '0')) = false := by simpa using h0
      cases o2 with
      | nil => rfl
      | cons x xs => simp [h0f]
  | repl ds ws us hne hdig hws hlow hword hnw hrel ih =>
    rename_i l2 o2
    intro hok
    have husne : us ≠ [] := by
      intro h2
      rw [h2] at hlow
      simp only [lowS, List.map_nil] at hlow
      exact hlune hlow.symm
    have hin := noW2_append_out (ds ++ ws ++ us) false l2
      (by simpa [List.append_assoc] using hok)
    have hflag : ((ds ++ ws ++ us).foldl (fun _ c => isWordC c) false) = true := by
      rw [List.foldl_append]
      exact foldl_flag_true _ us _ husne hword
    rw [hflag] at hin
    have ho2 := ih hin
    have hdsfoldl : (ds.foldl (fun _ c => isWordC c) false) = true :=
      foldl_flag_true _ ds _ hne (fun d hd => digit_word (hdig d hd))
    have hmid : noW2 '0' 'D' true ((' ' :: ru) ++ o2) = true := by
      apply noW2_prepend_safe (' ' :: ru) true o2
      · intro x hx
        simp only [List.mem_cons] at hx
        rcases hx with rfl | hx
        · decide
        · exact hr0 x hx
      · have : ((' ' :: ru).foldl (fun _ c => isWordC c) true) = true := by
          simp only [List.foldl_cons]
          exact foldl_flag_true _ ru _ hrne hrw
        rw [this]
        exact ho2
    have hfin := noW2_prepend_digits ds false ((' ' :: ru) ++ o2) hdig
      (by
        intro x hx
        simp only [List.cons_append, List.head?] at hx
        have : x = ' ' := by simpa using hx.symm
        subst this
        decide)
      (by rw [hdsfoldl]; exact hmid)
    simpa [List.cons_append, List.append_assoc] using hfin

/-! ### Fixed-point predicates for the unit-normalization passes -/

theorem upper_not_digit {c : Char} (h : isUpperC c = true) : isDigitC c = false := by
  simp only [isUpperC, Bool.and_eq_true, decide_eq_true_eq] at h
  simp only [isDigitC, Bool.and_eq_true, decide_eq_true_eq]
  by_cases h9 : c ≤ '9'
  · exact absurd (le_trans h.1 h9) (by decide)
  · simp [h9]

theorem alpha_not_digit {c : Char} (h : isAlphaC c = true) : isDigitC c = false := by
  simp only [isAlphaC, Bool.or_eq_true] at h
  rcases h with h | h
  · exact upper_not_digit h
  · simp only [isLowerC, Bool.and_eq_true, decide_eq_true_eq] at h
    simp only [isDigitC, Bool.and_eq_true, decide_eq_true_eq]
    by_cases h9 : c ≤ '9'
    · exact absurd (le_trans h.1 h9) (by decide)
    · simp [h9]

theorem not_digit_of_lowC_alpha {c : Char} (h : isAlphaC (lowC c) = true) :
    isDigitC c = false := by
  unfold lowC at h
  by_cases hu : isUpperC c
  · exact upper_not_digit hu
  · rw [if_neg hu] at h
    exact alpha_not_digit h

/-- Scanner state for the fixed-point predicate of a unit pass: only the
previous-character wordness, being inside a digit run, or being past it in
whitespace (tracking whether the run is exactly one space) matter. -/
inductive UOSt where
  | norm (prevW : Bool)
  | digs
  | wsm (single : Bool)

/-- The two-letter unit pass leaves the text unchanged exactly when every
match of `\b(\d+)\s*U\b` is already of the replaced form: whitespace run
a single space and the unit letters exactly the lowercase replacement. -/
def u2ok (u1 u2 ru0 ru1 : Char) : UOSt → List Char → Bool
  | _, [] => true
  | .norm prevW, c :: cs =>
    if !prevW && isDigitC c then u2ok u1 u2 ru0 ru1 .digs cs
    else u2ok u1 u2 ru0 ru1 (.norm (isWordC c)) cs
  | .digs, c :: cs =>
    if isDigitC c then u2ok u1 u2 ru0 ru1 .digs cs
    else if isWs c then u2ok u1 u2 ru0 ru1 (.wsm (c == ' ')) cs
    else
      match hm : cs with
      | c2 :: cs2 =>
        if lowC c == lowC u1 && lowC c2 == lowC u2 && hdNonWord cs2 then false
        else u2ok u1 u2 ru0 ru1 (.norm (isWordC c)) cs
      | [] => true
  | .wsm single, c :: cs =>
    if isWs c then u2ok u1 u2 ru0 ru1 (.wsm false) cs
    else if isDigitC c then u2ok u1 u2 ru0 ru1 .digs cs
    else
      match hm : cs with
      | c2 :: cs2 =>
        if lowC c == lowC u1 && lowC c2 == lowC u2 && hdNonWord cs2 then
          (single && c == ru0 && c2 == ru1) &&
            u2ok u1 u2 ru0 ru1 (.norm (isWordC c2)) cs2
        else u2ok u1 u2 ru0 ru1 (.norm (isWordC c)) cs
      | [] => true
termination_by _ l => l.length
decreasing_by all_goals simp_all +arith

/-- Three-letter variant of `u2ok` (for the `MCG` rule). -/
def u3ok (u1 u2 u3 ru0 ru1 ru2 : Char) : UOSt → List Char → Bool
  | _, [] => true
  | .norm prevW, c :: cs =>
    if !prevW && isDigitC c then u3ok u1 u2 u3 ru0 ru1 ru2 .digs cs
    else u3ok u1 u2 u3 ru0 ru1 ru2 (.norm (isWordC c)) cs
  | .digs, c :: cs =>
    if isDigitC c then u3ok u1 u2 u3 ru0 ru1 ru2 .digs cs
    else if isWs c then u3ok u1 u2 u3 ru0 ru1 ru2 (.wsm (c == ' ')) cs
    else
      match hm : cs with
      | c2 :: c3 :: cs3 =>
        if lowC c == lowC u1 && lowC c2 == lowC u2 && lowC c3 == lowC u3 &&
            hdNonWord cs3 then false
        else u3ok u1 u2 u3 ru0 ru1 ru2 (.norm (isWordC c)) cs
      | [] => true
      | [c2] => u3ok u1 u2 u3 ru0 ru1 ru2 (.norm (isWordC c)) [c2]
  | .wsm single, c :: cs =>
    if isWs c then u3ok u1 u2 u3 ru0 ru1 ru2 (.wsm false) cs
    else if isDigitC c then u3ok u1 u2 u3 ru0 ru1 ru2 .digs cs
    else
      match hm : cs with
      | c2 :: c3 :: cs3 =>
        if lowC c == lowC u1 && lowC c2 == lowC u2 && lowC c3 == lowC u3 &&
            hdNonWord cs3 then
          (single && c == ru0 && c2 == ru1 && c3 == ru2) &&
            u3ok u1 u2 u3 ru0 ru1 ru2 (.norm (isWordC c3)) cs3
        else u3ok u1 u2 u3 ru0 ru1 ru2 (.norm (isWordC c)) cs
      | [] => true
      | [c2] => u3ok u1 u2 u3 ru0 ru1 ru2 (.norm (isWordC c)) [c2]
termination_by _ l => l.length
decreasing_by all_goals simp_all +arith

theorem u2ok_nil (u1 u2 ru0 ru1 : Char) (st : UOSt) :
    u2ok u1 u2 ru0 ru1 st [] = true := by
  rw [u2ok.eq_def]
  cases st <;> rfl

theorem u2ok_norm (u1 u2 ru0 ru1 : Char) (b : Bool) (c : Char) (cs : List Char) :
    u2ok u1 u2 ru0 ru1 (.norm b) (c :: cs) =
      (if !b && isDigitC c then u2ok u1 u2 ru0 ru1 .digs cs
       else u2ok u1 u2 ru0 ru1 (.norm (isWordC c)) cs) := by
  rw [u2ok.eq_def]

theorem u2ok_digs_digit (u1 u2 ru0 ru1 : Char) (c : Char) (cs : List Char)
    (h : isDigitC c = true) :
    u2ok u1 u2 ru0 ru1 .digs (c :: cs) = u2ok u1 u2 ru0 ru1 .digs cs := by
  rw [u2ok.eq_def]
  simp [h]

theorem u2ok_digs_ws (u1 u2 ru0 ru1 : Char) (c : Char) (cs : List Char)
    (hd : isDigitC c = false) (hw : isWs c = true) :
    u2ok u1 u2 ru0 ru1 .digs (c :: cs) =
      u2ok u1 u2 ru0 ru1 (.wsm (c == ' ')) cs := by
  rw [u2ok.eq_def]
  simp [hd, hw]

theorem u2ok_digs_chk_t (u1 u2 ru0 ru1 : Char) (c c2 : Char) (cs2 : List Char)
    (hd : isDigitC c = false) (hw : isWs c = false)
    (hm : (lowC c == lowC u1 && lowC c2 == lowC u2 && hdNonWord cs2) = true) :
    u2ok u1 u2 ru0 ru1 .digs (c :: c2 :: cs2) = false := by
  rw [u2ok.eq_def]
  simp [hd, hw, hm]

theorem u2ok_digs_chk_f (u1 u2 ru0 ru1 : Char) (c c2 : Char) (cs2 : List Char)
    (hd : isDigitC c = false) (hw : isWs c = false)
    (hm : (lowC c == lowC u1 && lowC c2 == lowC u2 && hdNonWord cs2) = false) :
    u2ok u1 u2 ru0 ru1 .digs (c :: c2 :: cs2) =
      u2ok u1 u2 ru0 ru1 (.norm (isWordC c)) (c2 :: cs2) := by
  rw [u2ok.eq_def]
  simp [hd, hw, hm]

theorem u2ok_digs_one (u1 u2 ru0 ru1 : Char) (c : Char)
    (hd : isDigitC c = false) (hw : isWs c = false) :
    u2ok u1 u2 ru0 ru1 .digs [c] = true := by
  rw [u2ok.eq_def]
  simp [hd, hw]

theorem u2ok_wsm_ws (u1 u2 ru0 ru1 : Char) (s : Bool) (c : Char) (cs : List Char)
    (hw : isWs c = true) :
    u2ok u1 u2 ru0 ru1 (.wsm s) (c :: cs) = u2ok u1 u2 ru0 ru1 (.wsm false) cs := by
  rw [u2ok.eq_def]
  simp [hw]

theorem u2ok_wsm_digit (u1 u2 ru0 ru1 : Char) (s : Bool) (c : Char) (cs : List Char)
    (hw : isWs c = false) (hd : isDigitC c = true) :
    u2ok u1 u2 ru0 ru1 (.wsm s) (c :: cs) = u2ok u1 u2 ru0 ru1 .digs cs := by
  rw [u2ok.eq_def]
  simp [hw, hd]

theorem u2ok_wsm_chk_t (u1 u2 ru0 ru1 : Char) (s : Bool) (c c2 : Char)
    (cs2 : List Char) (hw : isWs c = false) (hd : isDigitC c = false)
    (hm : (lowC c == lowC u1 && lowC c2 == lowC u2 && hdNonWord cs2) = true) :
    u2ok u1 u2 ru0 ru1 (.wsm s) (c :: c2 :: cs2) =
      ((s && c == ru0 && c2 == ru1) &&
        u2ok u1 u2 ru0 ru1 (.norm (isWordC c2)) cs2) := by
  rw [u2ok.eq_def]
  simp [hw, hd, hm]

theorem u2ok_wsm_chk_f (u1 u2 ru0 ru1 : Char) (s : Bool) (c c2 : Char)
    (cs2 : List Char) (hw : isWs c = false) (hd : isDigitC c = false)
    (hm : (lowC c == lowC u1 && lowC c2 == lowC u2 && hdNonWord cs2) = false) :
    u2ok u1 u2 ru0 ru1 (.wsm s) (c :: c2 :: cs2) =
      u2ok u1 u2 ru0 ru1 (.norm (isWordC c)) (c2 :: cs2) := by
  rw [u2ok.eq_def]
  simp [hw, hd, hm]

theorem u2ok_wsm_one (u1 u2 ru0 ru1 : Char) (s : Bool) (c : Char)
    (hw : isWs c = false) (hd : isDigitC c = false) :
    u2ok u1 u2 ru0 ru1 (.wsm s) [c] = true := by
  rw [u2ok.eq_def]
  simp [hw, hd]

theorem u3ok_nil (u1 u2 u3 ru0 ru1 ru2 : Char) (st : UOSt) :
    u3ok u1 u2 u3 ru0 ru1 ru2 st [] = true := by
  rw [u3ok.eq_def]
  cases st <;> rfl

theorem u3ok_norm (u1 u2 u3 ru0 ru1 ru2 : Char) (b : Bool) (c : Char)
    (cs : List Char) :
    u3ok u1 u2 u3 ru0 ru1 ru2 (.norm b) (c :: cs) =
      (if !b && isDigitC c then u3ok u1 u2 u3 ru0 ru1 ru2 .digs cs
       else u3ok u1 u2 u3 ru0 ru1 ru2 (.norm (isWordC c)) cs) := by
  rw [u3ok.eq_def]

theorem u3ok_digs_digit (u1 u2 u3 ru0 ru1 ru2 : Char) (c : Char) (cs : List Char)
    (h : isDigitC c = true) :
    u3ok u1 u2 u3 ru0 ru1 ru2 .digs (c :: cs) =
      u3ok u1 u2 u3 ru0 ru1 ru2 .digs cs := by
  rw [u3ok.eq_def]
  simp [h]

theorem u3ok_digs_ws (u1 u2 u3 ru0 ru1 ru2 : Char) (c : Char) (cs : List Char)
    (hd : isDigitC c = false) (hw : isWs c = true) :
    u3ok u1 u2 u3 ru0 ru1 ru2 .digs (c :: cs) =
      u3ok u1 u2 u3 ru0 ru1 ru2 (.wsm (c == ' ')) cs := by
  rw [u3ok.eq_def]
  simp [hd, hw]

theorem u3ok_digs_chk_t (u1 u2 u3 ru0 ru1 ru2 : Char) (c c2 c3 : Char)
    (cs3 : List Char) (hd : isDigitC c = false) (hw : isWs c = false)
    (hm : (lowC c == lowC u1 && lowC c2 == lowC u2 && lowC c3 == lowC u3 &&
      hdNonWord cs3) = true) :
    u3ok u1 u2 u3 ru0 ru1 ru2 .digs (c :: c2 :: c3 :: cs3) = false := by
  rw [u3ok.eq_def]
  simp [hd, hw, hm]

theorem u3ok_digs_chk_f (u1 u2 u3 ru0 ru1 ru2 : Char) (c c2 c3 : Char)
    (cs3 : List Char) (hd : isDigitC c = false) (hw : isWs c = false)
    (hm : (lowC c == lowC u1 && lowC c2 == lowC u2 && lowC c3 == lowC u3 &&
      hdNonWord cs3) = false) :
    u3ok u1 u2 u3 ru0 ru1 ru2 .digs (c :: c2 :: c3 :: cs3) =
      u3ok u1 u2 u3 ru0 ru1 ru2 (.norm (isWordC c)) (c2 :: c3 :: cs3) := by
  rw [u3ok.eq_def]
  simp [hd, hw, hm]

theorem u3ok_digs_one (u1 u2 u3 ru0 ru1 ru2 : Char) (c : Char)
    (hd : isDigitC c = false) (hw : isWs c = false) :
    u3ok u1 u2 u3 ru0 ru1 ru2 .digs [c] = true := by
  rw [u3ok.eq_def]
  simp [hd, hw]

theorem u3ok_digs_two (u1 u2 u3 ru0 ru1 ru2 : Char) (c c2 : Char)
    (hd : isDigitC c = false) (hw : isWs c = false) :
    u3ok u1 u2 u3 ru0 ru1 ru2 .digs [c, c2] =
      u3ok u1 u2 u3 ru0 ru1 ru2 (.norm (isWordC c)) [c2] := by
  rw [u3ok.eq_def]
  simp [hd, hw]

theorem u3ok_wsm_ws (u1 u2 u3 ru0 ru1 ru2 : Char) (s : Bool) (c : Char)
    (cs : List Char) (hw : isWs c = true) :
    u3ok u1 u2 u3 ru0 ru1 ru2 (.wsm s) (c :: cs) =
      u3ok u1 u2 u3 ru0 ru1 ru2 (.wsm false) cs := by
  rw [u3ok.eq_def]
  simp [hw]

theorem u3ok_wsm_digit (u1 u2 u3 ru0 ru1 ru2 : Char) (s : Bool) (c : Char)
    (cs : List Char) (hw : isWs c = false) (hd : isDigitC c = true) :
    u3ok u1 u2 u3 ru0 ru1 ru2 (.wsm s) (c :: cs) =
      u3ok u1 u2 u3 ru0 ru1 ru2 .digs cs := by
  rw [u3ok.eq_def]
  simp [hw, hd]

theorem u3ok_wsm_chk_t (u1 u2 u3 ru0 ru1 ru2 : Char) (s : Bool) (c c2 c3 : Char)
    (cs3 : List Char) (hw : isWs c = false) (hd : isDigitC c = false)
    (hm : (lowC c == lowC u1 && lowC c2 == lowC u2 && lowC c3 == lowC u3 &&
      hdNonWord cs3) = true) :
    u3ok u1 u2 u3 ru0 ru1 ru2 (.wsm s) (c :: c2 :: c3 :: cs3) =
      ((s && c == ru0 && c2 == ru1 && c3 == ru2) &&
        u3ok u1 u2 u3 ru0 ru1 ru2 (.norm (isWordC c3)) cs3) := by
  rw [u3ok.eq_def]
  simp [hw, hd, hm]

theorem u3ok_wsm_chk_f (u1 u2 u3 ru0 ru1 ru2 : Char) (s : Bool) (c c2 c3 : Char)
    (cs3 : List Char) (hw : isWs c = false) (hd : isDigitC c = false)
    (hm : (lowC c == lowC u1 && lowC c2 == lowC u2 && lowC c3 == lowC u3 &&
      hdNonWord cs3) = false) :
    u3ok u1 u2 u3 ru0 ru1 ru2 (.wsm s) (c :: c2 :: c3 :: cs3) =
      u3ok u1 u2 u3 ru0 ru1 ru2 (.norm (isWordC c)) (c2 :: c3 :: cs3) := by
  rw [u3ok.eq_def]
  simp [hw, hd, hm]

theorem u3ok_wsm_one (u1 u2 u3 ru0 ru1 ru2 : Char) (s : Bool) (c : Char)
    (hw : isWs c = false) (hd : isDigitC c = false) :
    u3ok u1 u2 u3 ru0 ru1 ru2 (.wsm s) [c] = true := by
  rw [u3ok.eq_def]
  simp [hw, hd]

theorem u3ok_wsm_two (u1 u2 u3 ru0 ru1 ru2 : Char) (s : Bool) (c c2 : Char)
    (hw : isWs c = false) (hd : isDigitC c = false) :
    u3ok u1 u2 u3 ru0 ru1 ru2 (.wsm s) [c, c2] =
      u3ok u1 u2 u3 ru0 ru1 ru2 (.norm (isWordC c)) [c2] := by
  rw [u3ok.eq_def]
  simp [hw, hd]

theorem singleton_beq (a b : Char) : (([a] : List Char) == [b]) = (a == b) := by
  by_cases h : a = b <;> simp [h]

theorem cons_ne_singleton_beq (c : Char) (ws : List Char) (hwne : ws ≠ []) :
    ((c :: ws : List Char) == [' ']) = false := by
  cases ws with
  | nil => exact absurd rfl hwne
  | cons w ws2 => by_cases hc : c = ' ' <;> simp [hc]

/-- State-indexed fixed-point statement for the two-letter unit pass. -/
def fixMotive2 (u1 u2 ru0 ru1 : Char) (st : USt) (l : List Char) : Prop :=
  match st with
  | .norm b => u2ok u1 u2 ru0 ru1 (.norm b) l = true →
      unit2Go u1 u2 [ru0, ru1] (.norm b) l = l
  | .digs ds => u2ok u1 u2 ru0 ru1 .digs l = true →
      unit2Go u1 u2 [ru0, ru1] (.digs ds) l = ds.reverse ++ l
  | .wsm ds ws => ws ≠ [] → u2ok u1 u2 ru0 ru1 (.wsm (ws == [' '])) l = true →
      unit2Go u1 u2 [ru0, ru1] (.wsm ds ws) l = ds.reverse ++ ws.reverse ++ l

theorem u2ok_fixM (u1 u2 ru0 ru1 : Char) :
    ∀ (st : USt) (l : List Char), fixMotive2 u1 u2 ru0 ru1 st l := by
  intro st l
  induction st, l using unit2Go.induct u1 u2 [ru0, ru1] with
  | case1 b =>
    intro _
    rw [unit2Go_norm_nil]
  | case2 ds =>
    intro _
    rw [unit2Go_digs_nil]
    simp
  | case3 ds ws =>
    intro _ _
    rw [unit2Go_wsm_nil]
    simp
  | case4 prevW c cs hcond ih =>
    intro hok
    rw [u2ok_norm, if_pos hcond] at hok
    rw [unit2Go_norm_digit u1 u2 [ru0, ru1] prevW c cs hcond]
    have := ih hok
    simpa using this
  | case5 prevW c cs hcond ih =>
    intro hok
    rw [u2ok_norm, if_neg hcond] at hok
    rw [unit2Go_norm_other u1 u2 [ru0, ru1] prevW c cs (by simpa using hcond),
      ih hok]
  | case6 ds c cs hd ih =>
    intro hok
    rw [u2ok_digs_digit u1 u2 ru0 ru1 c cs hd] at hok
    rw [unit2Go_digs_digit u1 u2 [ru0, ru1] ds c cs hd, ih hok]
    simp
  | case7 ds c cs hd hw ih =>
    intro hok
    rw [u2ok_digs_ws u1 u2 ru0 ru1 c cs (by simpa using hd) hw] at hok
    rw [unit2Go_digs_ws u1 u2 [ru0, ru1] ds c cs (by simpa using hd) hw]
    rw [show (c == ' ') = (([c] : List Char) == [' ']) from (singleton_beq c ' ').symm]
      at hok
    rw [ih (by simp) hok]
    simp
  | case8 ds c hd hw c2 cs2 hm ih =>
    intro hok
    rw [u2ok_digs_chk_t u1 u2 ru0 ru1 c c2 cs2 (by simpa using hd)
      (by simpa using hw) hm] at hok
    exact Bool.noConfusion hok
  | case9 ds c hd hw c2 cs2 hm ih =>
    intro hok
    rw [u2ok_digs_chk_f u1 u2 ru0 ru1 c c2 cs2 (by simpa using hd)
      (by simpa using hw) (by simpa using hm)] at hok
    rw [unit2Go_digs_fail u1 u2 [ru0, ru1] ds c c2 cs2 (by simpa using hd)
      (by simpa using hw) (by simpa using hm), ih hok]
  | case10 ds c hd hw =>
    intro _
    rw [unit2Go_digs_one u1 u2 [ru0, ru1] ds c (by simpa using hd)
      (by simpa using hw)]
  | case11 ds ws c cs hw ih =>
    intro hwne hok
    rw [u2ok_wsm_ws u1 u2 ru0 ru1 (ws == [' ']) c cs hw] at hok
    rw [unit2Go_wsm_ws u1 u2 [ru0, ru1] ds ws c cs hw]
    rw [show (false : Bool) = ((c :: ws : List Char) == [' ']) from
      (cons_ne_singleton_beq c ws hwne).symm] at hok
    rw [ih (by simp) hok]
    simp
  | case12 ds ws c cs hw hd ih =>
    intro hwne hok
    rw [u2ok_wsm_digit u1 u2 ru0 ru1 (ws == [' ']) c cs (by simpa using hw) hd]
      at hok
    rw [unit2Go_wsm_digit u1 u2 [ru0, ru1] ds ws c cs (by simpa using hw) hd,
      ih hok]
    simp
  | case13 ds ws c hw hd c2 cs2 hm ih =>
    intro hwne hok
    rw [u2ok_wsm_chk_t u1 u2 ru0 ru1 (ws == [' ']) c c2 cs2 (by simpa using hw)
      (by simpa using hd) hm] at hok
    simp only [Bool.and_eq_true] at hok
    obtain ⟨⟨⟨hws1, hc1⟩, hc2⟩, hrec⟩ := hok
    have hwsp : ws = [' '] := by simpa using hws1
    have hcr0 : c = ru0 := by simpa using hc1
    have hcr1 : c2 = ru1 := by simpa using hc2
    rw [unit2Go_wsm_match u1 u2 [ru0, ru1] ds ws c c2 cs2 (by simpa using hw)
      (by simpa using hd) hm, ih hrec]
    subst hwsp
    subst hcr0
    subst hcr1
    simp
  | case14 ds ws c hw hd c2 cs2 hm ih =>
    intro hwne hok
    rw [u2ok_wsm_chk_f u1 u2 ru0 ru1 (ws == [' ']) c c2 cs2 (by simpa using hw)
      (by simpa using hd) (by simpa using hm)] at hok
    rw [unit2Go_wsm_fail u1 u2 [ru0, ru1] ds ws c c2 cs2 (by simpa using hw)
      (by simpa using hd) (by simpa using hm), ih hok]
  | case15 ds ws c hw hd =>
    intro hwne _
    rw [unit2Go_wsm_one u1 u2 [ru0, ru1] ds ws c (by simpa using hw)
      (by simpa using hd)]

theorem u2ok_fix (u1 u2 ru0 ru1 : Char) (l : List Char)
    (h : u2ok u1 u2 ru0 ru1 (.norm false) l = true) :
    unit2Go u1 u2 [ru0, ru1] (.norm false) l = l :=
  u2ok_fixM u1 u2 ru0 ru1 (.norm false) l h

/-- State-indexed fixed-point statement for the three-letter unit pass. -/
def fixMotive3 (u1 u2 u3 ru0 ru1 ru2 : Char) (st : USt) (l : List Char) : Prop :=
  match st with
  | .norm b => u3ok u1 u2 u3 ru0 ru1 ru2 (.norm b) l = true →
      unit3Go u1 u2 u3 [ru0, ru1, ru2] (.norm b) l = l
  | .digs ds => u3ok u1 u2 u3 ru0 ru1 ru2 .digs l = true →
      unit3Go u1 u2 u3 [ru0, ru1, ru2] (.digs ds) l = ds.reverse ++ l
  | .wsm ds ws => ws ≠ [] →
      u3ok u1 u2 u3 ru0 ru1 ru2 (.wsm (ws == [' '])) l = true →
      unit3Go u1 u2 u3 [ru0, ru1, ru2] (.wsm ds ws) l = ds.reverse ++ ws.reverse ++ l

theorem u3ok_fixM (u1 u2 u3 ru0 ru1 ru2 : Char) :
    ∀ (st : USt) (l : List Char), fixMotive3 u1 u2 u3 ru0 ru1 ru2 st l := by
  intro st l
  induction st, l using unit3Go.induct u1 u2 u3 [ru0, ru1, ru2] with
  | case1 b =>
    intro _
    rw [unit3Go_norm_nil]
  | case2 ds =>
    intro _
    rw [unit3Go_digs_nil]
    simp
  | case3 ds ws =>
    intro _ _
    rw [unit3Go_wsm_nil]
    simp
  | case4 prevW c cs hcond ih =>
    intro hok
    rw [u3ok_norm, if_pos hcond] at hok
    rw [unit3Go_norm_digit u1 u2 u3 [ru0, ru1, ru2] prevW c cs hcond]
    have := ih hok
    simpa using this
  | case5 prevW c cs hcond ih =>
    intro hok
    rw [u3ok_norm, if_neg hcond] at hok
    rw [unit3Go_norm_other u1 u2 u3 [ru0, ru1, ru2] prevW c cs (by simpa using hcond),
      ih hok]
  | case6 ds c cs hd ih =>
    intro hok
    rw [u3ok_digs_digit u1 u2 u3 ru0 ru1 ru2 c cs hd] at hok
    rw [unit3Go_digs_digit u1 u2 u3 [ru0, ru1, ru2] ds c cs hd, ih hok]
    simp
  | case7 ds c cs hd hw ih =>
    intro hok
    rw [u3ok_digs_ws u1 u2 u3 ru0 ru1 ru2 c cs (by simpa using hd) hw] at hok
    rw [unit3Go_digs_ws u1 u2 u3 [ru0, ru1, ru2] ds c cs (by simpa using hd) hw]
    rw [show (c == ' ') = (([c] : List Char) == [' ']) from
      (singleton_beq c ' ').symm] at hok
    rw [ih (by simp) hok]
    simp
  | case8 ds c hd hw c2 c3 cs3 hm ih =>
    intro hok
    rw [u3ok_digs_chk_t u1 u2 u3 ru0 ru1 ru2 c c2 c3 cs3 (by simpa using hd)
      (by simpa using hw) hm] at hok
    exact Bool.noConfusion hok
  | case9 ds c hd hw c2 c3 cs3 hm ih =>
    intro hok
    rw [u3ok_digs_chk_f u1 u2 u3 ru0 ru1 ru2 c c2 c3 cs3 (by simpa using hd)
      (by simpa using hw) (by simpa using hm)] at hok
    rw [unit3Go_digs_fail u1 u2 u3 [ru0, ru1, ru2] ds c c2 c3 cs3 (by simpa using hd)
      (by simpa using hw) (by simpa using hm), ih hok]
  | case10 ds c hd hw =>
    intro _
    rw [unit3Go_digs_short0 u1 u2 u3 [ru0, ru1, ru2] ds c (by simpa using hd)
      (by simpa using hw)]
  | case11 ds c hd hw c2 ih =>
    intro hok
    rw [u3ok_digs_two u1 u2 u3 ru0 ru1 ru2 c c2 (by simpa using hd)
      (by simpa using hw)] at hok
    rw [unit3Go_digs_short1 u1 u2 u3 [ru0, ru1, ru2] ds c c2 (by simpa using hd)
      (by simpa using hw), ih hok]
  | case12 ds ws c cs hw ih =>
    intro hwne hok
    rw [u3ok_wsm_ws u1 u2 u3 ru0 ru1 ru2 (ws == [' ']) c cs hw] at hok
    rw [unit3Go_wsm_ws u1 u2 u3 [ru0, ru1, ru2] ds ws c cs hw]
    rw [show (false : Bool) = ((c :: ws : List Char) == [' ']) from
      (cons_ne_singleton_beq c ws hwne).symm] at hok
    rw [ih (by simp) hok]
    simp
  | case13 ds ws c cs hw hd ih =>
    intro hwne hok
    rw [u3ok_wsm_digit u1 u2 u3 ru0 ru1 ru2 (ws == [' ']) c cs (by simpa using hw)
      hd] at hok
    rw [unit3Go_wsm_digit u1 u2 u3 [ru0, ru1, ru2] ds ws c cs (by simpa using hw) hd,
      ih hok]
    simp
  | case14 ds ws c hw hd c2 c3 cs3 hm ih =>
    intro hwne hok
    rw [u3ok_wsm_chk_t u1 u2 u3 ru0 ru1 ru2 (ws == [' ']) c c2 c3 cs3
      (by simpa using hw) (by simpa using hd) hm] at hok
    simp only [Bool.and_eq_true] at hok
    obtain ⟨⟨⟨⟨hws1, hc1⟩, hc2⟩, hc3⟩, hrec⟩ := hok
    have hwsp : ws = [' '] := by simpa using hws1
    have hcr0 : c = ru0 := by simpa using hc1
    have hcr1 : c2 = ru1 := by simpa using hc2
    have hcr2 : c3 = ru2 := by simpa using hc3
    rw [unit3Go_wsm_match u1 u2 u3 [ru0, ru1, ru2] ds ws c c2 c3 cs3
      (by simpa using hw) (by simpa using hd) hm, ih hrec]
    subst hwsp
    subst hcr0
    subst hcr1
    subst hcr2
    simp
  | case15 ds ws c hw hd c2 c3 cs3 hm ih =>
    intro hwne hok
    rw [u3ok_wsm_chk_f u1 u2 u3 ru0 ru1 ru2 (ws == [' ']) c c2 c3 cs3
      (by simpa using hw) (by simpa using hd) (by simpa using hm)] at hok
    rw [unit3Go_wsm_fail u1 u2 u3 [ru0, ru1, ru2] ds ws c c2 c3 cs3
      (by simpa using hw) (by simpa using hd) (by simpa using hm), ih hok]
  | case16 ds ws c hw hd =>
    intro hwne _
    rw [unit3Go_wsm_short0 u1 u2 u3 [ru0, ru1, ru2] ds ws c (by simpa using hw)
      (by simpa using hd)]
  | case17 ds ws c hw hd c2 ih =>
    intro hwne hok
    rw [u3ok_wsm_two u1 u2 u3 ru0 ru1 ru2 (ws == [' ']) c c2 (by simpa using hw)
      (by simpa using hd)] at hok
    rw [unit3Go_wsm_short1 u1 u2 u3 [ru0, ru1, ru2] ds ws c c2 (by simpa using hw)
      (by simpa using hd), ih hok]

theorem u3ok_fix (u1 u2 u3 ru0 ru1 ru2 : Char) (l : List Char)
    (h : u3ok u1 u2 u3 ru0 ru1 ru2 (.norm false) l = true) :
    unit3Go u1 u2 u3 [ru0, ru1, ru2] (.norm false) l = l :=
  u3ok_fixM u1 u2 u3 ru0 ru1 ru2 (.norm false) l h

theorem alpha_word {c : Char} (h : isAlphaC c = true) : isWordC c = true := by
  simp [isWordC, h]

theorem u2ok_walk_ws_wsm (u1 u2 ru0 ru1 : Char) : ∀ (ws T : List Char) (s : Bool),
    (∀ w ∈ ws, isWs w = true) →
    ∃ f, u2ok u1 u2 ru0 ru1 (.wsm s) (ws ++ T) = u2ok u1 u2 ru0 ru1 (.wsm f) T := by
  intro ws
  induction ws with
  | nil => intro T s _; exact ⟨s, rfl⟩
  | cons w ws2 ih =>
    intro T s hws
    rw [List.cons_append, u2ok_wsm_ws u1 u2 ru0 ru1 s w _ (hws w (by simp))]
    exact ih T false (fun x hx => hws x (by simp [hx]))

theorem u2ok_walk_ws_digs (u1 u2 ru0 ru1 : Char) (ws T : List Char)
    (hne : ws ≠ []) (hws : ∀ w ∈ ws, isWs w = true) :
    ∃ f, u2ok u1 u2 ru0 ru1 .digs (ws ++ T) = u2ok u1 u2 ru0 ru1 (.wsm f) T := by
  cases ws with
  | nil => exact absurd rfl hne
  | cons w ws2 =>
    rw [List.cons_append, u2ok_digs_ws u1 u2 ru0 ru1 w _
      (ws_not_digit (hws w (by simp))) (hws w (by simp))]
    exact u2ok_walk_ws_wsm u1 u2 ru0 ru1 ws2 T (w == ' ')
      (fun x hx => hws x (by simp [hx]))

theorem est2_fail_chk (u1 u2 ru0 ru1 : Char)
    (ha1 : isAlphaC (lowC u1) = true) (ha2 : isAlphaC (lowC u2) = true)
    (c c2 : Char) (cs2 : List Char) (w : Bool)
    (hm : (lowC c == lowC u1 && lowC c2 == lowC u2 && hdNonWord cs2) = false) :
    ∃ T, unit2Go u1 u2 [ru0, ru1] (.norm w) (c2 :: cs2) = c2 :: T ∧
      (lowC c == lowC u1 && lowC c2 == lowC u2 && hdNonWord T) = false := by
  have hh := urel_head (unit2Go_urel u1 u2 [ru0, ru1] ha1 ha2 w (c2 :: cs2))
  obtain ⟨T, hT⟩ : ∃ T, unit2Go u1 u2 [ru0, ru1] (.norm w) (c2 :: cs2) = c2 :: T := by
    cases ho : unit2Go u1 u2 [ru0, ru1] (.norm w) (c2 :: cs2) with
    | nil => rw [ho] at hh; simp at hh
    | cons x xs =>
      rw [ho] at hh
      have : c2 = x := by simpa using hh
      subst this
      exact ⟨xs, rfl⟩
  refine ⟨T, hT, ?_⟩
  by_cases hAB : (lowC c == lowC u1 && lowC c2 == lowC u2) = true
  · have hnw : hdNonWord cs2 = false := by
      cases hb : hdNonWord cs2 with
      | false => rfl
      | true =>
        rw [hAB, hb] at hm
        simp at hm
    have hc2a : isAlphaC (lowC c2) = true := by
      simp only [Bool.and_eq_true, beq_iff_eq] at hAB
      rw [hAB.2]
      exact ha2
    have hc2d : isDigitC c2 = false := not_digit_of_lowC_alpha hc2a
    have hO : unit2Go u1 u2 [ru0, ru1] (.norm w) (c2 :: cs2) =
        c2 :: unit2Go u1 u2 [ru0, ru1] (.norm (isWordC c2)) cs2 :=
      unit2Go_norm_other _ _ _ _ _ _ (by simp [hc2d])
    have hTeq : T = unit2Go u1 u2 [ru0, ru1] (.norm (isWordC c2)) cs2 := by
      rw [hT] at hO
      injection hO
    have hhT := urel_head (unit2Go_urel u1 u2 [ru0, ru1] ha1 ha2 (isWordC c2) cs2)
    have hfin : hdNonWord T = false := by
      rw [hTeq, hdNonWord_eq, ← hhT, ← hdNonWord_eq]
      exact hnw
    rw [hfin]
    simp
  · have h2 : (lowC c == lowC u1 && lowC c2 == lowC u2) = false := by simpa using hAB
    simp [h2]

/-- State-indexed statement of the self-establishment of `u2ok` by the
two-letter unit pass. -/
def estMotive2 (u1 u2 ru0 ru1 : Char) (st : USt) (l : List Char) : Prop :=
  match st with
  | .norm b =>
      u2ok u1 u2 ru0 ru1 (.norm b) (unit2Go u1 u2 [ru0, ru1] (.norm b) l) = true
  | .digs ds => ∃ X, unit2Go u1 u2 [ru0, ru1] (.digs ds) l = ds.reverse ++ X ∧
      u2ok u1 u2 ru0 ru1 .digs X = true
  | .wsm ds ws => ws ≠ [] → (∀ w ∈ ws, isWs w = true) →
      ∃ X, unit2Go u1 u2 [ru0, ru1] (.wsm ds ws) l = ds.reverse ++ X ∧
        u2ok u1 u2 ru0 ru1 .digs X = true

theorem u2ok_estM (u1 u2 ru0 ru1 : Char)
    (ha1 : isAlphaC (lowC u1) = true) (ha2 : isAlphaC (lowC u2) = true)
    (e1 : (lowC ru0 == lowC u1) = true) (e2 : (lowC ru1 == lowC u2) = true)
    (hw1 : isWordC ru1 = true)
    (hd0 : isDigitC ru0 = false) (hs0 : isWs ru0 = false) :
    ∀ (st : USt) (l : List Char), estMotive2 u1 u2 ru0 ru1 st l := by
  intro st l
  induction st, l using unit2Go.induct u1 u2 [ru0, ru1] with
  | case1 b =>
    simp only [estMotive2]
    rw [unit2Go_norm_nil]
    exact u2ok_nil u1 u2 ru0 ru1 _
  | case2 ds =>
    simp only [estMotive2]
    exact ⟨[], by rw [unit2Go_digs_nil]; simp, u2ok_nil u1 u2 ru0 ru1 _⟩
  | case3 ds ws =>
    simp only [estMotive2]
    intro hwne hws
    refine ⟨ws.reverse, by rw [unit2Go_wsm_nil], ?_⟩
    obtain ⟨f, hf⟩ := u2ok_walk_ws_digs u1 u2 ru0 ru1 ws.reverse []
      (by simpa using hwne) (fun x hx => hws x (by simpa using hx))
    rw [show ws.reverse = ws.reverse ++ ([] : List Char) by simp, hf]
    exact u2ok_nil u1 u2 ru0 ru1 _
  | case4 prevW c cs hcond ih =>
    simp only [estMotive2] at ih ⊢
    rw [unit2Go_norm_digit u1 u2 [ru0, ru1] prevW c cs hcond]
    obtain ⟨X, hX, hXok⟩ := ih
    rw [hX]
    simp only [List.reverse_singleton, List.singleton_append]
    rw [u2ok_norm, if_pos hcond]
    exact hXok
  | case5 prevW c cs hcond ih =>
    simp only [estMotive2] at ih ⊢
    rw [unit2Go_norm_other u1 u2 [ru0, ru1] prevW c cs (by simpa using hcond)]
    rw [u2ok_norm, if_neg hcond]
    exact ih
  | case6 ds c cs hd ih =>
    simp only [estMotive2] at ih ⊢
    obtain ⟨X, hX, hXok⟩ := ih
    refine ⟨c :: X, ?_, ?_⟩
    · rw [unit2Go_digs_digit u1 u2 [ru0, ru1] ds c cs hd, hX]
      simp
    · rw [u2ok_digs_digit u1 u2 ru0 ru1 c X hd]
      exact hXok
  | case7 ds c cs hd hw ih =>
    simp only [estMotive2] at ih ⊢
    rw [unit2Go_digs_ws u1 u2 [ru0, ru1] ds c cs (by simpa using hd) hw]
    exact ih (by simp) (by intro x hx; simp at hx; subst hx; exact hw)
  | case8 ds c hd hw c2 cs2 hm ih =>
    simp only [estMotive2] at ih ⊢
    rw [unit2Go_digs_match u1 u2 [ru0, ru1] ds c c2 cs2 (by simpa using hd)
      (by simpa using hw) hm]
    refine ⟨' ' :: [ru0, ru1] ++ unit2Go u1 u2 [ru0, ru1] (.norm (isWordC c2)) cs2,
      by simp, ?_⟩
    simp only [Bool.and_eq_true, beq_iff_eq] at hm
    obtain ⟨⟨hl1, hl2⟩, hnw⟩ := hm
    have hw2 : isWordC c2 = true := word_of_lowC_eq ha2 hl2
    have hhO := urel_head (unit2Go_urel u1 u2 [ru0, ru1] ha1 ha2 (isWordC c2) cs2)
    have hnwO : hdNonWord (unit2Go u1 u2 [ru0, ru1] (.norm (isWordC c2)) cs2) = true := by
      rw [hdNonWord_eq, ← hhO, ← hdNonWord_eq]
      exact hnw
    rw [List.cons_append, u2ok_digs_ws u1 u2 ru0 ru1 ' ' _ (by decide) (by decide),
      show ((' ' : Char) == ' ') = true from rfl]
    rw [show ([ru0, ru1] : List Char) ++
        unit2Go u1 u2 [ru0, ru1] (.norm (isWordC c2)) cs2 =
        ru0 :: ru1 :: unit2Go u1 u2 [ru0, ru1] (.norm (isWordC c2)) cs2 by simp]
    rw [u2ok_wsm_chk_t u1 u2 ru0 ru1 true ru0 ru1 _ hs0 hd0
      (by rw [e1, e2, hnwO]; decide)]
    simp only [Bool.and_eq_true]
    constructor
    · simp
    · rw [hw1, hw2]
      rw [hw2] at ih
      exact ih
  | case9 ds c hd hw c2 cs2 hm ih =>
    simp only [estMotive2] at ih ⊢
    rw [unit2Go_digs_fail u1 u2 [ru0, ru1] ds c c2 cs2 (by simpa using hd)
      (by simpa using hw) (by simpa using hm)]
    obtain ⟨T, hT, hchk⟩ := est2_fail_chk u1 u2 ru0 ru1 ha1 ha2 c c2 cs2
      (isWordC c) (by simpa using hm)
    refine ⟨c :: unit2Go u1 u2 [ru0, ru1] (.norm (isWordC c)) (c2 :: cs2), rfl, ?_⟩
    rw [hT, u2ok_digs_chk_f u1 u2 ru0 ru1 c c2 T (by simpa using hd)
      (by simpa using hw) hchk, ← hT]
    exact ih
  | case10 ds c hd hw =>
    simp only [estMotive2]
    refine ⟨[c], by rw [unit2Go_digs_one u1 u2 [ru0, ru1] ds c (by simpa using hd)
      (by simpa using hw)], ?_⟩
    exact u2ok_digs_one u1 u2 ru0 ru1 c (by simpa using hd) (by simpa using hw)
  | case11 ds ws c cs hw ih =>
    simp only [estMotive2] at ih ⊢
    intro hwne hws
    rw [unit2Go_wsm_ws u1 u2 [ru0, ru1] ds ws c cs hw]
    exact ih (by simp) (by
      intro x hx
      simp only [List.mem_cons] at hx
      rcases hx with rfl | hx
      · exact hw
      · exact hws x hx)
  | case12 ds ws c cs hw hd ih =>
    simp only [estMotive2] at ih ⊢
    intro hwne hws
    obtain ⟨X2, hX2, hX2ok⟩ := ih
    refine ⟨ws.reverse ++ c :: X2, ?_, ?_⟩
    · rw [unit2Go_wsm_digit u1 u2 [ru0, ru1] ds ws c cs (by simpa using hw) hd, hX2]
      simp
    · obtain ⟨f, hf⟩ := u2ok_walk_ws_digs u1 u2 ru0 ru1 ws.reverse (c :: X2)
        (by simpa using hwne) (fun x hx => hws x (by simpa using hx))
      rw [hf, u2ok_wsm_digit u1 u2 ru0 ru1 f c X2 (by simpa using hw) hd]
      exact hX2ok
  | case13 ds ws c hw hd c2 cs2 hm ih =>
    simp only [estMotive2] at ih ⊢
    intro hwne hws
    rw [unit2Go_wsm_match u1 u2 [ru0, ru1] ds ws c c2 cs2 (by simpa using hw)
      (by simpa using hd) hm]
    refine ⟨' ' :: [ru0, ru1] ++ unit2Go u1 u2 [ru0, ru1] (.norm (isWordC c2)) cs2,
      by simp, ?_⟩
    simp only [Bool.and_eq_true, beq_iff_eq] at hm
    obtain ⟨⟨hl1, hl2⟩, hnw⟩ := hm
    have hw2 : isWordC c2 = true := word_of_lowC_eq ha2 hl2
    have hhO := urel_head (unit2Go_urel u1 u2 [ru0, ru1] ha1 ha2 (isWordC c2) cs2)
    have hnwO : hdNonWord (unit2Go u1 u2 [ru0, ru1] (.norm (isWordC c2)) cs2) = true := by
      rw [hdNonWord_eq, ← hhO, ← hdNonWord_eq]
      exact hnw
    rw [List.cons_append, u2ok_digs_ws u1 u2 ru0 ru1 ' ' _ (by decide) (by decide),
      show ((' ' : Char) == ' ') = true from rfl]
    rw [show ([ru0, ru1] : List Char) ++
        unit2Go u1 u2 [ru0, ru1] (.norm (isWordC c2)) cs2 =
        ru0 :: ru1 :: unit2Go u1 u2 [ru0, ru1] (.norm (isWordC c2)) cs2 by simp]
    rw [u2ok_wsm_chk_t u1 u2 ru0 ru1 true ru0 ru1 _ hs0 hd0
      (by rw [e1, e2, hnwO]; decide)]
    simp only [Bool.and_eq_true]
    constructor
    · simp
    · rw [hw1, hw2]
      rw [hw2] at ih
      exact ih
  | case14 ds ws c hw hd c2 cs2 hm ih =>
    simp only [estMotive2] at ih ⊢
    intro hwne hws
    rw [unit2Go_wsm_fail u1 u2 [ru0, ru1] ds ws c c2 cs2 (by simpa using hw)
      (by simpa using hd) (by simpa using hm)]
    obtain ⟨T, hT, hchk⟩ := est2_fail_chk u1 u2 ru0 ru1 ha1 ha2 c c2 cs2
      (isWordC c) (by simpa using hm)
    refine ⟨ws.reverse ++ c :: unit2Go u1 u2 [ru0, ru1] (.norm (isWordC c)) (c2 :: cs2),
      by simp, ?_⟩
    obtain ⟨f, hf⟩ := u2ok_walk_ws_digs u1 u2 ru0 ru1 ws.reverse _
      (by simpa using hwne) (fun x hx => hws x (by simpa using hx))
    rw [hf, hT, u2ok_wsm_chk_f u1 u2 ru0 ru1 f c c2 T (by simpa using hw)
      (by simpa using hd) hchk, ← hT]
    exact ih
  | case15 ds ws c hw hd =>
    simp only [estMotive2]
    intro hwne hws
    refine ⟨ws.reverse ++ [c], by rw [unit2Go_wsm_one u1 u2 [ru0, ru1] ds ws c
      (by simpa using hw) (by simpa using hd)]; simp, ?_⟩
    obtain ⟨f, hf⟩ := u2ok_walk_ws_digs u1 u2 ru0 ru1 ws.reverse [c]
      (by simpa using hwne) (fun x hx => hws x (by simpa using hx))
    rw [hf]
    exact u2ok_wsm_one u1 u2 ru0 ru1 f c (by simpa using hw) (by simpa using hd)

theorem u2ok_est (u1 u2 ru0 ru1 : Char)
    (ha1 : isAlphaC (lowC u1) = true) (ha2 : isAlphaC (lowC u2) = true)
    (e1 : (lowC ru0 == lowC u1) = true) (e2 : (lowC ru1 == lowC u2) = true)
    (hw1 : isWordC ru1 = true)
    (hd0 : isDigitC ru0 = false) (hs0 : isWs ru0 = false)
    (b : Bool) (l : List Char) :
    u2ok u1 u2 ru0 ru1 (.norm b) (unit2Go u1 u2 [ru0, ru1] (.norm b) l) = true :=
  u2ok_estM u1 u2 ru0 ru1 ha1 ha2 e1 e2 hw1 hd0 hs0 (.norm b) l

theorem u3ok_walk_ws_wsm (u1 u2 u3 ru0 ru1 ru2 : Char) :
    ∀ (ws T : List Char) (s : Bool), (∀ w ∈ ws, isWs w = true) →
    ∃ f, u3ok u1 u2 u3 ru0 ru1 ru2 (.wsm s) (ws ++ T) =
      u3ok u1 u2 u3 ru0 ru1 ru2 (.wsm f) T := by
  intro ws
  induction ws with
  | nil => intro T s _; exact ⟨s, rfl⟩
  | cons w ws2 ih =>
    intro T s hws
    rw [List.cons_append, u3ok_wsm_ws u1 u2 u3 ru0 ru1 ru2 s w _ (hws w (by simp))]
    exact ih T false (fun x hx => hws x (by simp [hx]))

theorem u3ok_walk_ws_digs (u1 u2 u3 ru0 ru1 ru2 : Char) (ws T : List Char)
    (hne : ws ≠ []) (hws : ∀ w ∈ ws, isWs w = true) :
    ∃ f, u3ok u1 u2 u3 ru0 ru1 ru2 .digs (ws ++ T) =
      u3ok u1 u2 u3 ru0 ru1 ru2 (.wsm f) T := by
  cases ws with
  | nil => exact absurd rfl hne
  | cons w ws2 =>
    rw [List.cons_append, u3ok_digs_ws u1 u2 u3 ru0 ru1 ru2 w _
      (ws_not_digit (hws w (by simp))) (hws w (by simp))]
    exact u3ok_walk_ws_wsm u1 u2 u3 ru0 ru1 ru2 ws2 T (w == ' ')
      (fun x hx => hws x (by simp [hx]))

theorem unit3Go_norm_single (u1 u2 u3 : Char) (ru : List Char) (b : Bool)
    (c : Char) : unit3Go u1 u2 u3 ru (.norm b) [c] = [c] := by
  by_cases hd : (!b && isDigitC c) = true
  · rw [unit3Go_norm_digit u1 u2 u3 ru b c [] hd, unit3Go_digs_nil]
    simp
  · rw [unit3Go_norm_other u1 u2 u3 ru b c [] (by simpa using hd),
      unit3Go_norm_nil]

theorem est3_fail_chk (u1 u2 u3 ru0 ru1 ru2 : Char)
    (ha1 : isAlphaC (lowC u1) = true) (ha2 : isAlphaC (lowC u2) = true)
    (ha3 : isAlphaC (lowC u3) = true)
    (c c2 c3 : Char) (cs3 : List Char) (w : Bool)
    (hm : (lowC c == lowC u1 && lowC c2 == lowC u2 && lowC c3 == lowC u3 &&
      hdNonWord cs3) = false) :
    ∃ T, unit3Go u1 u2 u3 [ru0, ru1, ru2] (.norm w) (c2 :: c3 :: cs3) = c2 :: T ∧
      ∀ y T2, T = y :: T2 →
        (lowC c == lowC u1 && lowC c2 == lowC u2 && lowC y == lowC u3 &&
          hdNonWord T2) = false := by
  have hh := urel_head (unit3Go_urel u1 u2 u3 [ru0, ru1, ru2] ha1 ha2 ha3 w
    (c2 :: c3 :: cs3))
  obtain ⟨T, hT⟩ : ∃ T, unit3Go u1 u2 u3 [ru0, ru1, ru2] (.norm w)
      (c2 :: c3 :: cs3) = c2 :: T := by
    cases ho : unit3Go u1 u2 u3 [ru0, ru1, ru2] (.norm w) (c2 :: c3 :: cs3) with
    | nil => rw [ho] at hh; simp at hh
    | cons x xs =>
      rw [ho] at hh
      have : c2 = x := by simpa using hh
      subst this
      exact ⟨xs, rfl⟩
  refine ⟨T, hT, ?_⟩
  intro y T2 hyT
  by_cases hAB : (lowC c == lowC u1 && lowC c2 == lowC u2) = true
  · have hc2a : isAlphaC (lowC c2) = true := by
      simp only [Bool.and_eq_true, beq_iff_eq] at hAB
      rw [hAB.2]
      exact ha2
    have hc2d : isDigitC c2 = false := not_digit_of_lowC_alpha hc2a
    have hO : unit3Go u1 u2 u3 [ru0, ru1, ru2] (.norm w) (c2 :: c3 :: cs3) =
        c2 :: unit3Go u1 u2 u3 [ru0, ru1, ru2] (.norm (isWordC c2)) (c3 :: cs3) :=
      unit3Go_norm_other _ _ _ _ _ _ _ (by simp [hc2d])
    have hTeq : T = unit3Go u1 u2 u3 [ru0, ru1, ru2] (.norm (isWordC c2))
        (c3 :: cs3) := by
      rw [hT] at hO
      injection hO
    have hhT := urel_head (unit3Go_urel u1 u2 u3 [ru0, ru1, ru2] ha1 ha2 ha3
      (isWordC c2) (c3 :: cs3))
    have hy : c3 = y := by
      have h5 := hhT
      have h6 := hyT
      rw [hTeq] at h6
      rw [h6] at h5
      simpa using h5
    rw [hy] at hm hTeq
    by_cases hC : (lowC y == lowC u3) = true
    · have hnw : hdNonWord cs3 = false := by
        cases hb : hdNonWord cs3 with
        | false => rfl
        | true =>
          rw [hAB, hC, hb] at hm
          simp at hm
      have hya : isAlphaC (lowC y) = true := by
        rw [show lowC y = lowC u3 by simpa using hC]
        exact ha3
      have hyd : isDigitC y = false := not_digit_of_lowC_alpha hya
      have hO2 : unit3Go u1 u2 u3 [ru0, ru1, ru2] (.norm (isWordC c2))
          (y :: cs3) =
          y :: unit3Go u1 u2 u3 [ru0, ru1, ru2] (.norm (isWordC y)) cs3 :=
        unit3Go_norm_other _ _ _ _ _ _ _ (by simp [hyd])
      have hT2eq : T2 = unit3Go u1 u2 u3 [ru0, ru1, ru2] (.norm (isWordC y))
          cs3 := by
        rw [hTeq] at hyT
        rw [hO2] at hyT
        injection hyT with h1 h2
        exact h2.symm
      have hhT2 := urel_head (unit3Go_urel u1 u2 u3 [ru0, ru1, ru2] ha1 ha2 ha3
        (isWordC y) cs3)
      have hfin : hdNonWord T2 = false := by
        rw [hT2eq, hdNonWord_eq, ← hhT2, ← hdNonWord_eq]
        exact hnw
      rw [hfin]
      simp
    · have h2 : (lowC y == lowC u3) = false := by simpa using hC
      simp [h2]
  · have h2 : (lowC c == lowC u1 && lowC c2 == lowC u2) = false := by simpa using hAB
    simp [h2]

/-- State-indexed statement of the self-establishment of `u3ok` by the
three-letter unit pass. -/
def estMotive3 (u1 u2 u3 ru0 ru1 ru2 : Char) (st : USt) (l : List Char) : Prop :=
  match st with
  | .norm b =>
      u3ok u1 u2 u3 ru0 ru1 ru2 (.norm b)
        (unit3Go u1 u2 u3 [ru0, ru1, ru2] (.norm b) l) = true
  | .digs ds => ∃ X, unit3Go u1 u2 u3 [ru0, ru1, ru2] (.digs ds) l =
      ds.reverse ++ X ∧ u3ok u1 u2 u3 ru0 ru1 ru2 .digs X = true
  | .wsm ds ws => ws ≠ [] → (∀ w ∈ ws, isWs w = true) →
      ∃ X, unit3Go u1 u2 u3 [ru0, ru1, ru2] (.wsm ds ws) l = ds.reverse ++ X ∧
        u3ok u1 u2 u3 ru0 ru1 ru2 .digs X = true

theorem u3ok_estM (u1 u2 u3 ru0 ru1 ru2 : Char)
    (ha1 : isAlphaC (lowC u1) = true) (ha2 : isAlphaC (lowC u2) = true)
    (ha3 : isAlphaC (lowC u3) = true)
    (e1 : (lowC ru0 == lowC u1) = true) (e2 : (lowC ru1 == lowC u2) = true)
    (e3 : (lowC ru2 == lowC u3) = true)
    (hw2 : isWordC ru2 = true)
    (hd0 : isDigitC ru0 = false) (hs0 : isWs ru0 = false) :
    ∀ (st : USt) (l : List Char), estMotive3 u1 u2 u3 ru0 ru1 ru2 st l := by
  intro st l
  induction st, l using unit3Go.induct u1 u2 u3 [ru0, ru1, ru2] with
  | case1 b =>
    simp only [estMotive3]
    rw [unit3Go_norm_nil]
    exact u3ok_nil u1 u2 u3 ru0 ru1 ru2 _
  | case2 ds =>
    simp only [estMotive3]
    exact ⟨[], by rw [unit3Go_digs_nil]; simp, u3ok_nil u1 u2 u3 ru0 ru1 ru2 _⟩
  | case3 ds ws =>
    simp only [estMotive3]
    intro hwne hws
    refine ⟨ws.reverse, by rw [unit3Go_wsm_nil], ?_⟩
    obtain ⟨f, hf⟩ := u3ok_walk_ws_digs u1 u2 u3 ru0 ru1 ru2 ws.reverse []
      (by simpa using hwne) (fun x hx => hws x (by simpa using hx))
    rw [show ws.reverse = ws.reverse ++ ([] : List Char) by simp, hf]
    exact u3ok_nil u1 u2 u3 ru0 ru1 ru2 _
  | case4 prevW c cs hcond ih =>
    simp only [estMotive3] at ih ⊢
    rw [unit3Go_norm_digit u1 u2 u3 [ru0, ru1, ru2] prevW c cs hcond]
    obtain ⟨X, hX, hXok⟩ := ih
    rw [hX]
    simp only [List.reverse_singleton, List.singleton_append]
    rw [u3ok_norm, if_pos hcond]
    exact hXok
  | case5 prevW c cs hcond ih =>
    simp only [estMotive3] at ih ⊢
    rw [unit3Go_norm_other u1 u2 u3 [ru0, ru1, ru2] prevW c cs (by simpa using hcond)]
    rw [u3ok_norm, if_neg hcond]
    exact ih
  | case6 ds c cs hd ih =>
    simp only [estMotive3] at ih ⊢
    obtain ⟨X, hX, hXok⟩ := ih
    refine ⟨c :: X, ?_, ?_⟩
    · rw [unit3Go_digs_digit u1 u2 u3 [ru0, ru1, ru2] ds c cs hd, hX]
      simp
    · rw [u3ok_digs_digit u1 u2 u3 ru0 ru1 ru2 c X hd]
      exact hXok
  | case7 ds c cs hd hw ih =>
    simp only [estMotive3] at ih ⊢
    rw [unit3Go_digs_ws u1 u2 u3 [ru0, ru1, ru2] ds c cs (by simpa using hd) hw]
    exact ih (by simp) (by intro x hx; simp at hx; subst hx; exact hw)
  | case8 ds c hd hw c2 c3 cs3 hm ih =>
    simp only [estMotive3] at ih ⊢
    rw [unit3Go_digs_match u1 u2 u3 [ru0, ru1, ru2] ds c c2 c3 cs3
      (by simpa using hd) (by simpa using hw) hm]
    refine ⟨' ' :: [ru0, ru1, ru2] ++
      unit3Go u1 u2 u3 [ru0, ru1, ru2] (.norm (isWordC c3)) cs3, by simp, ?_⟩
    simp only [Bool.and_eq_true, beq_iff_eq] at hm
    obtain ⟨⟨⟨hl1, hl2⟩, hl3⟩, hnw⟩ := hm
    have hwc3 : isWordC c3 = true := word_of_lowC_eq ha3 hl3
    have hhO := urel_head (unit3Go_urel u1 u2 u3 [ru0, ru1, ru2] ha1 ha2 ha3
      (isWordC c3) cs3)
    have hnwO : hdNonWord
        (unit3Go u1 u2 u3 [ru0, ru1, ru2] (.norm (isWordC c3)) cs3) = true := by
      rw [hdNonWord_eq, ← hhO, ← hdNonWord_eq]
      exact hnw
    rw [List.cons_append, u3ok_digs_ws u1 u2 u3 ru0 ru1 ru2 ' ' _ (by decide)
      (by decide), show ((' ' : Char) == ' ') = true from rfl]
    rw [show ([ru0, ru1, ru2] : List Char) ++
        unit3Go u1 u2 u3 [ru0, ru1, ru2] (.norm (isWordC c3)) cs3 =
        ru0 :: ru1 :: ru2 ::
          unit3Go u1 u2 u3 [ru0, ru1, ru2] (.norm (isWordC c3)) cs3 by simp]
    rw [u3ok_wsm_chk_t u1 u2 u3 ru0 ru1 ru2 true ru0 ru1 ru2 _ hs0 hd0
      (by rw [e1, e2, e3, hnwO]; decide)]
    simp only [Bool.and_eq_true]
    constructor
    · simp
    · rw [hw2, hwc3]
      rw [hwc3] at ih
      exact ih
  | case9 ds c hd hw c2 c3 cs3 hm ih =>
    simp only [estMotive3] at ih ⊢
    rw [unit3Go_digs_fail u1 u2 u3 [ru0, ru1, ru2] ds c c2 c3 cs3
      (by simpa using hd) (by simpa using hw) (by simpa using hm)]
    obtain ⟨T, hT, hchk⟩ := est3_fail_chk u1 u2 u3 ru0 ru1 ru2 ha1 ha2 ha3
      c c2 c3 cs3 (isWordC c) (by simpa using hm)
    refine ⟨c :: unit3Go u1 u2 u3 [ru0, ru1, ru2] (.norm (isWordC c))
      (c2 :: c3 :: cs3), rfl, ?_⟩
    rw [hT]
    cases T with
    | nil =>
      rw [u3ok_digs_two u1 u2 u3 ru0 ru1 ru2 c c2 (by simpa using hd)
        (by simpa using hw), ← hT]
      exact ih
    | cons y T2 =>
      rw [u3ok_digs_chk_f u1 u2 u3 ru0 ru1 ru2 c c2 y T2 (by simpa using hd)
        (by simpa using hw) (hchk y T2 rfl), ← hT]
      exact ih
  | case10 ds c hd hw =>
    simp only [estMotive3]
    refine ⟨[c], by rw [unit3Go_digs_short0 u1 u2 u3 [ru0, ru1, ru2] ds c
      (by simpa using hd) (by simpa using hw)], ?_⟩
    exact u3ok_digs_one u1 u2 u3 ru0 ru1 ru2 c (by simpa using hd)
      (by simpa using hw)
  | case11 ds c hd hw c2 ih =>
    simp only [estMotive3]
    refine ⟨[c, c2], ?_, ?_⟩
    · rw [unit3Go_digs_short1 u1 u2 u3 [ru0, ru1, ru2] ds c c2 (by simpa using hd)
        (by simpa using hw), unit3Go_norm_single]
    · rw [u3ok_digs_two u1 u2 u3 ru0 ru1 ru2 c c2 (by simpa using hd)
        (by simpa using hw), u3ok_norm]
      split <;> exact u3ok_nil u1 u2 u3 ru0 ru1 ru2 _
  | case12 ds ws c cs hw ih =>
    simp only [estMotive3] at ih ⊢
    intro hwne hws
    rw [unit3Go_wsm_ws u1 u2 u3 [ru0, ru1, ru2] ds ws c cs hw]
    exact ih (by simp) (by
      intro x hx
      simp only [List.mem_cons] at hx
      rcases hx with rfl | hx
      · exact hw
      · exact hws x hx)
  | case13 ds ws c cs hw hd ih =>
    simp only [estMotive3] at ih ⊢
    intro hwne hws
    obtain ⟨X2, hX2, hX2ok⟩ := ih
    refine ⟨ws.reverse ++ c :: X2, ?_, ?_⟩
    · rw [unit3Go_wsm_digit u1 u2 u3 [ru0, ru1, ru2] ds ws c cs (by simpa using hw)
        hd, hX2]
      simp
    · obtain ⟨f, hf⟩ := u3ok_walk_ws_digs u1 u2 u3 ru0 ru1 ru2 ws.reverse (c :: X2)
        (by simpa using hwne) (fun x hx => hws x (by simpa using hx))
      rw [hf, u3ok_wsm_digit u1 u2 u3 ru0 ru1 ru2 f c X2 (by simpa using hw) hd]
      exact hX2ok
  | case14 ds ws c hw hd c2 c3 cs3 hm ih =>
    simp only [estMotive3] at ih ⊢
    intro hwne hws
    rw [unit3Go_wsm_match u1 u2 u3 [ru0, ru1, ru2] ds ws c c2 c3 cs3
      (by simpa using hw) (by simpa using hd) hm]
    refine ⟨' ' :: [ru0, ru1, ru2] ++
      unit3Go u1 u2 u3 [ru0, ru1, ru2] (.norm (isWordC c3)) cs3, by simp, ?_⟩
    simp only [Bool.and_eq_true, beq_iff_eq] at hm
    obtain ⟨⟨⟨hl1, hl2⟩, hl3⟩, hnw⟩ := hm
    have hwc3 : isWordC c3 = true := word_of_lowC_eq ha3 hl3
    have hhO := urel_head (unit3Go_urel u1 u2 u3 [ru0, ru1, ru2] ha1 ha2 ha3
      (isWordC c3) cs3)
    have hnwO : hdNonWord
        (unit3Go u1 u2 u3 [ru0, ru1, ru2] (.norm (isWordC c3)) cs3) = true := by
      rw [hdNonWord_eq, ← hhO, ← hdNonWord_eq]
      exact hnw
    rw [List.cons_append, u3ok_digs_ws u1 u2 u3 ru0 ru1 ru2 ' ' _ (by decide)
      (by decide), show ((' ' : Char) == ' ') = true from rfl]
    rw [show ([ru0, ru1, ru2] : List Char) ++
        unit3Go u1 u2 u3 [ru0, ru1, ru2] (.norm (isWordC c3)) cs3 =
        ru0 :: ru1 :: ru2 ::
          unit3Go u1 u2 u3 [ru0, ru1, ru2] (.norm (isWordC c3)) cs3 by simp]
    rw [u3ok_wsm_chk_t u1 u2 u3 ru0 ru1 ru2 true ru0 ru1 ru2 _ hs0 hd0
      (by rw [e1, e2, e3, hnwO]; decide)]
    simp only [Bool.and_eq_true]
    constructor
    · simp
    · rw [hw2, hwc3]
      rw [hwc3] at ih
      exact ih
  | case15 ds ws c hw hd c2 c3 cs3 hm ih =>
    simp only [estMotive3] at ih ⊢
    intro hwne hws
    rw [unit3Go_wsm_fail u1 u2 u3 [ru0, ru1, ru2] ds ws c c2 c3 cs3
      (by simpa using hw) (by simpa using hd) (by simpa using hm)]
    obtain ⟨T, hT, hchk⟩ := est3_fail_chk u1 u2 u3 ru0 ru1 ru2 ha1 ha2 ha3
      c c2 c3 cs3 (isWordC c) (by simpa using hm)
    refine ⟨ws.reverse ++ c :: unit3Go u1 u2 u3 [ru0, ru1, ru2] (.norm (isWordC c))
      (c2 :: c3 :: cs3), by simp, ?_⟩
    obtain ⟨f, hf⟩ := u3ok_walk_ws_digs u1 u2 u3 ru0 ru1 ru2 ws.reverse _
      (by simpa using hwne) (fun x hx => hws x (by simpa using hx))
    rw [hf, hT]
    cases T with
    | nil =>
      rw [u3ok_wsm_two u1 u2 u3 ru0 ru1 ru2 f c c2 (by simpa using hw)
        (by simpa using hd), ← hT]
      exact ih
    | cons y T2 =>
      rw [u3ok_wsm_chk_f u1 u2 u3 ru0 ru1 ru2 f c c2 y T2 (by simpa using hw)
        (by simpa using hd) (hchk y T2 rfl), ← hT]
      exact ih
  | case16 ds ws c hw hd =>
    simp only [estMotive3]
    intro hwne hws
    refine ⟨ws.reverse ++ [c], by rw [unit3Go_wsm_short0 u1 u2 u3 [ru0, ru1, ru2]
      ds ws c (by simpa using hw) (by simpa using hd)]; simp, ?_⟩
    obtain ⟨f, hf⟩ := u3ok_walk_ws_digs u1 u2 u3 ru0 ru1 ru2 ws.reverse [c]
      (by simpa using hwne) (fun x hx => hws x (by simpa using hx))
    rw [hf]
    exact u3ok_wsm_one u1 u2 u3 ru0 ru1 ru2 f c (by simpa using hw)
      (by simpa using hd)
  | case17 ds ws c hw hd c2 ih =>
    simp only [estMotive3]
    intro hwne hws
    refine ⟨ws.reverse ++ [c, c2], ?_, ?_⟩
    · rw [unit3Go_wsm_short1 u1 u2 u3 [ru0, ru1, ru2] ds ws c c2 (by simpa using hw)
        (by simpa using hd), unit3Go_norm_single]
      simp
    · obtain ⟨f, hf⟩ := u3ok_walk_ws_digs u1 u2 u3 ru0 ru1 ru2 ws.reverse [c, c2]
        (by simpa using hwne) (fun x hx => hws x (by simpa using hx))
      rw [hf, u3ok_wsm_two u1 u2 u3 ru0 ru1 ru2 f c c2 (by simpa using hw)
        (by simpa using hd), u3ok_norm]
      split <;> exact u3ok_nil u1 u2 u3 ru0 ru1 ru2 _

theorem u3ok_est (u1 u2 u3 ru0 ru1 ru2 : Char)
    (ha1 : isAlphaC (lowC u1) = true) (ha2 : isAlphaC (lowC u2) = true)
    (ha3 : isAlphaC (lowC u3) = true)
    (e1 : (lowC ru0 == lowC u1) = true) (e2 : (lowC ru1 == lowC u2) = true)
    (e3 : (lowC ru2 == lowC u3) = true)
    (hw2 : isWordC ru2 = true)
    (hd0 : isDigitC ru0 = false) (hs0 : isWs ru0 = false)
    (b : Bool) (l : List Char) :
    u3ok u1 u2 u3 ru0 ru1 ru2 (.norm b)
      (unit3Go u1 u2 u3 [ru0, ru1, ru2] (.norm b) l) = true :=
  u3ok_estM u1 u2 u3 ru0 ru1 ru2 ha1 ha2 ha3 e1 e2 e3 hw2 hd0 hs0 (.norm b) l

/-! ### Preservation of a unit fixed-point predicate across another unit pass -/

theorem u2ok_walk_digits (v1 v2 r0 r1 : Char) : ∀ (ds T : List Char),
    (∀ d ∈ ds, isDigitC d = true) →
    u2ok v1 v2 r0 r1 .digs (ds ++ T) = u2ok v1 v2 r0 r1 .digs T := by
  intro ds
  induction ds with
  | nil => intro T _; rfl
  | cons d ds2 ih =>
    intro T hds
    rw [List.cons_append, u2ok_digs_digit v1 v2 r0 r1 d _ (hds d (by simp))]
    exact ih T (fun x hx => hds x (by simp [hx]))

theorem u2ok_walk_norm (v1 v2 r0 r1 : Char) : ∀ (a T : List Char) (p : Bool),
    (∀ x ∈ a, isDigitC x = false) →
    u2ok v1 v2 r0 r1 (.norm p) (a ++ T) =
      u2ok v1 v2 r0 r1 (.norm (a.foldl (fun _ c => isWordC c) p)) T := by
  intro a
  induction a with
  | nil => intro T p _; rfl
  | cons x a2 ih =>
    intro T p hx
    rw [List.cons_append, u2ok_norm, if_neg (by simp [hx x (by simp)])]
    exact ih T (isWordC x) (fun z hz => hx z (by simp [hz]))

theorem u3ok_walk_digits (v1 v2 v3 r0 r1 r2 : Char) : ∀ (ds T : List Char),
    (∀ d ∈ ds, isDigitC d = true) →
    u3ok v1 v2 v3 r0 r1 r2 .digs (ds ++ T) = u3ok v1 v2 v3 r0 r1 r2 .digs T := by
  intro ds
  induction ds with
  | nil => intro T _; rfl
  | cons d ds2 ih =>
    intro T hds
    rw [List.cons_append, u3ok_digs_digit v1 v2 v3 r0 r1 r2 d _ (hds d (by simp))]
    exact ih T (fun x hx => hds x (by simp [hx]))

theorem u3ok_walk_norm (v1 v2 v3 r0 r1 r2 : Char) : ∀ (a T : List Char) (p : Bool),
    (∀ x ∈ a, isDigitC x = false) →
    u3ok v1 v2 v3 r0 r1 r2 (.norm p) (a ++ T) =
      u3ok v1 v2 v3 r0 r1 r2 (.norm (a.foldl (fun _ c => isWordC c) p)) T := by
  intro a
  induction a with
  | nil => intro T p _; rfl
  | cons x a2 ih =>
    intro T p hx
    rw [List.cons_append, u3ok_norm, if_neg (by simp [hx x (by simp)])]
    exact ih T (isWordC x) (fun z hz => hx z (by simp [hz]))

theorem urel_cons_head {lu ru : List Char} {b : Bool} {c2 : Char}
    {l3 o2 : List Char} (h : URel lu ru b (c2 :: l3) o2)
    (hc2 : isDigitC c2 = false) :
    ∃ o3, o2 = c2 :: o3 ∧ l3.head? = o3.head? := by
  generalize hz : (c2 :: l3) = z at h
  cases h with
  | nil => exact absurd hz (by simp)
  | copy b c hrel =>
    rename_i l4 o4
    injection hz with h1 h2
    subst h1
    subst h2
    exact ⟨o4, rfl, urel_head hrel⟩
  | repl ds ws us hne hdig hws hlow hword hnw hrel =>
    exfalso
    cases ds with
    | nil => exact hne rfl
    | cons d ds2 =>
      have hdd : isDigitC d = true := hdig d (by simp)
      simp only [List.cons_append] at hz
      injection hz with h1 h2
      rw [h1, hdd] at hc2
      exact Bool.noConfusion hc2

/-- Scanner-state wordness flag, aligned with the pass relation index. -/
def stFlag : UOSt → Bool
  | .norm b => b
  | .digs => true
  | .wsm _ => false

theorem urel_u2ok (v1 v2 r0 r1 : Char) (hv2a : isAlphaC (lowC v2) = true)
    {lu : List Char}
    (hlu2 : ∃ x y r, lu = x :: y :: r)
    (hcross : (match lu with
      | x :: y :: _ => !(x == lowC v1 && y == lowC v2)
      | _ => true) = true)
    (hlual : ∀ x ∈ lu, isAlphaC x = true)
    (hlulow : ∀ x ∈ lu, lowC x = x) :
    ∀ {b : Bool} {l o : List Char}, URel lu lu b l o →
    ∀ st : UOSt, stFlag st = b → u2ok v1 v2 r0 r1 st l = true →
    u2ok v1 v2 r0 r1 st o = true := by
  obtain ⟨x, y, r, rfl⟩ := hlu2
  have hxw : isWordC x = true := alpha_word (hlual x (by simp))
  have hyw : isWordC y = true := alpha_word (hlual y (by simp))
  have hxd : isDigitC x = false := alpha_not_digit (hlual x (by simp))
  have hxs : isWs x = false := word_not_ws hxw
  have hcross2 : (x == lowC v1 && y == lowC v2) = false := by
    cases hxy : (x == lowC v1 && y == lowC v2) with
    | false => rfl
    | true =>
      exfalso
      have h5 : (!(x == lowC v1 && y == lowC v2)) = true := hcross
      rw [hxy] at h5
      exact Bool.noConfusion h5
  intro b l o h
  induction h with
  | nil b => intro st _ _; exact u2ok_nil v1 v2 r0 r1 st
  | copy b c hrel ih =>
    rename_i l2 o2
    intro st hst hok
    cases st with
    | norm p =>
      by_cases hdc : (!p && isDigitC c) = true
      · rw [u2ok_norm, if_pos hdc] at hok ⊢
        refine ih .digs ?_ hok
        show true = isWordC c
        simp only [Bool.and_eq_true] at hdc
        exact (digit_word hdc.2).symm
      · rw [u2ok_norm, if_neg hdc] at hok ⊢
        exact ih (.norm (isWordC c)) rfl hok
    | digs =>
      by_cases hdc : isDigitC c = true
      · rw [u2ok_digs_digit v1 v2 r0 r1 c _ hdc] at hok ⊢
        exact ih .digs (show true = isWordC c from (digit_word hdc).symm) hok
      · by_cases hwc : isWs c = true
        · rw [u2ok_digs_ws v1 v2 r0 r1 c _ (by simpa using hdc) hwc] at hok ⊢
          exact ih (.wsm (c == ' '))
            (show false = isWordC c from (ws_not_word hwc).symm) hok
        · cases hl2 : l2 with
          | nil =>
            rw [hl2] at hrel
            rw [urel_nil_left hrel]
            exact u2ok_digs_one v1 v2 r0 r1 c (by simpa using hdc)
              (by simpa using hwc)
          | cons c2 l3 =>
            rw [hl2] at hok hrel ih
            by_cases hB : (lowC c2 == lowC v2) = true
            · have hc2d : isDigitC c2 = false := not_digit_of_lowC_alpha
                (by rw [show lowC c2 = lowC v2 by simpa using hB]; exact hv2a)
              obtain ⟨o3, rfl, hho⟩ := urel_cons_head hrel hc2d
              by_cases hA : (lowC c == lowC v1) = true
              · have hnw3 : hdNonWord l3 = false := by
                  cases hnw : hdNonWord l3 with
                  | false => rfl
                  | true =>
                    rw [u2ok_digs_chk_t v1 v2 r0 r1 c c2 l3 (by simpa using hdc)
                      (by simpa using hwc) (by simp [hA, hB, hnw])] at hok
                    exact Bool.noConfusion hok
                have hnwo : hdNonWord o3 = false := by
                  rw [hdNonWord_eq, ← hho, ← hdNonWord_eq]
                  exact hnw3
                rw [u2ok_digs_chk_f v1 v2 r0 r1 c c2 l3 (by simpa using hdc)
                  (by simpa using hwc) (by simp [hnw3])] at hok
                rw [u2ok_digs_chk_f v1 v2 r0 r1 c c2 o3 (by simpa using hdc)
                  (by simpa using hwc) (by simp [hnwo])]
                exact ih (.norm (isWordC c)) rfl hok
              · have hAf : (lowC c == lowC v1) = false := by simpa using hA
                rw [u2ok_digs_chk_f v1 v2 r0 r1 c c2 l3 (by simpa using hdc)
                  (by simpa using hwc) (by simp [hAf])] at hok
                rw [u2ok_digs_chk_f v1 v2 r0 r1 c c2 o3 (by simpa using hdc)
                  (by simpa using hwc) (by simp [hAf])]
                exact ih (.norm (isWordC c)) rfl hok
            · have hBf : (lowC c2 == lowC v2) = false := by simpa using hB
              obtain ⟨o3, rfl⟩ : ∃ o3, o2 = c2 :: o3 := by
                have hh := urel_head hrel
                cases o2 with
                | nil => simp at hh
                | cons z o3 =>
                  have : c2 = z := by simpa using hh
                  subst this
                  exact ⟨o3, rfl⟩
              rw [u2ok_digs_chk_f v1 v2 r0 r1 c c2 l3 (by simpa using hdc)
                (by simpa using hwc) (by simp [hBf])] at hok
              rw [u2ok_digs_chk_f v1 v2 r0 r1 c c2 o3 (by simpa using hdc)
                (by simpa using hwc) (by simp [hBf])]
              exact ih (.norm (isWordC c)) rfl hok
    | wsm s =>
      by_cases hwc : isWs c = true
      · rw [u2ok_wsm_ws v1 v2 r0 r1 s c _ hwc] at hok ⊢
        exact ih (.wsm false) (show false = isWordC c from (ws_not_word hwc).symm) hok
      · by_cases hdc : isDigitC c = true
        · rw [u2ok_wsm_digit v1 v2 r0 r1 s c _ (by simpa using hwc) hdc] at hok ⊢
          exact ih .digs (show true = isWordC c from (digit_word hdc).symm) hok
        · cases hl2 : l2 with
          | nil =>
            rw [hl2] at hrel
            rw [urel_nil_left hrel]
            exact u2ok_wsm_one v1 v2 r0 r1 s c (by simpa using hwc)
              (by simpa using hdc)
          | cons c2 l3 =>
            rw [hl2] at hok hrel ih
            by_cases hB : (lowC c2 == lowC v2) = true
            · have hc2d : isDigitC c2 = false := not_digit_of_lowC_alpha
                (by rw [show lowC c2 = lowC v2 by simpa using hB]; exact hv2a)
              obtain ⟨o3, rfl, hho⟩ := urel_cons_head hrel hc2d
              have hstep_in : u2ok v1 v2 r0 r1 (.norm (isWordC c)) (c2 :: l3) =
                  u2ok v1 v2 r0 r1 (.norm (isWordC c2)) l3 := by
                rw [u2ok_norm, if_neg (by simp [hc2d])]
              have hstep_out : u2ok v1 v2 r0 r1 (.norm (isWordC c)) (c2 :: o3) =
                  u2ok v1 v2 r0 r1 (.norm (isWordC c2)) o3 := by
                rw [u2ok_norm, if_neg (by simp [hc2d])]
              by_cases hA : (lowC c == lowC v1) = true
              · by_cases hnw : hdNonWord l3 = true
                · have hnwo : hdNonWord o3 = true := by
                    rw [hdNonWord_eq, ← hho, ← hdNonWord_eq]
                    exact hnw
                  rw [u2ok_wsm_chk_t v1 v2 r0 r1 s c c2 l3 (by simpa using hwc)
                    (by simpa using hdc) (by simp [hA, hB, hnw])] at hok
                  rw [u2ok_wsm_chk_t v1 v2 r0 r1 s c c2 o3 (by simpa using hwc)
                    (by simpa using hdc) (by simp [hA, hB, hnwo])]
                  rw [Bool.and_eq_true] at hok
                  obtain ⟨hguard, hrec⟩ := hok
                  rw [Bool.and_eq_true]
                  refine ⟨hguard, ?_⟩
                  have := ih (.norm (isWordC c)) rfl (by rw [hstep_in]; exact hrec)
                  rw [hstep_out] at this
                  exact this
                · have hnw3 : hdNonWord l3 = false := by simpa using hnw
                  have hnwo : hdNonWord o3 = false := by
                    rw [hdNonWord_eq, ← hho, ← hdNonWord_eq]
                    exact hnw3
                  rw [u2ok_wsm_chk_f v1 v2 r0 r1 s c c2 l3 (by simpa using hwc)
                    (by simpa using hdc) (by simp [hnw3])] at hok
                  rw [u2ok_wsm_chk_f v1 v2 r0 r1 s c c2 o3 (by simpa using hwc)
                    (by simpa using hdc) (by simp [hnwo])]
                  exact ih (.norm (isWordC c)) rfl hok
              · have hAf : (lowC c == lowC v1) = false := by simpa using hA
                rw [u2ok_wsm_chk_f v1 v2 r0 r1 s c c2 l3 (by simpa using hwc)
                  (by simpa using hdc) (by simp [hAf])] at hok
                rw [u2ok_wsm_chk_f v1 v2 r0 r1 s c c2 o3 (by simpa using hwc)
                  (by simpa using hdc) (by simp [hAf])]
                exact ih (.norm (isWordC c)) rfl hok
            · have hBf : (lowC c2 == lowC v2) = false := by simpa using hB
              obtain ⟨o3, rfl⟩ : ∃ o3, o2 = c2 :: o3 := by
                have hh := urel_head hrel
                cases o2 with
                | nil => simp at hh
                | cons z o3 =>
                  have : c2 = z := by simpa using hh
                  subst this
                  exact ⟨o3, rfl⟩
              rw [u2ok_wsm_chk_f v1 v2 r0 r1 s c c2 l3 (by simpa using hwc)
                (by simpa using hdc) (by simp [hBf])] at hok
              rw [u2ok_wsm_chk_f v1 v2 r0 r1 s c c2 o3 (by simpa using hwc)
                (by simpa using hdc) (by simp [hBf])]
              exact ih (.norm (isWordC c)) rfl hok
  | repl ds ws2 us hne hdig hws hlow hword hnw hrel ih =>
    rename_i l2 o2
    intro st hst hok
    have husD : ∀ z ∈ us, isDigitC z = false := fun z hz =>
      not_digit_of_lowC_alpha (hlual (lowC z)
        (by rw [← hlow]; exact List.mem_map_of_mem lowC hz))
    obtain ⟨u0, u1, ur, rfl, hlu0, hlu1⟩ :
        ∃ u0 u1 ur, us = u0 :: u1 :: ur ∧ lowC u0 = x ∧ lowC u1 = y := by
      cases us with
      | nil => simp [lowS] at hlow
      | cons a us2 =>
        cases us2 with
        | nil =>
          exfalso
          have := hlow
          simp only [lowS, List.map_cons, List.map_nil] at this
          exact absurd (List.cons.injEq _ _ _ _ ▸ this).2 (by simp)
        | cons a2 us3 =>
          have h5 := hlow
          simp only [lowS, List.map_cons] at h5
          refine ⟨a, a2, us3, rfl, ?_, ?_⟩
          · injection h5
          · injection h5 with h6 h7
            injection h7
    have hu0w : isWordC u0 = true := hword u0 (by simp)
    have hu0s : isWs u0 = false := word_not_ws hu0w
    have hu0d : isDigitC u0 = false := husD u0 (by simp)
    have hchkus : (lowC u0 == lowC v1 && lowC u1 == lowC v2) = false := by
      rw [hlu0, hlu1]
      exact hcross2
    have entry : ∀ T, u2ok v1 v2 r0 r1 st (ds ++ T) = u2ok v1 v2 r0 r1 .digs T := by
      intro T
      cases ds with
      | nil => exact absurd rfl hne
      | cons d ds2 =>
        have hdd := hdig d (by simp)
        cases st with
        | norm p =>
          have hp : p = false := by simpa [stFlag] using hst
          subst hp
          rw [List.cons_append, u2ok_norm, if_pos (by simp [hdd])]
          exact u2ok_walk_digits v1 v2 r0 r1 ds2 T (fun z hz => hdig z (by simp [hz]))
        | digs => exact absurd hst (by simp [stFlag])
        | wsm s =>
          rw [List.cons_append, u2ok_wsm_digit v1 v2 r0 r1 s d _
            (digit_not_ws hdd) hdd]
          exact u2ok_walk_digits v1 v2 r0 r1 ds2 T (fun z hz => hdig z (by simp [hz]))
    have afterchk : ∀ Z, u2ok v1 v2 r0 r1 (.norm (isWordC u0)) ((u1 :: ur) ++ Z) =
        u2ok v1 v2 r0 r1 (.norm true) Z := by
      intro Z
      rw [u2ok_walk_norm v1 v2 r0 r1 (u1 :: ur) Z (isWordC u0)
        (fun z hz => husD z (by simp [hz]))]
      rw [foldl_flag_true _ (u1 :: ur) _ (by simp)
        (fun z hz => hword z (by simp [hz]))]
    have hin : u2ok v1 v2 r0 r1 (.norm true) l2 = true := by
      rw [List.append_assoc, List.append_assoc] at hok
      rw [entry] at hok
      cases ws2 with
      | nil =>
        simp only [List.nil_append] at hok
        rw [show (u0 :: u1 :: ur) ++ l2 = u0 :: u1 :: (ur ++ l2) by simp] at hok
        rw [u2ok_digs_chk_f v1 v2 r0 r1 u0 u1 (ur ++ l2) hu0d hu0s
          (by simp [hchkus])] at hok
        rw [show u1 :: (ur ++ l2) = (u1 :: ur) ++ l2 by simp, afterchk] at hok
        exact hok
      | cons w0 wsr =>
        obtain ⟨f, hf⟩ := u2ok_walk_ws_digs v1 v2 r0 r1 (w0 :: wsr)
          ((u0 :: u1 :: ur) ++ l2) (by simp) hws
        rw [hf] at hok
        rw [show (u0 :: u1 :: ur) ++ l2 = u0 :: u1 :: (ur ++ l2) by simp] at hok
        rw [u2ok_wsm_chk_f v1 v2 r0 r1 f u0 u1 (ur ++ l2) hu0s hu0d
          (by simp [hchkus])] at hok
        rw [show u1 :: (ur ++ l2) = (u1 :: ur) ++ l2 by simp, afterchk] at hok
        exact hok
    have hores := ih (.norm true) rfl hin
    rw [List.append_assoc, entry]
    simp only [List.cons_append]
    rw [u2ok_digs_ws v1 v2 r0 r1 ' ' _ (by decide) (by decide)]
    rw [u2ok_wsm_chk_f v1 v2 r0 r1 _ x y (r ++ o2) hxs hxd
      (by simp [hlulow x (by simp), hlulow y (by simp [List.mem_cons]), hcross2])]
    rw [show y :: (r ++ o2) = (y :: r) ++ o2 by simp]
    rw [u2ok_walk_norm v1 v2 r0 r1 (y :: r) o2 (isWordC x)
      (fun z hz => alpha_not_digit (hlual z (by simp [hz])))]
    rw [foldl_flag_true _ (y :: r) _ (by simp)
      (fun z hz => alpha_word (hlual z (by simp [hz])))]
    exact hores
/-! ### Per-line invariants of the normalizer -/

theorem stripT_lastNotWs : ∀ l : List Char, lastNotWs (stripT l) = true := by
  intro l
  induction l with
  | nil => rfl
  | cons c cs ih =>
    rw [stripT_cons]
    split
    · split
      · rfl
      · simpa [lastNotWs] using (by assumption : ¬ isWs c = true)
    · rw [lastNotWs_cons_of_ne c (by assumption)]
      exact ih

theorem dropWhile_headNotWs : ∀ l : List Char,
    headNotWs (l.dropWhile isWs) = true := by
  intro l
  induction l with
  | nil => rfl
  | cons c cs ih =>
    rw [List.dropWhile_cons]
    split
    · exact ih
    · simpa [headNotWs] using (by assumption : ¬ isWs c = true)

theorem stripT_headNotWs {l : List Char} (h : headNotWs l = true) :
    headNotWs (stripT l) = true := by
  cases l with
  | nil => rfl
  | cons c cs =>
    have hc : isWs c = false := by simpa [headNotWs] using h
    obtain ⟨r, hr⟩ := stripT_head c cs hc
    rw [hr]
    simpa [headNotWs] using hc

theorem pyStrip_eq_stripT_dropWhile (l : List Char) :
    pyStrip l = stripT (l.dropWhile isWs) := by
  rw [pyStrip, stripT_eq_reverse_dropWhile]

theorem pyStrip_headNotWs (l : List Char) : headNotWs (pyStrip l) = true := by
  rw [pyStrip_eq_stripT_dropWhile]
  exact stripT_headNotWs (dropWhile_headNotWs l)

theorem pyStrip_lastNotWs (l : List Char) : lastNotWs (pyStrip l) = true := by
  rw [pyStrip_eq_stripT_dropWhile]
  exact stripT_lastNotWs _

theorem sameShape_ne {l o : List Char} (h : SameShape l o) (hne : l ≠ []) :
    o ≠ [] := by
  cases h with
  | nil => exact absurd rfl hne
  | cons a b _ _ _ _ => simp

theorem urel_ne {lu ru : List Char} {b : Bool} {l o : List Char}
    (h : URel lu ru b l o) (hne : l ≠ []) : o ≠ [] := by
  have hh := urel_head h
  intro ho
  rw [ho] at hh
  cases l with
  | nil => exact hne rfl
  | cons c cs => simp at hh

theorem urel_headNotWs {lu ru : List Char} {b : Bool} {l o : List Char}
    (h : URel lu ru b l o) : headNotWs o = headNotWs l := by
  rw [headNotWs_eq, headNotWs_eq, urel_head h]

/-- Conjunction of the shape facts holding for every normalized line. -/
def lineInv (z : List Char) : Prop :=
  wsOk z = true ∧ pok false z = true ∧ headNotWs z = true ∧ z ≠ [] ∧
  noW2 '0' 'D' false z = true ∧
  u2ok 'M' 'G' 'm' 'g' (.norm false) z = true ∧
  u2ok 'M' 'L' 'm' 'l' (.norm false) z = true ∧
  u3ok 'M' 'C' 'G' 'm' 'c' 'g' (.norm false) z = true

theorem cleanLine_inv (y : List Char) (hne : y ≠ []) (hh : headNotWs y = true)
    (hl : lastNotWs y = true) : lineInv (cleanLine y) := by
  have hBD : wordRepl2Go 'B' 'D' "BD".data false (wordRepl2Go '0' 'D' "OD".data false
      (punctSp (collapseWs y))) = wordRepl2Go '0' 'D' "OD".data false
      (punctSp (collapseWs y)) := wr2_id 'B' 'D' false _
  have hTDS : ∀ l : List Char, wordRepl3Go 'T' 'D' 'S' "TDS".data false l = l :=
    fun l => wr3_id 'T' 'D' 'S' false l
  have hQID : ∀ l : List Char, wordRepl3Go 'Q' 'I' 'D' "QID".data false l = l :=
    fun l => wr3_id 'Q' 'I' 'D' false l
  have hcl : cleanLine y =
      unit3Go 'M' 'C' 'G' "mcg".data (.norm false)
        (unit2Go 'M' 'L' "ml".data (.norm false)
          (unit2Go 'M' 'G' "mg".data (.norm false)
            (wordRepl2Go '0' 'D' "OD".data false
              (punctSp (collapseWs y))))) := by
    rw [cleanLine, hQID, hTDS, hBD]
  -- stage values
  set x0 := collapseWs y with hx0
  set x1 := punctSp x0 with hx1
  set x2 := wordRepl2Go '0' 'D' "OD".data false x1 with hx2
  set x3 := unit2Go 'M' 'G' "mg".data (.norm false) x2 with hx3
  set x4 := unit2Go 'M' 'L' "ml".data (.norm false) x3 with hx4
  set z := unit3Go 'M' 'C' 'G' "mcg".data (.norm false) x4 with hz
  -- stage 0: collapse
  have h0ws : wsOk x0 = true := collapseGo_wsOk y false
  have h0last : lastNotWs x0 = true := (collapseGo_last y false hl).1
  have h0ne : x0 ≠ [] := fun he => hne ((collapseGo_last y false hl).2 he)
  have h0hd : headNotWs x0 = true := by
    cases y with
    | nil => exact absurd rfl hne
    | cons c cs =>
      have hc : ¬ isWs c = true := by simpa [headNotWs] using hh
      rw [hx0, collapseWs]
      simp [collapseGo, hc, headNotWs]
  -- stage 1: punctuation spacing
  obtain ⟨h1ws, h1pok⟩ := punctGo_estab x0 [] false h0ws h0last (Or.inl rfl)
    (by simp)
  have h1hd : headNotWs x1 = true := punctGo_headNotWs x0 h0hd
  have h1ne : x1 ≠ [] := by
    cases hx : x0 with
    | nil => exact absurd hx h0ne
    | cons c cs =>
      have hc : isWs c = false := by
        rw [hx] at h0hd
        simpa [headNotWs] using h0hd
      rw [hx1, hx]
      exact punctGo_ne_nil c cs hc
  -- stage 2: 0D → OD
  have hOD : "OD".data = ['O', 'D'] := rfl
  have h2shape : SameShape x1 x2 := by
    rw [hx2, hOD]
    exact od0_sameShape false x1
  have h2ws : wsOk x2 = true := sameShape_wsOk h2shape h1ws
  have h2pok : pok false x2 = true := sameShape_pok h2shape false h1pok
  have h2hd : headNotWs x2 = true := (sameShape_headNotWs h2shape) ▸ h1hd
  have h2ne : x2 ≠ [] := sameShape_ne h2shape h1ne
  have h2noW : noW2 '0' 'D' false x2 = true := by
    rw [hx2, hOD]
    exact od0_noW2 false x1
  -- URel instances for the three unit passes
  have relMG : URel ['m', 'g'] ['m', 'g'] false x2 x3 := by
    have h5 := unit2Go_urel 'M' 'G' "mg".data (by decide) (by decide) false x2
    rw [show [lowC 'M', lowC 'G'] = ['m', 'g'] from by decide,
      show "mg".data = ['m', 'g'] from rfl] at h5
    exact h5
  have relML : URel ['m', 'l'] ['m', 'l'] false x3 x4 := by
    have h5 := unit2Go_urel 'M' 'L' "ml".data (by decide) (by decide) false x3
    rw [show [lowC 'M', lowC 'L'] = ['m', 'l'] from by decide,
      show "ml".data = ['m', 'l'] from rfl] at h5
    exact h5
  have relMCG : URel ['m', 'c', 'g'] ['m', 'c', 'g'] false x4 z := by
    have h5 := unit3Go_urel 'M' 'C' 'G' "mcg".data (by decide) (by decide)
      (by decide) false x4
    rw [show [lowC 'M', lowC 'C', lowC 'G'] = ['m', 'c', 'g'] from by decide,
      show "mcg".data = ['m', 'c', 'g'] from rfl] at h5
    exact h5
  -- stage 3: mg
  have h3ws : wsOk x3 = true := urel_wsOk (by simp) (by decide) relMG h2ws
  have h3pok : pok false x3 = true := urel_pok (by simp) (by decide) (by simp)
    relMG false h2pok
  have h3hd : headNotWs x3 = true := (urel_headNotWs relMG) ▸ h2hd
  have h3ne : x3 ≠ [] := urel_ne relMG h2ne
  have h3noW : noW2 '0' 'D' false x3 = true := urel_noW2 (by simp) (by simp)
    (by decide) (by decide) relMG h2noW
  have h3mg : u2ok 'M' 'G' 'm' 'g' (.norm false) x3 = true := by
    have h5 := u2ok_est 'M' 'G' 'm' 'g' (by decide) (by decide) (by decide)
      (by decide) (by decide) (by decide) (by decide) false x2
    rw [show ([('m' : Char), 'g'] : List Char) = "mg".data from rfl] at h5
    exact h5
  -- stage 4: ml
  have h4ws : wsOk x4 = true := urel_wsOk (by simp) (by decide) relML h3ws
  have h4pok : pok false x4 = true := urel_pok (by simp) (by decide) (by simp)
    relML false h3pok
  have h4hd : headNotWs x4 = true := (urel_headNotWs relML) ▸ h3hd
  have h4ne : x4 ≠ [] := urel_ne relML h3ne
  have h4noW : noW2 '0' 'D' false x4 = true := urel_noW2 (by simp) (by simp)
    (by decide) (by decide) relML h3noW
  have h4mg : u2ok 'M' 'G' 'm' 'g' (.norm false) x4 = true :=
    urel_u2ok 'M' 'G' 'm' 'g' (by decide) ⟨'m', 'l', [], rfl⟩ (by decide)
      (by decide) (by decide) relML (.norm false) rfl h3mg
  have h4ml : u2ok 'M' 'L' 'm' 'l' (.norm false) x4 = true := by
    have h5 := u2ok_est 'M' 'L' 'm' 'l' (by decide) (by decide) (by decide)
      (by decide) (by decide) (by decide) (by decide) false x3
    rw [show ([('m' : Char), 'l'] : List Char) = "ml".data from rfl] at h5
    exact h5
  -- stage 5: mcg
  have h5ws : wsOk z = true := urel_wsOk (by simp) (by decide) relMCG h4ws
  have h5pok : pok false z = true := urel_pok (by simp) (by decide) (by simp)
    relMCG false h4pok
  have h5hd : headNotWs z = true := (urel_headNotWs relMCG) ▸ h4hd
  have h5ne : z ≠ [] := urel_ne relMCG h4ne
  have h5noW : noW2 '0' 'D' false z = true := urel_noW2 (by simp) (by simp)
    (by decide) (by decide) relMCG h4noW
  have h5mg : u2ok 'M' 'G' 'm' 'g' (.norm false) z = true :=
    urel_u2ok 'M' 'G' 'm' 'g' (by decide) ⟨'m', 'c', ['g'], rfl⟩ (by decide)
      (by decide) (by decide) relMCG (.norm false) rfl h4mg
  have h5ml : u2ok 'M' 'L' 'm' 'l' (.norm false) z = true :=
    urel_u2ok 'M' 'L' 'm' 'l' (by decide) ⟨'m', 'c', ['g'], rfl⟩ (by decide)
      (by decide) (by decide) relMCG (.norm false) rfl h4ml
  have h5mcg : u3ok 'M' 'C' 'G' 'm' 'c' 'g' (.norm false) z = true := by
    have h5 := u3ok_est 'M' 'C' 'G' 'm' 'c' 'g' (by decide) (by decide) (by decide)
      (by decide) (by decide) (by decide) (by decide) (by decide) (by decide)
      false x4
    rw [show ([('m' : Char), 'c', 'g'] : List Char) = "mcg".data from rfl] at h5
    exact h5
  rw [show cleanLine y = z from by rw [hcl]]
  exact ⟨h5ws, h5pok, h5hd, h5ne, h5noW, h5mg, h5ml, h5mcg⟩

theorem cleanLine_fix (z : List Char) (hz : lineInv z) :
    cleanLine (pyStrip z) = z := by
  obtain ⟨hws, hpok, hhd, hne, hnoW, hmg, hml, hmcg⟩ := hz
  have hstrip : pyStrip z = stripT z := pyStrip_of_headNotWs z hhd
  rw [hstrip]
  rw [cleanLine, wr3_id, wr3_id]
  rw [show "BD".data = ['B', 'D'] from rfl, wr2_id]
  have hcoll : collapseWs (stripT z) = stripT z :=
    collapseGo_fix (stripT z) (wsOk_stripT hws)
  rw [show collapseWs (stripT z) = stripT z from hcoll]
  rw [show punctSp (stripT z) = z from punct_restore z hws hpok]
  rw [show wordRepl2Go '0' 'D' "OD".data false z = z from
    noW2_fix '0' 'D' "OD".data false z hnoW]
  rw [show unit2Go 'M' 'G' "mg".data (.norm false) z = z from by
    have h5 := u2ok_fix 'M' 'G' 'm' 'g' z hmg
    rw [show ([('m' : Char), 'g'] : List Char) = "mg".data from rfl] at h5
    exact h5]
  rw [show unit2Go 'M' 'L' "ml".data (.norm false) z = z from by
    have h5 := u2ok_fix 'M' 'L' 'm' 'l' z hml
    rw [show ([('m' : Char), 'l'] : List Char) = "ml".data from rfl] at h5
    exact h5]
  rw [show unit3Go 'M' 'C' 'G' "mcg".data (.norm false) z = z from by
    have h5 := u3ok_fix 'M' 'C' 'G' 'm' 'c' 'g' z hmcg
    rw [show ([('m' : Char), 'c', 'g'] : List Char) = "mcg".data from rfl] at h5
    exact h5]

theorem stripT_ne_nil {z : List Char} (hh : headNotWs z = true) (hne : z ≠ []) :
    stripT z ≠ [] := by
  cases z with
  | nil => exact absurd rfl hne
  | cons c cs =>
    have hc : isWs c = false := by simpa [headNotWs] using hh
    obtain ⟨r, hr⟩ := stripT_head c cs hc
    rw [hr]
    simp

theorem cleanLines_inv (t : List Char) : ∀ z ∈ cleanLines t, lineInv z := by
  intro z hz
  rw [cleanLines] at hz
  obtain ⟨y, hy, hzy⟩ := List.mem_map.1 hz
  obtain ⟨hy1, hy2⟩ := List.mem_filter.1 hy
  have hne : y ≠ [] := by simpa using hy2
  obtain ⟨w, _, hw⟩ := List.mem_map.1 hy1
  have hh : headNotWs y = true := hw ▸ pyStrip_headNotWs w
  have hl : lastNotWs y = true := hw ▸ pyStrip_lastNotWs w
  rw [← hzy]
  exact cleanLine_inv y hne hh hl

theorem cleanLines_roundtrip : ∀ ys : List (List Char), (∀ z ∈ ys, lineInv z) →
    ((ys.map pyStrip).filter (fun l => !l.isEmpty)).map cleanLine = ys := by
  intro ys h
  induction ys with
  | nil => rfl
  | cons z zs ih =>
    have hz := h z (by simp)
    have hhd : headNotWs z = true := hz.2.2.1
    have hne : z ≠ [] := hz.2.2.2.1
    have hps : pyStrip z = stripT z := pyStrip_of_headNotWs z hhd
    have hsne : pyStrip z ≠ [] := by
      rw [hps]
      exact stripT_ne_nil hhd hne
    simp only [List.map_cons, List.filter_cons]
    rw [if_pos (by simpa using hsne)]
    simp only [List.map_cons]
    rw [cleanLine_fix z hz, ih (fun w hw => h w (by simp [hw]))]

theorem cleanTextL_idem (t : List Char) :
    cleanTextL (cleanTextL t) = cleanTextL t := by
  by_cases ht : t.isEmpty
  · have h1 : cleanTextL t = t := by rw [cleanTextL, if_pos ht]
    rw [h1]
    exact h1
  · have hinv := cleanLines_inv t
    cases hys : cleanLines t with
    | nil =>
      have h1 : cleanTextL t = [] := by
        rw [cleanTextL, if_neg ht, hys]
        simp [List.intercalate]
      rw [h1]
      rfl
    | cons z zs =>
      rw [hys] at hinv
      have h1 : cleanTextL t = List.intercalate ['\n'] (z :: zs) := by
        rw [cleanTextL, if_neg ht, hys]
      rw [h1]
      by_cases ht2 : (List.intercalate ['\n'] (z :: zs)).isEmpty
      · rw [cleanTextL, if_pos ht2]
      · rw [cleanTextL, if_neg ht2]
        have hspl : splitNl (List.intercalate ['\n'] (z :: zs)) = z :: zs :=
          splitNl_intercalate (z :: zs) (by simp)
            (fun y hy => wsOk_noNl y (hinv y hy).1)
        rw [cleanLines, hspl, cleanLines_roundtrip (z :: zs) hinv]

/-- C9: the text normalizer is idempotent — for every input string `t`,
`_clean_text (_clean_text t) = _clean_text t`. -/
theorem c9_clean_text_idempotent (t : String) :
    clean_text (clean_text t) = clean_text t := by
  show String.mk (cleanTextL (cleanTextL t.data)) = String.mk (cleanTextL t.data)
  rw [cleanTextL_idem]

end MediTrack
